import Mathlib

/-!
# ICPC scoreboard engine (`src/main.cpp`)

A shallow embedding of the scoreboard engine of `src/main.cpp` and a
verification of its specification.

Conventions of the embedding

* `int` is `Int`: the arithmetic of the engine is exact integer arithmetic.
* `string` is `String`, compared with `strLt`, the lexicographic order on the
  characters that `operator<` of `std::string` computes on the bytes.
* `std::map<string, V>` is an association list.  `Map.find` is `find`,
  `Map.get` reads the value `operator[]` refers to (the value-initialised `V`
  when the key is absent), `Map.touch` is the insertion `operator[]` performs
  on an absent key and `Map.set` is an assignment through `operator[]`; new
  keys are inserted in key order, the order the loop over `teams` follows.
* `Team*` is the key of the team in `teams`: the nodes of a `std::map` never
  move, and `add_team` stores `&teams[team_name]`.  In a reachable state every
  pointer of `team_ptrs` addresses a team of `teams` (`reachable_ptrInv`).
* `std::sort` with a comparator is `sortBy`, an insertion sort.  On the teams of
  a reachable state `compare_teams` is a strict total order, so every correct
  sorting algorithm returns the same sequence (`sorted_perm_unique`).
* `cout` is the list of the lines printed, returned next to the new state.
-/

namespace ICPC

/-! ## Data model -/

/-- The struct `Submission` (main.cpp 12-18). -/
structure Submission where
  problem : String
  status : String
  time : Int
deriving DecidableEq, Repr

/-- The struct `ProblemStatus` (main.cpp 20-27). -/
structure ProblemStatus where
  wrong_attempts : Int
  solved : Bool
  solve_time : Int
  frozen_submissions : Int
deriving DecidableEq, Repr

/-- The constructor `ProblemStatus()`. -/
instance : Inhabited ProblemStatus := ⟨⟨0, false, 0, 0⟩⟩

/-- Lexicographic comparison of two character sequences. -/
def lexLt : List Char → List Char → Bool
  | [], [] => false
  | [], _ :: _ => true
  | _ :: _, [] => false
  | a :: as, b :: bs =>
    if a.toNat < b.toNat then true
    else if b.toNat < a.toNat then false
    else lexLt as bs

/-- The operator `<` of `std::string`: lexicographic on the characters. -/
def strLt (a b : String) : Bool := lexLt a.data b.data

namespace Map

/-- The lookup `m.find(k)`: the value stored under `k`, if any. -/
def find {β : Type} : List (String × β) → String → Option β
  | [], _ => none
  | (k', v) :: r, k => if k' = k then some v else find r k

/-- The value `m[k]` refers to: the stored one, or a value-initialised one. -/
def get {β : Type} [Inhabited β] (m : List (String × β)) (k : String) : β :=
  (find m k).getD default

/-- The assignment through a reference to the value stored under `k`. -/
def replace {β : Type} : List (String × β) → String → β → List (String × β)
  | [], _, _ => []
  | (k', v') :: r, k, v => if k' = k then (k, v) :: r else (k', v') :: replace r k v

/-- The insertion of a new pair at its place in key order. -/
def insert {β : Type} : List (String × β) → String → β → List (String × β)
  | [], k, v => [(k, v)]
  | (k', v') :: r, k, v =>
    if strLt k k' then (k, v) :: (k', v') :: r else (k', v') :: insert r k v

/-- The assignment `m[k] = v`: replaces the value stored under `k`, or inserts
the pair when the key is absent. -/
def set {β : Type} (m : List (String × β)) (k : String) (v : β) : List (String × β) :=
  match find m k with
  | some _ => replace m k v
  | none => insert m k v

/-- The side effect of evaluating `m[k]`: an absent key is inserted with a
value-initialised value. -/
def touch {β : Type} [Inhabited β] (m : List (String × β)) (k : String) :
    List (String × β) :=
  match find m k with
  | some _ => m
  | none => set m k default

end Map

/-- The struct `Team` (main.cpp 29-38), without its member functions. -/
structure Team where
  name : String
  problems : List (String × ProblemStatus)
  submissions : List Submission
  solved_count : Int
  total_penalty : Int
  solve_times : List Int
deriving DecidableEq, Repr

/-- The constructor `Team()`. -/
instance : Inhabited Team := ⟨⟨"", [], [], 0, 0, []⟩⟩

/-- The constructor `Team(string n)`. -/
def Team.new (n : String) : Team := ⟨n, [], [], 0, 0, []⟩

/-- The call `sort(solve_times.rbegin(), solve_times.rend())`: ascending through
reverse iterators, that is descending. -/
def sortDesc (l : List Int) : List Int :=
  List.insertionSort (fun a b : Int => b ≤ a) l

/-- The member `Team::update_status` (main.cpp 40-55). -/
def Team.update_status (t : Team) (problem status : String) (time : Int) : Team :=
  let t1 : Team :=
    { t with submissions := t.submissions ++ [⟨problem, status, time⟩],
             problems := Map.touch t.problems problem }
  let p := Map.get t1.problems problem
  if p.solved then t1
  else if status = "Accepted" then
    { t1 with
        problems := Map.set t1.problems problem ({ p with solved := true, solve_time := time }),
        solved_count := t1.solved_count + 1,
        total_penalty := t1.total_penalty + (p.wrong_attempts * 20 + time),
        solve_times := sortDesc (t1.solve_times ++ [time]) }
  else
    { t1 with
        problems := Map.set t1.problems problem
          ({ p with wrong_attempts := p.wrong_attempts + 1 }) }

/-- The member `Team::freeze_problem` (main.cpp 57-61). -/
def Team.freeze_problem (t : Team) (problem : String) : Team :=
  let t1 : Team := { t with problems := Map.touch t.problems problem }
  let p := Map.get t1.problems problem
  if !p.solved then
    { t1 with problems := Map.set t1.problems problem ({ p with frozen_submissions := 0 }) }
  else t1

/-- The member `Team::add_frozen_submission` (main.cpp 63-67). -/
def Team.add_frozen_submission (t : Team) (problem : String) : Team :=
  let t1 : Team := { t with problems := Map.touch t.problems problem }
  let p := Map.get t1.problems problem
  if !p.solved then
    { t1 with
        problems := Map.set t1.problems problem
          ({ p with frozen_submissions := p.frozen_submissions + 1 }) }
  else t1

/-- The private state of the class `ICPCManager` (main.cpp 82-90). -/
structure ICPCManager where
  teams : List (String × Team)
  team_ptrs : List String
  competition_started : Bool
  frozen : Bool
  duration_time : Int
  problem_count : Int
  problem_names : List String
  all_submissions : List Submission
deriving DecidableEq, Repr

/-- The constructor `ICPCManager()` (main.cpp 93). -/
def ICPCManager.init : ICPCManager :=
  ⟨[], [], false, false, 0, 0, [], []⟩

/-- The team a `Team*` of `team_ptrs` points to. -/
def ICPCManager.deref (s : ICPCManager) (p : String) : Team :=
  Map.get s.teams p

/-! ## Ranking -/

/-- The loop of `compare_teams` over the common indices of the two
`solve_times` vectors (main.cpp 266-270): the verdict at the first index where
they differ, if there is one. -/
def cmpTimes : List Int → List Int → Option Bool
  | x :: xs, y :: ys => if x ≠ y then some (decide (x < y)) else cmpTimes xs ys
  | _, _ => none

/-- The member `ICPCManager::compare_teams` (main.cpp 257-273). -/
def compare_teams (a b : Team) : Bool :=
  if a.solved_count ≠ b.solved_count then decide (a.solved_count > b.solved_count)
  else if a.total_penalty ≠ b.total_penalty then decide (a.total_penalty < b.total_penalty)
  else match cmpTimes a.solve_times b.solve_times with
    | some r => r
    | none => strLt a.name b.name

/-- Insertion of `a` before the first element it precedes. -/
def insertBy {α : Type} (lt : α → α → Bool) (a : α) : List α → List α
  | [] => [a]
  | b :: l => if lt a b then a :: b :: l else b :: insertBy lt a l

/-- The call `std::sort(v.begin(), v.end(), lt)`. -/
def sortBy {α : Type} (lt : α → α → Bool) : List α → List α
  | [] => []
  | a :: l => insertBy lt a (sortBy lt l)

/-- The copy of `team_ptrs` sorted with `compare_teams` on the teams pointed
to (main.cpp 142-145, 173-176, 188-191, 208-211). -/
def ICPCManager.ranked (s : ICPCManager) : List String :=
  sortBy (fun a b => compare_teams (s.deref a) (s.deref b)) s.team_ptrs

/-! ## Display -/

/-- The text of one cell (main.cpp 284-302). -/
def cell (problem : ProblemStatus) (frozen : Bool) : String :=
  if problem.solved then
    if problem.wrong_attempts = 0 then "+"
    else "+" ++ toString problem.wrong_attempts
  else if frozen && decide (problem.frozen_submissions > 0) then
    if problem.wrong_attempts = 0 then "0/" ++ toString problem.frozen_submissions
    else "-" ++ toString problem.wrong_attempts ++ "/" ++ toString problem.frozen_submissions
  else
    if problem.wrong_attempts = 0 then "."
    else "-" ++ toString problem.wrong_attempts

/-- The inner loop of `print_scoreboard` (main.cpp 280-303): the cells of one
team, and the team after the accesses `team->problems[problem_name]`. -/
def print_cells (frozen : Bool) : Team → List String → Team × String
  | t, [] => (t, "")
  | t, problem_name :: rest =>
    let t1 : Team := { t with problems := Map.touch t.problems problem_name }
    let c := cell (Map.get t1.problems problem_name) frozen
    let r := print_cells frozen t1 rest
    (r.1, " " ++ c ++ r.2)

/-- The outer loop of `print_scoreboard` from index `i` on (main.cpp 276-306).
The team is written back under the key it was read from. -/
def print_rows : ICPCManager → Nat → List String → ICPCManager × List String
  | s, _, [] => (s, [])
  | s, i, p :: rest =>
    let team := s.deref p
    let head := team.name ++ " " ++ toString (i + 1) ++ " " ++ toString team.solved_count
      ++ " " ++ toString team.total_penalty
    let r := print_cells s.frozen team s.problem_names
    let s1 : ICPCManager := { s with teams := Map.set s.teams p r.1 }
    let out := print_rows s1 (i + 1) rest
    (out.1, (head ++ r.2) :: out.2)

/-- The member `ICPCManager::print_scoreboard` (main.cpp 275-307). -/
def print_scoreboard (s : ICPCManager) (ranked_teams : List String) :
    ICPCManager × List String :=
  print_rows s 0 ranked_teams

/-! ## Operations -/

/-- The member `ICPCManager::add_team` (main.cpp 95-109). -/
def add_team (s : ICPCManager) (team_name : String) : ICPCManager × List String :=
  if s.competition_started then
    (s, ["[Error]Add failed: competition has started."])
  else if (Map.find s.teams team_name).isSome then
    (s, ["[Error]Add failed: duplicated team name."])
  else
    ({ s with teams := Map.set s.teams team_name (Team.new team_name),
              team_ptrs := s.team_ptrs ++ [team_name] },
     ["[Info]Add successfully."])

/-- The loop of `start_competition` (main.cpp 122-124): `string(1, 'A' + i)` for
`i` below `problems`. -/
def problemNames (problems : Int) : List String :=
  (List.range problems.toNat).map (fun i => String.singleton (Char.ofNat ((65 + i) % 256)))

/-- The member `ICPCManager::start_competition` (main.cpp 111-127). -/
def start_competition (s : ICPCManager) (duration problems : Int) :
    ICPCManager × List String :=
  if s.competition_started then
    (s, ["[Error]Start failed: competition has started."])
  else
    ({ s with competition_started := true,
              duration_time := duration,
              problem_count := problems,
              problem_names := problemNames problems },
     ["[Info]Competition starts."])

/-- The member `ICPCManager::submit` (main.cpp 129-137). -/
def submit (s : ICPCManager) (problem team_name status : String) (time : Int) :
    ICPCManager × List String :=
  if !s.competition_started then (s, [])
  else
    let s1 : ICPCManager :=
      { s with
          teams := Map.set s.teams team_name
            ((Map.get s.teams team_name).update_status problem status time) }
    if s1.frozen then
      ({ s1 with
          teams := Map.set s1.teams team_name
            ((Map.get s1.teams team_name).add_frozen_submission problem) }, [])
    else (s1, [])

/-- The member `ICPCManager::flush_scoreboard` (main.cpp 139-149). -/
def flush_scoreboard (s : ICPCManager) : ICPCManager × List String :=
  if !s.competition_started then (s, [])
  else
    let ranked_teams := s.ranked
    let r := print_scoreboard s ranked_teams
    (r.1, "[Info]Flush scoreboard." :: r.2)

/-- The member `ICPCManager::freeze_scoreboard` (main.cpp 151-161). -/
def freeze_scoreboard (s : ICPCManager) : ICPCManager × List String :=
  if !s.competition_started then (s, [])
  else if s.frozen then
    (s, ["[Error]Freeze failed: scoreboard has been frozen."])
  else
    ({ s with frozen := true }, ["[Info]Freeze scoreboard."])

/-- The loop of `scroll_scoreboard` over `teams` and `problem_names`
(main.cpp 182-186). -/
def freeze_all (teams : List (String × Team)) (problem_names : List String) :
    List (String × Team) :=
  teams.map (fun e => (e.1, problem_names.foldl Team.freeze_problem e.2))

/-- The loop of `scroll_scoreboard` over the positions of the two rankings
(main.cpp 193-197); `s` is the state the loop runs in. -/
def rank_changes (s : ICPCManager) : List String → List String → List String
  | b :: bs, a :: as =>
    if b ≠ a then
      ((s.deref b).name ++ " " ++ (s.deref a).name ++ " " ++ toString (s.deref b).solved_count
        ++ " " ++ toString (s.deref b).total_penalty) :: rank_changes s bs as
    else rank_changes s bs as
  | _, _ => []

/-- The state of `scroll_scoreboard` after the first table is printed, `frozen`
is reset and the counters are cleared (main.cpp 173-186). -/
def scroll_mid (s : ICPCManager) : ICPCManager :=
  let s1 := (print_scoreboard s s.ranked).1
  { s1 with frozen := false, teams := freeze_all s1.teams s1.problem_names }

/-- The member `ICPCManager::scroll_scoreboard` (main.cpp 163-200). -/
def scroll_scoreboard (s : ICPCManager) : ICPCManager × List String :=
  if !s.competition_started then (s, [])
  else if !s.frozen then
    (s, ["[Error]Scroll failed: scoreboard has not been frozen."])
  else
    let before_teams := s.ranked
    let out1 := (print_scoreboard s before_teams).2
    let s3 := scroll_mid s
    let after_teams := s3.ranked
    let changes := rank_changes s3 before_teams after_teams
    let r := print_scoreboard s3 after_teams
    (r.1, ["[Info]Scroll scoreboard."] ++ out1 ++ changes ++ r.2)

/-- The search loop of `query_ranking` (main.cpp 213-219): the 1-based position
of the first team of the ranking named `team_name`, from position `i + 1` on,
and 1 when there is none. -/
def find_rank (s : ICPCManager) (team_name : String) : Nat → List String → Int
  | _, [] => 1
  | i, p :: rest =>
    if (s.deref p).name = team_name then (i : Int) + 1 else find_rank s team_name (i + 1) rest

/-- The member `ICPCManager::query_ranking` (main.cpp 202-226). -/
def query_ranking (s : ICPCManager) (team_name : String) : ICPCManager × List String :=
  if (Map.find s.teams team_name).isNone then
    (s, ["[Error]Query ranking failed: cannot find the team."])
  else
    let rank := find_rank s team_name 0 s.ranked
    (s, ["[Info]Complete query ranking."]
      ++ (if s.frozen then
            ["[Warning]Scoreboard is frozen. The ranking may be inaccurate until it were scrolled."]
          else [])
      ++ [team_name ++ " NOW AT RANKING " ++ toString rank])

/-- The test of the loop of `query_submission` (main.cpp 240-243). -/
def sub_match (problem status : String) (it : Submission) : Bool :=
  (problem = "ALL" || it.problem = problem) && (status = "ALL" || it.status = status)

/-- The member `ICPCManager::query_submission` (main.cpp 228-250). -/
def query_submission (s : ICPCManager) (team_name problem status : String) :
    ICPCManager × List String :=
  if (Map.find s.teams team_name).isNone then
    (s, ["[Error]Query submission failed: cannot find the team."])
  else
    let submissions := (Map.get s.teams team_name).submissions
    match submissions.reverse.find? (sub_match problem status) with
    | some it =>
      (s, ["[Info]Complete query submission.",
           team_name ++ " " ++ it.problem ++ " " ++ it.status ++ " " ++ toString it.time])
    | none =>
      (s, ["[Info]Complete query submission.", "Cannot find any submission."])

/-! ## Command streams -/

/-- The calls `main` makes on the manager, one per command line (main.cpp
321-353). -/
inductive Cmd where
  | addteam (team_name : String)
  | start (duration problems : Int)
  | submit (problem team_name status : String) (time : Int)
  | flush
  | freeze
  | scroll
  | query_ranking (team_name : String)
  | query_submission (team_name problem status : String)
deriving DecidableEq, Repr

/-- One command: the new state and the lines printed. -/
def step (s : ICPCManager) : Cmd → ICPCManager × List String
  | .addteam n => add_team s n
  | .start d p => start_competition s d p
  | .submit p t st tm => submit s p t st tm
  | .flush => flush_scoreboard s
  | .freeze => freeze_scoreboard s
  | .scroll => scroll_scoreboard s
  | .query_ranking t => query_ranking s t
  | .query_submission t p st => query_submission s t p st

/-- The state after a sequence of commands. -/
def run (s : ICPCManager) : List Cmd → ICPCManager
  | [] => s
  | c :: cs => run (step s c).1 cs

/-- The lines printed by a sequence of commands. -/
def runOut (s : ICPCManager) : List Cmd → List String
  | [] => []
  | c :: cs => (step s c).2 ++ runOut (step s c).1 cs

/-- The states the engine can be in: those a command stream leads to from the
state the constructor builds. -/
def Reachable (s : ICPCManager) : Prop :=
  ∃ cmds : List Cmd, run ICPCManager.init cmds = s

/-! ## Definitions of the verification -/

/-- A property of teams that each operation of the engine on one team keeps. -/
structure TeamStable (P : Team → Prop) : Prop where
  dflt : P default
  new : ∀ n, P (Team.new n)
  touch : ∀ t p, P t → P { t with problems := Map.touch t.problems p }
  submit : ∀ t p st tm, P t → P (t.update_status p st tm)
  submit_frozen : ∀ t p st tm, P t → P ((t.update_status p st tm).add_frozen_submission p)
  freeze : ∀ t p, P t → P (t.freeze_problem p)

/-- Every team stored in the map has the property. -/
def AllTeams (P : Team → Prop) (m : List (String × Team)) : Prop :=
  ∀ k t, Map.find m k = some t → P t

/-- The sum of a weight over the entries of a problem map. -/
def wsum (g : ProblemStatus → Int) (m : List (String × ProblemStatus)) : Int :=
  (m.map (fun e => g e.2)).sum

/-- The weight counting the solved problems. -/
def solvedW (p : ProblemStatus) : Int := if p.solved then 1 else 0

/-- The weight adding up the penalty of the solved problems. -/
def penaltyW (p : ProblemStatus) : Int :=
  if p.solved then 20 * p.wrong_attempts + p.solve_time else 0

/-- The entries of the problem map of a team with `solved = true`. -/
def Team.solvedProblems (t : Team) : List ProblemStatus :=
  (t.problems.filter (fun e => e.2.solved)).map Prod.snd

/-- The aggregates of a team agree with its problem map, and `solve_times` has
one entry per solved problem. -/
def TeamAgg (t : Team) : Prop :=
  t.solved_count = wsum solvedW t.problems ∧
  t.total_penalty = wsum penaltyW t.problems ∧
  (t.solve_times.length : Int) = t.solved_count

/-- A command stream used to instantiate the theorems: two teams, a solved
problem with one wrong attempt, then a freeze followed by a rejected and an
accepted submission. -/
def sampleCmds : List Cmd :=
  [.addteam "T1", .addteam "T0", .start 100 3,
   .submit "A" "T1" "Wrong_Answer" 10, .submit "A" "T1" "Accepted" 15,
   .freeze, .submit "B" "T1" "Wrong_Answer" 20, .submit "C" "T0" "Accepted" 30]

/-- The state the sample command stream leads to. -/
def sampleState : ICPCManager := run ICPCManager.init sampleCmds

/-- The submissions of a list, given by status and time, recorded in order with
`update_status` on one problem of a team. -/
def Team.record (t : Team) (problem : String) (subs : List (String × Int)) : Team :=
  subs.foldl (fun u x => u.update_status problem x.1 x.2) t

/-- The index `i` is the first one at which the two sequences differ, below the
length of the shorter one. -/
def FirstDiff (xs ys : List Int) (i : Nat) : Prop :=
  i < min xs.length ys.length ∧
  (∀ j, j < i → xs.getD j 0 = ys.getD j 0) ∧
  xs.getD i 0 ≠ ys.getD i 0

/-- The two sequences agree at every index below the length of the shorter. -/
def AgreeOnCommon (xs ys : List Int) : Prop :=
  ∀ i, i < min xs.length ys.length → xs.getD i 0 = ys.getD i 0

/-- The reference order of the specification (section 4.2): more problems
solved, then less penalty, then the smaller solve time at the first index where
the solve times differ, then the smaller name. -/
def compare_ref (a b : Team) : Prop :=
  a.solved_count > b.solved_count ∨
  (a.solved_count = b.solved_count ∧ a.total_penalty < b.total_penalty) ∨
  (a.solved_count = b.solved_count ∧ a.total_penalty = b.total_penalty ∧
    ∃ i, FirstDiff a.solve_times b.solve_times i ∧
      a.solve_times.getD i 0 < b.solve_times.getD i 0) ∨
  (a.solved_count = b.solved_count ∧ a.total_penalty = b.total_penalty ∧
    AgreeOnCommon a.solve_times b.solve_times ∧ strLt a.name b.name = true)

/-- The comparator `lt` is a strict total order on the elements that satisfy
`S`. -/
structure StrictTotalOn {α : Type} (lt : α → α → Bool) (S : α → Prop) : Prop where
  irrefl : ∀ a, S a → lt a a = false
  trans : ∀ a b c, S a → S b → S c → lt a b = true → lt b c = true → lt a c = true
  total : ∀ a b, S a → S b → a ≠ b → lt a b = true ∨ lt b a = true

/-- A relation between teams that holds between a team and the same team after
the accesses `problems[problem_name]` of the display. -/
structure TouchRel (R : Team → Team → Prop) : Prop where
  refl : ∀ t, R t t
  trans : ∀ a b c, R a b → R b c → R a c
  touch : ∀ t p, R t { t with problems := Map.touch t.problems p }

/-- A relation between teams that holds between a team and the same team after
the operations that display and scroll the scoreboard perform on it. -/
structure ViewRel (R : Team → Team → Prop) extends TouchRel R : Prop where
  freeze : ∀ t p, R t (t.freeze_problem p)

/-- A relation between teams that holds between a team and the same team after
each operation of the engine on it. -/
structure TeamRel (R : Team → Team → Prop) extends ViewRel R : Prop where
  update : ∀ t p st tm, R t (t.update_status p st tm)
  add_frozen : ∀ t p, R t (t.add_frozen_submission p)

/-- The pointers of `team_ptrs` are distinct, and each one addresses a team of
the mapping that carries the name it is stored under. -/
def PtrInv (s : ICPCManager) : Prop :=
  s.team_ptrs.Nodup ∧ ∀ p ∈ s.team_ptrs, ∃ t, Map.find s.teams p = some t ∧ t.name = p

/-- The comparison of two pointers `std::sort` is called with. -/
def ICPCManager.ptrLt (s : ICPCManager) (a b : String) : Bool :=
  compare_teams (s.deref a) (s.deref b)

/-- The number of ranked teams that compare_teams places before the team
`x`. -/
def ICPCManager.placedBefore (s : ICPCManager) (x : String) : Nat :=
  s.team_ptrs.countP (fun p => compare_teams (s.deref p) (s.deref x))

/-- The submissions a command stream makes for the team `k` while the contest
is started, in arrival order; `started` tells whether the contest has started
when the stream begins. -/
def submissionsFor (k : String) : Bool → List Cmd → List Submission
  | _, [] => []
  | _, .start _ _ :: cs => submissionsFor k true cs
  | started, .submit p t st tm :: cs =>
    if started && decide (t = k) then ⟨p, st, tm⟩ :: submissionsFor k started cs
    else submissionsFor k started cs
  | started, .addteam _ :: cs => submissionsFor k started cs
  | started, .flush :: cs => submissionsFor k started cs
  | started, .freeze :: cs => submissionsFor k started cs
  | started, .scroll :: cs => submissionsFor k started cs
  | started, .query_ranking _ :: cs => submissionsFor k started cs
  | started, .query_submission _ _ _ :: cs => submissionsFor k started cs

/-- What scroll keeps of a team: the name, the submission log, the aggregates,
and wrong_attempts, solved and solve_time of every problem. -/
def ScrollFrame (t u : Team) : Prop :=
  u.name = t.name ∧ u.submissions = t.submissions ∧ u.solved_count = t.solved_count ∧
  u.total_penalty = t.total_penalty ∧ u.solve_times = t.solve_times ∧
  ∀ n, (Map.get u.problems n).wrong_attempts = (Map.get t.problems n).wrong_attempts ∧
    (Map.get u.problems n).solved = (Map.get t.problems n).solved ∧
    (Map.get u.problems n).solve_time = (Map.get t.problems n).solve_time

/-- The counter of problem `n` is cleared unless the problem is solved. -/
def Cleared (n : String) (t : Team) : Prop :=
  (Map.get t.problems n).solved = false → (Map.get t.problems n).frozen_submissions = 0

/-- The problem map of the team has an entry for the problem `n`. -/
def HasProblem (n : String) (t : Team) : Prop := (Map.find t.problems n).isSome = true

/-- The pairs the loop of `scroll_scoreboard` over the positions reports
(main.cpp 193-197): the pointer before and the pointer after, at every position
where the two differ, in the order of the positions. -/
def rank_change_records : List String → List String → List (String × String)
  | b :: bs, a :: as =>
    if b ≠ a then (b, a) :: rank_change_records bs as else rank_change_records bs as
  | _, _ => []

/-- The line `scroll_scoreboard` prints for one pair (main.cpp 195): the two
names, and solved_count and total_penalty of the first team. -/
def rank_change_line (s : ICPCManager) (r : String × String) : String :=
  (s.deref r.1).name ++ " " ++ (s.deref r.2).name ++ " " ++ toString (s.deref r.1).solved_count
    ++ " " ++ toString (s.deref r.1).total_penalty

/-- The records applied to a ranking, as the specification words it: the team
a record names first gives its position to the team the record names second. -/
def apply_records (recs : List (String × String)) (before : List String) : List String :=
  before.map (fun p =>
    match recs.find? (fun r => decide (r.1 = p)) with
    | some r => r.2
    | none => p)

/-- The solve times stored in the solved entries of a problem map. -/
def solvedTimes (m : List (String × ProblemStatus)) : List Int :=
  ((m.filter (fun e => e.2.solved)).map Prod.snd).map (fun p => p.solve_time)

/-- The sequence `solve_times` of a team is in non-increasing order and holds
the solve times of the solved problems of the team. -/
def SolveTimesOk (t : Team) : Prop :=
  t.solve_times.Pairwise (fun a b => b ≤ a) ∧ t.solve_times.Perm (solvedTimes t.problems)

/-- Every problem of the team has a counter of hidden submissions between 0 and
its number of wrong attempts. -/
def FrozenLeWrong (t : Team) : Prop :=
  ∀ n, 0 ≤ (Map.get t.problems n).frozen_submissions ∧
    (Map.get t.problems n).frozen_submissions ≤ (Map.get t.problems n).wrong_attempts

/-- A well-formed command in the state `s` (specification, section 7): a
submission made once the contest has started names a registered team and one of
the problem ids fixed at the start. -/
def wfCmd (s : ICPCManager) : Cmd → Bool
  | .submit p t _ _ =>
    !s.competition_started || (decide (t ∈ s.team_ptrs) && decide (p ∈ s.problem_names))
  | _ => true

/-- A well-formed command stream from the state `s`: each command is well
formed in the state it is issued in. -/
def wellFormed : ICPCManager → List Cmd → Bool
  | _, [] => true
  | s, c :: cs => wfCmd s c && wellFormed (step s c).1 cs

/-- The number of submissions of a command stream for the team `k` to the
problem `n`. -/
def submitsTo (k n : String) (cmds : List Cmd) : Nat :=
  cmds.countP (fun c =>
    match c with
    | .submit p t _ _ => decide (p = n ∧ t = k)
    | _ => false)

/-- The scoreboard is frozen only in a started contest, and an unsolved problem
has a counter of hidden submissions other than 0 only while the scoreboard is
frozen and only if it is a contest problem. -/
def WindowInv (s : ICPCManager) : Prop :=
  (s.frozen = true → s.competition_started = true) ∧
  ∀ k n, (Map.get (s.deref k).problems n).solved = false →
    (Map.get (s.deref k).problems n).frozen_submissions ≠ 0 →
    s.frozen = true ∧ n ∈ s.problem_names

/-- An unsolved problem of `u` with a counter other than 0 is an unsolved
problem of `t` with a counter other than 0. -/
def CounterFrom (t u : Team) : Prop :=
  ∀ n, (Map.get u.problems n).solved = false →
    (Map.get u.problems n).frozen_submissions ≠ 0 →
    (Map.get t.problems n).solved = false ∧ (Map.get t.problems n).frozen_submissions ≠ 0

/-- Two team mappings store the same team under every name. -/
def ExtEq (m1 m2 : List (String × Team)) : Prop :=
  ∀ k, Map.find m1 k = Map.find m2 k

/-- Two engine states that differ at most in the order of `team_ptrs` and in
the order in which their team mappings were filled. -/
def StateEq (s1 s2 : ICPCManager) : Prop :=
  ExtEq s1.teams s2.teams ∧ s1.team_ptrs.Perm s2.team_ptrs ∧
  s1.competition_started = s2.competition_started ∧ s1.frozen = s2.frozen ∧
  s1.problem_names = s2.problem_names

/-- The value a 32-bit `int` holds for the arithmetic result `x`: the result
brought into the range from -2147483648 to 2147483647 by a multiple of 2^32, as
two's complement arithmetic does. -/
def wrap32 (x : Int) : Int := (x + 2147483648) % 4294967296 - 2147483648

/-- The value fits a 32-bit `int`. -/
def InInt32 (x : Int) : Prop := -2147483648 ≤ x ∧ x ≤ 2147483647

/-- The member `Team::update_status` (main.cpp 40-55) with the arithmetic of a
32-bit `int`: the results of `solved_count++`, of `wrong_attempts * 20`, of
`... + time`, of `total_penalty += ...` and of `wrong_attempts++` are those
`wrap32` gives. -/
def Team.update_status32 (t : Team) (problem status : String) (time : Int) : Team :=
  let t1 : Team :=
    { t with submissions := t.submissions ++ [⟨problem, status, time⟩],
             problems := Map.touch t.problems problem }
  let p := Map.get t1.problems problem
  if p.solved then t1
  else if status = "Accepted" then
    { t1 with
        problems := Map.set t1.problems problem ({ p with solved := true, solve_time := time }),
        solved_count := wrap32 (t1.solved_count + 1),
        total_penalty :=
          wrap32 (t1.total_penalty + wrap32 (wrap32 (p.wrong_attempts * 20) + time)),
        solve_times := sortDesc (t1.solve_times ++ [time]) }
  else
    { t1 with
        problems := Map.set t1.problems problem
          ({ p with wrong_attempts := wrap32 (p.wrong_attempts + 1) }) }

/-! ## The map operations -/

namespace Map

theorem find_replace_self {β : Type} (m : List (String × β)) (k : String) (v w : β)
    (h : find m k = some w) : find (replace m k v) k = some v := by
  induction m with
  | nil => simp [find] at h
  | cons e r ih =>
    obtain ⟨k', v'⟩ := e
    simp only [find] at h
    simp only [replace]
    split_ifs at h with h1
    · simp [h1, find]
    · simp [h1, find, ih h]

theorem find_replace_ne {β : Type} (m : List (String × β)) (k j : String) (v : β)
    (h : j ≠ k) : find (replace m k v) j = find m j := by
  induction m with
  | nil => simp [replace]
  | cons e r ih =>
    obtain ⟨k', v'⟩ := e
    simp only [replace]
    split_ifs with h1
    · subst h1
      simp [find, Ne.symm h]
    · simp [find, ih]

theorem find_insert_self {β : Type} (m : List (String × β)) (k : String) (v : β)
    (h : find m k = none) : find (insert m k v) k = some v := by
  induction m with
  | nil => simp [insert, find]
  | cons e r ih =>
    obtain ⟨k', v'⟩ := e
    simp only [find] at h
    simp only [insert]
    split_ifs at h with h1
    split_ifs with h2
    · simp [find]
    · simp [find, h1, ih h]

theorem find_insert_ne {β : Type} (m : List (String × β)) (k j : String) (v : β)
    (h : j ≠ k) : find (insert m k v) j = find m j := by
  induction m with
  | nil => simp [insert, find, Ne.symm h]
  | cons e r ih =>
    obtain ⟨k', v'⟩ := e
    simp only [insert]
    split_ifs with h2
    · simp [find, Ne.symm h]
    · simp [find, ih]

theorem replace_eq_self {β : Type} (m : List (String × β)) (k : String) (v : β)
    (h : find m k = some v) : replace m k v = m := by
  induction m with
  | nil => rfl
  | cons e r ih =>
    obtain ⟨k', v'⟩ := e
    simp only [find] at h
    simp only [replace]
    split_ifs at h with h1
    · simp only [Option.some.injEq] at h
      simp [h1, h]
    · simp [h1, ih h]

theorem find_set_self {β : Type} (m : List (String × β)) (k : String) (v : β) :
    find (set m k v) k = some v := by
  unfold set
  cases h : find m k with
  | none => exact find_insert_self m k v h
  | some w => exact find_replace_self m k v w h

theorem find_set_ne {β : Type} (m : List (String × β)) (k j : String) (v : β) (h : j ≠ k) :
    find (set m k v) j = find m j := by
  unfold set
  cases find m k with
  | none => exact find_insert_ne m k j v h
  | some w => exact find_replace_ne m k j v h

theorem set_eq_self {β : Type} (m : List (String × β)) (k : String) (v : β)
    (h : find m k = some v) : set m k v = m := by
  unfold set
  rw [h]
  exact replace_eq_self m k v h

theorem get_set_self {β : Type} [Inhabited β] (m : List (String × β)) (k : String) (v : β) :
    get (set m k v) k = v := by
  simp [get, find_set_self]

theorem get_set_ne {β : Type} [Inhabited β] (m : List (String × β)) (k j : String) (v : β)
    (h : j ≠ k) : get (set m k v) j = get m j := by
  simp [get, find_set_ne m k j v h]

theorem find_touch_self {β : Type} [Inhabited β] (m : List (String × β)) (k : String) :
    find (touch m k) k = some (get m k) := by
  unfold touch get
  cases h : find m k with
  | none => simp [find_set_self]
  | some w => simp [h]

theorem find_touch_ne {β : Type} [Inhabited β] (m : List (String × β)) (k j : String)
    (h : j ≠ k) : find (touch m k) j = find m j := by
  unfold touch
  cases find m k with
  | none => exact find_set_ne m k j default h
  | some w => rfl

theorem get_touch {β : Type} [Inhabited β] (m : List (String × β)) (k j : String) :
    get (touch m k) j = get m j := by
  by_cases h : j = k
  · subst h
    simp [get, find_touch_self]
  · simp [get, find_touch_ne m k j h]

theorem touch_eq_self {β : Type} [Inhabited β] (m : List (String × β)) (k : String)
    (h : (find m k).isSome) : touch m k = m := by
  unfold touch
  cases hf : find m k with
  | none => simp [hf] at h
  | some w => rfl

theorem find_map_snd {β : Type} (f : β → β) (m : List (String × β)) (k : String) :
    find (m.map (fun e => (e.1, f e.2))) k = (find m k).map f := by
  induction m with
  | nil => rfl
  | cons e r ih =>
    obtain ⟨k', v'⟩ := e
    simp only [List.map_cons, find]
    split_ifs with h1
    · rfl
    · exact ih

end Map

/-! ## Properties of teams kept by every operation -/

theorem query_ranking_state (s : ICPCManager) (team_name : String) :
    (query_ranking s team_name).1 = s := by
  unfold query_ranking
  split_ifs <;> rfl

theorem query_submission_state (s : ICPCManager) (team_name problem status : String) :
    (query_submission s team_name problem status).1 = s := by
  unfold query_submission
  split_ifs
  · rfl
  · dsimp only
    split <;> rfl

theorem AllTeams.get {P : Team → Prop} {m : List (String × Team)} (h : AllTeams P m)
    (hd : P default) (k : String) : P (Map.get m k) := by
  unfold Map.get
  cases hf : Map.find m k with
  | none => exact hd
  | some t => exact h k t hf

theorem AllTeams.set {P : Team → Prop} {m : List (String × Team)} (h : AllTeams P m)
    (k : String) (v : Team) (hv : P v) : AllTeams P (Map.set m k v) := by
  intro j t hj
  by_cases hjk : j = k
  · subst hjk
    rw [Map.find_set_self] at hj
    cases hj
    exact hv
  · rw [Map.find_set_ne m k j v hjk] at hj
    exact h j t hj

theorem print_cells_stable {P : Team → Prop} (hP : TeamStable P) (frozen : Bool)
    (names : List String) : ∀ t, P t → P (print_cells frozen t names).1 := by
  induction names with
  | nil => intro t ht; exact ht
  | cons n rest ih =>
    intro t ht
    simp only [print_cells]
    exact ih _ (hP.touch t n ht)

theorem print_rows_stable {P : Team → Prop} (hP : TeamStable P) (l : List String) :
    ∀ (s : ICPCManager) (i : Nat), AllTeams P s.teams → AllTeams P (print_rows s i l).1.teams := by
  induction l with
  | nil => intro s i h; exact h
  | cons p rest ih =>
    intro s i h
    simp only [print_rows]
    apply ih
    exact h.set p _ (print_cells_stable hP _ _ _ (h.get hP.dflt p))

theorem foldl_freeze_stable {P : Team → Prop} (hP : TeamStable P) (names : List String) :
    ∀ t, P t → P (names.foldl Team.freeze_problem t) := by
  induction names with
  | nil => intro t ht; exact ht
  | cons n rest ih =>
    intro t ht
    exact ih _ (hP.freeze t n ht)

theorem freeze_all_stable {P : Team → Prop} (hP : TeamStable P) (m : List (String × Team))
    (names : List String) (h : AllTeams P m) : AllTeams P (freeze_all m names) := by
  intro k t hk
  unfold freeze_all at hk
  rw [Map.find_map_snd (fun t => names.foldl Team.freeze_problem t)] at hk
  cases hf : Map.find m k with
  | none => simp [hf] at hk
  | some t0 =>
    simp only [hf, Option.map_some', Option.some.injEq] at hk
    subst hk
    exact foldl_freeze_stable hP names t0 (h k t0 hf)

theorem scroll_mid_stable {P : Team → Prop} (hP : TeamStable P) (s : ICPCManager)
    (h : AllTeams P s.teams) : AllTeams P (scroll_mid s).teams := by
  unfold scroll_mid
  exact freeze_all_stable hP _ _ (print_rows_stable hP _ s 0 h)

theorem step_stable {P : Team → Prop} (hP : TeamStable P) (s : ICPCManager) (c : Cmd)
    (h : AllTeams P s.teams) : AllTeams P (step s c).1.teams := by
  cases c with
  | addteam n =>
    simp only [step, add_team]
    split_ifs
    · exact h
    · exact h
    · exact h.set n _ (hP.new n)
  | start d p =>
    simp only [step, start_competition]
    split_ifs
    · exact h
    · exact h
  | submit p t st tm =>
    simp only [step, submit]
    split_ifs with h1 h2
    · exact h
    · simp only [Map.get_set_self]
      exact (h.set t _ (hP.submit _ p st tm (h.get hP.dflt t))).set t _
        (hP.submit_frozen _ p st tm (h.get hP.dflt t))
    · exact h.set t _ (hP.submit _ p st tm (h.get hP.dflt t))
  | flush =>
    simp only [step, flush_scoreboard]
    split_ifs
    · exact h
    · exact print_rows_stable hP _ s 0 h
  | freeze =>
    simp only [step, freeze_scoreboard]
    split_ifs
    · exact h
    · exact h
    · exact h
  | scroll =>
    simp only [step, scroll_scoreboard]
    split_ifs
    · exact h
    · exact h
    · exact print_rows_stable hP _ _ 0 (scroll_mid_stable hP s h)
  | query_ranking t =>
    simp only [step, query_ranking_state]
    exact h
  | query_submission t p st =>
    simp only [step, query_submission_state]
    exact h

theorem run_stable {P : Team → Prop} (hP : TeamStable P) (cmds : List Cmd) :
    ∀ s : ICPCManager, AllTeams P s.teams → AllTeams P (run s cmds).teams := by
  induction cmds with
  | nil => intro s h; exact h
  | cons c cs ih =>
    intro s h
    exact ih _ (step_stable hP s c h)

theorem reachable_stable {P : Team → Prop} (hP : TeamStable P) {s : ICPCManager}
    (hs : Reachable s) : AllTeams P s.teams := by
  obtain ⟨cmds, rfl⟩ := hs
  apply run_stable hP
  intro k t hk
  simp [ICPCManager.init, Map.find] at hk

/-! ## The aggregates of a team -/

theorem wsum_replace (g : ProblemStatus → Int) (m : List (String × ProblemStatus))
    (k : String) (v w : ProblemStatus) (h : Map.find m k = some w) :
    wsum g (Map.replace m k v) = wsum g m - g w + g v := by
  induction m with
  | nil => simp [Map.find] at h
  | cons e r ih =>
    obtain ⟨k', v'⟩ := e
    simp only [Map.find] at h
    simp only [Map.replace]
    split_ifs at h with h1
    · simp only [Option.some.injEq] at h
      subst h
      simp only [wsum, h1, if_true, List.map_cons, List.sum_cons]
      ring
    · have := ih h
      simp only [wsum] at this
      simp only [wsum, h1, if_false, List.map_cons, List.sum_cons, this]
      ring

theorem wsum_insert (g : ProblemStatus → Int) (m : List (String × ProblemStatus))
    (k : String) (v : ProblemStatus) : wsum g (Map.insert m k v) = wsum g m + g v := by
  induction m with
  | nil => simp [Map.insert, wsum]
  | cons e r ih =>
    obtain ⟨k', v'⟩ := e
    simp only [Map.insert]
    split_ifs with h1
    · simp only [wsum, List.map_cons, List.sum_cons]
      ring
    · simp only [wsum] at ih
      simp only [wsum, List.map_cons, List.sum_cons, ih]
      ring

theorem wsum_touch (g : ProblemStatus → Int) (hg : g default = 0)
    (m : List (String × ProblemStatus)) (k : String) : wsum g (Map.touch m k) = wsum g m := by
  unfold Map.touch
  cases h : Map.find m k with
  | some w => rfl
  | none =>
    simp only [Map.set, h]
    rw [wsum_insert, hg, add_zero]

theorem wsum_set (g : ProblemStatus → Int) (m : List (String × ProblemStatus))
    (k : String) (v w : ProblemStatus) (h : Map.find m k = some w) :
    wsum g (Map.set m k v) = wsum g m - g w + g v := by
  simp only [Map.set, h]
  exact wsum_replace g m k v w h

theorem wsum_cons (g : ProblemStatus → Int) (e : String × ProblemStatus)
    (r : List (String × ProblemStatus)) : wsum g (e :: r) = g e.2 + wsum g r := by
  simp [wsum]

theorem wsum_solvedW (m : List (String × ProblemStatus)) :
    wsum solvedW m = ((m.filter (fun e => e.2.solved)).length : Int) := by
  induction m with
  | nil => rfl
  | cons e r ih =>
    rw [wsum_cons, ih, List.filter_cons]
    cases h : e.2.solved
    · simp [solvedW, h]
    · simp [solvedW, h]
      ring

theorem wsum_penaltyW (m : List (String × ProblemStatus)) :
    wsum penaltyW m = (((m.filter (fun e => e.2.solved)).map Prod.snd).map
      (fun p => 20 * p.wrong_attempts + p.solve_time)).sum := by
  induction m with
  | nil => rfl
  | cons e r ih =>
    rw [wsum_cons, ih, List.filter_cons]
    cases h : e.2.solved
    · simp [penaltyW, h]
    · simp [penaltyW, h]

theorem solvedW_default : solvedW default = 0 := rfl

theorem penaltyW_default : penaltyW default = 0 := rfl

theorem TeamAgg.touch (t : Team) (p : String) (h : TeamAgg t) :
    TeamAgg { t with problems := Map.touch t.problems p } := by
  obtain ⟨h1, h2, h3⟩ := h
  refine ⟨?_, ?_, h3⟩
  · simpa [wsum_touch solvedW solvedW_default] using h1
  · simpa [wsum_touch penaltyW penaltyW_default] using h2

theorem TeamAgg.update_status (t : Team) (p st : String) (tm : Int) (h : TeamAgg t) :
    TeamAgg (t.update_status p st tm) := by
  obtain ⟨h1, h2, h3⟩ := h
  have hf := Map.find_touch_self t.problems p
  unfold Team.update_status
  dsimp only
  split_ifs with hs ha
  · exact ⟨by simpa [wsum_touch solvedW solvedW_default] using h1,
      by simpa [wsum_touch penaltyW penaltyW_default] using h2, h3⟩
  · rw [Map.get_touch] at hs ⊢
    refine ⟨?_, ?_, ?_⟩
    · simp only [wsum_set solvedW _ p _ _ hf, wsum_touch solvedW solvedW_default, h1]
      simp [solvedW, hs]
    · simp only [wsum_set penaltyW _ p _ _ hf, wsum_touch penaltyW penaltyW_default, h2]
      simp [penaltyW, hs]
      ring
    · simp only [sortDesc, List.length_insertionSort, List.length_append, List.length_singleton]
      push_cast
      rw [h3]
  · rw [Map.get_touch] at hs ⊢
    refine ⟨?_, ?_, h3⟩
    · simp only [wsum_set solvedW _ p _ _ hf, wsum_touch solvedW solvedW_default, h1]
      simp [solvedW, hs]
    · simp only [wsum_set penaltyW _ p _ _ hf, wsum_touch penaltyW penaltyW_default, h2]
      simp [penaltyW, hs]

theorem TeamAgg.freeze_problem (t : Team) (p : String) (h : TeamAgg t) :
    TeamAgg (t.freeze_problem p) := by
  obtain ⟨h1, h2, h3⟩ := h
  have hf := Map.find_touch_self t.problems p
  unfold Team.freeze_problem
  dsimp only
  split_ifs with hs
  · rw [Map.get_touch] at hs ⊢
    simp only [Bool.not_eq_true', Bool.not_eq_true] at hs
    refine ⟨?_, ?_, h3⟩
    · simp only [wsum_set solvedW _ p _ _ hf, wsum_touch solvedW solvedW_default, h1]
      simp [solvedW, hs]
    · simp only [wsum_set penaltyW _ p _ _ hf, wsum_touch penaltyW penaltyW_default, h2]
      simp [penaltyW, hs]
  · exact ⟨by simpa [wsum_touch solvedW solvedW_default] using h1,
      by simpa [wsum_touch penaltyW penaltyW_default] using h2, h3⟩

theorem TeamAgg.add_frozen_submission (t : Team) (p : String) (h : TeamAgg t) :
    TeamAgg (t.add_frozen_submission p) := by
  obtain ⟨h1, h2, h3⟩ := h
  have hf := Map.find_touch_self t.problems p
  unfold Team.add_frozen_submission
  dsimp only
  split_ifs with hs
  · rw [Map.get_touch] at hs ⊢
    simp only [Bool.not_eq_true', Bool.not_eq_true] at hs
    refine ⟨?_, ?_, h3⟩
    · simp only [wsum_set solvedW _ p _ _ hf, wsum_touch solvedW solvedW_default, h1]
      simp [solvedW, hs]
    · simp only [wsum_set penaltyW _ p _ _ hf, wsum_touch penaltyW penaltyW_default, h2]
      simp [penaltyW, hs]
  · exact ⟨by simpa [wsum_touch solvedW solvedW_default] using h1,
      by simpa [wsum_touch penaltyW penaltyW_default] using h2, h3⟩

theorem teamAgg_stable : TeamStable TeamAgg where
  dflt := ⟨rfl, rfl, rfl⟩
  new := fun _ => ⟨rfl, rfl, rfl⟩
  touch := TeamAgg.touch
  submit := TeamAgg.update_status
  submit_frozen := fun t p st tm h => (h.update_status t p st tm).add_frozen_submission _ p
  freeze := TeamAgg.freeze_problem

/-- C1. In every state reachable from the initial state by a sequence of
add_team, start, submit, flush, freeze, scroll and query operations, every team
of the mapping has solved_count equal to the number of its problem entries with
solved = true, and total_penalty equal to the sum of
20 * wrong_attempts + solve_time over those entries. -/
theorem team_aggregate_invariant (s : ICPCManager) (hs : Reachable s) (k : String) (t : Team)
    (ht : Map.find s.teams k = some t) :
    t.solved_count = (t.solvedProblems.length : Int) ∧
    t.total_penalty =
      (t.solvedProblems.map (fun p => 20 * p.wrong_attempts + p.solve_time)).sum := by
  obtain ⟨h1, h2, _⟩ := reachable_stable teamAgg_stable hs k t ht
  refine ⟨?_, ?_⟩
  · rw [h1, wsum_solvedW]
    simp [Team.solvedProblems]
  · rw [h2, wsum_penaltyW]
    rfl

/-- Instance of C1 at team T1 of the sample state. -/
theorem team_aggregate_invariant_witness :
    Reachable sampleState ∧
    Map.find sampleState.teams "T1" = some (sampleState.deref "T1") ∧
    (sampleState.deref "T1").solved_count = ((sampleState.deref "T1").solvedProblems.length : Int) ∧
    (sampleState.deref "T1").total_penalty =
      ((sampleState.deref "T1").solvedProblems.map
        (fun p => 20 * p.wrong_attempts + p.solve_time)).sum :=
  ⟨⟨sampleCmds, rfl⟩, by decide,
    team_aggregate_invariant sampleState ⟨sampleCmds, rfl⟩ "T1" _ (by decide)⟩

/-! ## The effect of the team operations on one problem -/

theorem get_update_status_self (t : Team) (p st : String) (tm : Int) :
    Map.get (t.update_status p st tm).problems p =
      if (Map.get t.problems p).solved then Map.get t.problems p
      else if st = "Accepted" then
        { Map.get t.problems p with solved := true, solve_time := tm }
      else
        { Map.get t.problems p with
            wrong_attempts := (Map.get t.problems p).wrong_attempts + 1 } := by
  unfold Team.update_status
  dsimp only
  rw [Map.get_touch]
  split_ifs with h1 h2
  · simp [Map.get_touch]
  · simp [Map.get_set_self]
  · simp [Map.get_set_self]

theorem get_update_status_ne (t : Team) (p q st : String) (tm : Int) (h : q ≠ p) :
    Map.get (t.update_status p st tm).problems q = Map.get t.problems q := by
  unfold Team.update_status
  dsimp only
  split_ifs with h1 h2
  · simp [Map.get_touch]
  · simp [Map.get_set_ne _ _ _ _ h, Map.get_touch]
  · simp [Map.get_set_ne _ _ _ _ h, Map.get_touch]

theorem get_add_frozen_submission_self (t : Team) (p : String) :
    Map.get (t.add_frozen_submission p).problems p =
      if (Map.get t.problems p).solved then Map.get t.problems p
      else
        { Map.get t.problems p with
            frozen_submissions := (Map.get t.problems p).frozen_submissions + 1 } := by
  unfold Team.add_frozen_submission
  dsimp only
  rw [Map.get_touch]
  cases h : (Map.get t.problems p).solved
  · simp [Map.get_set_self]
  · simp [Map.get_touch]

theorem get_add_frozen_submission_ne (t : Team) (p q : String) (h : q ≠ p) :
    Map.get (t.add_frozen_submission p).problems q = Map.get t.problems q := by
  unfold Team.add_frozen_submission
  dsimp only
  split_ifs with h1
  · simp [Map.get_set_ne _ _ _ _ h, Map.get_touch]
  · simp [Map.get_touch]

theorem get_freeze_problem_self (t : Team) (p : String) :
    Map.get (t.freeze_problem p).problems p =
      if (Map.get t.problems p).solved then Map.get t.problems p
      else { Map.get t.problems p with frozen_submissions := 0 } := by
  unfold Team.freeze_problem
  dsimp only
  rw [Map.get_touch]
  cases h : (Map.get t.problems p).solved
  · simp [Map.get_set_self]
  · simp [Map.get_touch]

theorem get_freeze_problem_ne (t : Team) (p q : String) (h : q ≠ p) :
    Map.get (t.freeze_problem p).problems q = Map.get t.problems q := by
  unfold Team.freeze_problem
  dsimp only
  split_ifs with h1
  · simp [Map.get_set_ne _ _ _ _ h, Map.get_touch]
  · simp [Map.get_touch]

/-! ## Submissions to one problem -/

theorem record_rejected (problem : String) (pre : List (String × Int))
    (hpre : ∀ x ∈ pre, x.1 ≠ "Accepted") :
    ∀ t : Team, (Map.get t.problems problem).solved = false →
      Map.get (t.record problem pre).problems problem =
        { Map.get t.problems problem with
            wrong_attempts := (Map.get t.problems problem).wrong_attempts + pre.length } := by
  induction pre with
  | nil => intro t _; simp [Team.record]
  | cons x rest ih =>
    intro t ht
    have hx : x.1 ≠ "Accepted" := hpre x (List.mem_cons_self _ _)
    have h1 := get_update_status_self t problem x.1 x.2
    simp only [ht, hx, if_false, Bool.false_eq_true] at h1
    have h2 := ih (fun y hy => hpre y (List.mem_cons_of_mem _ hy))
      (t.update_status problem x.1 x.2) (by rw [h1])
    simp only [Team.record, List.foldl_cons] at h2 ⊢
    rw [h2, h1]
    simp only [List.length_cons, Nat.cast_add, Nat.cast_one, ProblemStatus.mk.injEq, and_true,
      true_and, ht]
    ring

theorem update_status_solved (t : Team) (problem st : String) (tm : Int)
    (h : (Map.get t.problems problem).solved = true) :
    Map.get (t.update_status problem st tm).problems problem = Map.get t.problems problem := by
  rw [get_update_status_self, if_pos h]

theorem record_solved (problem : String) (post : List (String × Int)) :
    ∀ t : Team, (Map.get t.problems problem).solved = true →
      Map.get (t.record problem post).problems problem = Map.get t.problems problem := by
  induction post with
  | nil => intro t _; rfl
  | cons x rest ih =>
    intro t ht
    have h1 := update_status_solved t problem x.1 x.2 ht
    have h2 := ih (t.update_status problem x.1 x.2) (by rw [h1]; exact ht)
    simp only [Team.record, List.foldl_cons] at h2 ⊢
    rw [h2, h1]

theorem add_frozen_submission_solved (t : Team) (problem : String)
    (h : (Map.get t.problems problem).solved = true) :
    Map.get (t.add_frozen_submission problem).problems problem = Map.get t.problems problem := by
  rw [get_add_frozen_submission_self, if_pos h]

/-- The team addressed by a submission, after the submission, when the contest
has started. -/
theorem deref_submit (s : ICPCManager) (problem team_name st : String) (tm : Int)
    (h : s.competition_started = true) :
    (submit s problem team_name st tm).1.deref team_name =
      if s.frozen then
        ((s.deref team_name).update_status problem st tm).add_frozen_submission problem
      else (s.deref team_name).update_status problem st tm := by
  unfold submit
  simp only [h, Bool.not_true, Bool.false_eq_true, if_false]
  split_ifs with hf
  · simp [ICPCManager.deref, Map.get_set_self]
  · simp [ICPCManager.deref, Map.get_set_self]

theorem record_first_accepted (t : Team) (problem : String) (pre post : List (String × Int))
    (tm : Int) (hfresh : Map.get t.problems problem = default)
    (hpre : ∀ x ∈ pre, x.1 ≠ "Accepted") :
    Map.get (t.record problem (pre ++ ("Accepted", tm) :: post)).problems problem =
      ⟨(pre.length : Int), true, tm, 0⟩ := by
  have h0 : (Map.get t.problems problem).solved = false := by rw [hfresh]; rfl
  have h1 := record_rejected problem pre hpre t h0
  have h2 := get_update_status_self (t.record problem pre) problem "Accepted" tm
  rw [h1] at h2
  simp only [h0, if_false, Bool.false_eq_true, if_true] at h2
  have h3 := record_solved problem post ((t.record problem pre).update_status problem "Accepted" tm)
    (by rw [h2])
  have : t.record problem (pre ++ ("Accepted", tm) :: post) =
      ((t.record problem pre).update_status problem "Accepted" tm).record problem post := by
    simp [Team.record, List.foldl_append]
  rw [this, h3, h2, hfresh]
  simp only [ProblemStatus.mk.injEq, and_true, true_and]
  exact ⟨zero_add _, rfl⟩

/-- A sequence of submissions that contains an Accepted one splits at the first
Accepted one. -/
theorem split_first_accepted : ∀ subs : List (String × Int),
    (∃ x ∈ subs, x.1 = "Accepted") →
    ∃ pre tm post, subs = pre ++ ("Accepted", tm) :: post ∧ ∀ x ∈ pre, x.1 ≠ "Accepted"
  | [], h => by
    obtain ⟨x, hx, _⟩ := h
    simp at hx
  | (st, tm) :: rest, h => by
    by_cases hst : st = "Accepted"
    · subst hst
      exact ⟨[], tm, rest, rfl, fun x hx => by simp at hx⟩
    · have hrest : ∃ x ∈ rest, x.1 = "Accepted" := by
        obtain ⟨x, hx, hacc⟩ := h
        rcases List.mem_cons.mp hx with e | e
        · subst e
          exact absurd hacc hst
        · exact ⟨x, e, hacc⟩
      obtain ⟨pre, tm', post, hsplit, hpre⟩ := split_first_accepted rest hrest
      refine ⟨(st, tm) :: pre, tm', post, by rw [hsplit]; rfl, ?_⟩
      intro x hx
      rcases List.mem_cons.mp hx with e | e
      · subst e
        exact hst
      · exact hpre x e

/-- C2. For a sequence of submissions to one problem, recorded with
update_status from a fresh ProblemStatus, that contains an Accepted submission:
the sequence splits into the rejected submissions pre before the first Accepted
one, that submission at time tm, and the rest; after the first Accepted
submission and after any number of the submissions that follow it the problem
is solved, with solve_time tm, wrong_attempts the number of submissions of pre,
and frozen_submissions 0.  A submission to a problem that is already solved
leaves the four fields of its ProblemStatus unchanged, for update_status and
for submit in every engine state, frozen or not. -/
theorem first_accepted_decides (t : Team) (problem : String) (subs : List (String × Int))
    (hfresh : Map.get t.problems problem = default)
    (hacc : ∃ x ∈ subs, x.1 = "Accepted") :
    (∃ pre tm post, subs = pre ++ ("Accepted", tm) :: post ∧
      (∀ x ∈ pre, x.1 ≠ "Accepted") ∧
      (∀ m : Nat, Map.get (t.record problem (subs.take (pre.length + 1 + m))).problems problem =
        ⟨(pre.length : Int), true, tm, 0⟩) ∧
      Map.get (t.record problem subs).problems problem = ⟨(pre.length : Int), true, tm, 0⟩) ∧
    (∀ (u : Team) (st : String) (time : Int), (Map.get u.problems problem).solved = true →
      Map.get (u.update_status problem st time).problems problem = Map.get u.problems problem) ∧
    (∀ (s : ICPCManager) (team_name st : String) (time : Int),
      (Map.get (s.deref team_name).problems problem).solved = true →
      Map.get ((submit s problem team_name st time).1.deref team_name).problems problem =
        Map.get (s.deref team_name).problems problem) := by
  refine ⟨?_, fun u st time h => update_status_solved u problem st time h, ?_⟩
  · obtain ⟨pre, tm, post, hsplit, hpre⟩ := split_first_accepted subs hacc
    refine ⟨pre, tm, post, hsplit, hpre, ?_, ?_⟩
    · intro m
      have : subs.take (pre.length + 1 + m) = pre ++ ("Accepted", tm) :: post.take m := by
        rw [hsplit, add_assoc, List.take_append, Nat.add_comm 1 m, List.take_succ_cons]
      rw [this]
      exact record_first_accepted t problem pre (post.take m) tm hfresh hpre
    · rw [hsplit]
      exact record_first_accepted t problem pre post tm hfresh hpre
  · intro s team_name st time h
    by_cases hst : s.competition_started = true
    · rw [deref_submit s problem team_name st time hst]
      have h1 := update_status_solved (s.deref team_name) problem st time h
      split_ifs
      · rw [add_frozen_submission_solved _ _ (by rw [h1]; exact h), h1]
      · exact h1
    · simp [submit, hst]

/-- Instance of C2: two rejected submissions, an accepted one at time 15 and
two later submissions, on problem A of a new team. -/
theorem first_accepted_decides_witness :
    (∃ pre tm post,
      [("Wrong_Answer", 3), ("Time_Limit_Exceed", 7), ("Accepted", 15), ("Wrong_Answer", 20),
        ("Accepted", 30)] = pre ++ (("Accepted", tm) : String × Int) :: post ∧
      (∀ x ∈ pre, x.1 ≠ "Accepted") ∧
      (∀ m : Nat, Map.get ((Team.new "T1").record "A"
        (([("Wrong_Answer", 3), ("Time_Limit_Exceed", 7), ("Accepted", 15), ("Wrong_Answer", 20),
          ("Accepted", 30)] : List (String × Int)).take (pre.length + 1 + m))).problems "A" =
        ⟨(pre.length : Int), true, tm, 0⟩) ∧
      Map.get ((Team.new "T1").record "A"
        [("Wrong_Answer", 3), ("Time_Limit_Exceed", 7), ("Accepted", 15), ("Wrong_Answer", 20),
          ("Accepted", 30)]).problems "A" = ⟨(pre.length : Int), true, tm, 0⟩) ∧
    Map.get ((Team.new "T1").record "A"
      [("Wrong_Answer", 3), ("Time_Limit_Exceed", 7), ("Accepted", 15), ("Wrong_Answer", 20),
        ("Accepted", 30)]).problems "A" = ⟨2, true, 15, 0⟩ :=
  ⟨(first_accepted_decides (Team.new "T1") "A"
    [("Wrong_Answer", 3), ("Time_Limit_Exceed", 7), ("Accepted", 15), ("Wrong_Answer", 20),
      ("Accepted", 30)] (by decide) ⟨("Accepted", 15), by decide, rfl⟩).1, by decide⟩

/-! ## The order of strings -/

theorem lexLt_irrefl (l : List Char) : lexLt l l = false := by
  induction l with
  | nil => rfl
  | cons a r ih => simp [lexLt, ih]

theorem lexLt_asymm : ∀ l m : List Char, lexLt l m = true → lexLt m l = false
  | [], [], h => by simp [lexLt] at h
  | [], _ :: _, _ => by simp [lexLt]
  | _ :: _, [], h => by simp [lexLt] at h
  | a :: as, b :: bs, h => by
    simp only [lexLt] at h ⊢
    split_ifs at h with h1 h2
    · have : ¬ b.toNat < a.toNat := by omega
      simp [this, h1]
    · simp [h1, h2, lexLt_asymm as bs h]

theorem lexLt_trans : ∀ l m n : List Char, lexLt l m = true → lexLt m n = true →
    lexLt l n = true
  | [], [], _, h, _ => by simp [lexLt] at h
  | _ :: _, [], _, h, _ => by simp [lexLt] at h
  | _, _ :: _, [], _, h => by simp [lexLt] at h
  | [], _ :: _, _ :: _, _, _ => by simp [lexLt]
  | a :: as, b :: bs, c :: cs, h1, h2 => by
    simp only [lexLt] at h1 h2 ⊢
    split_ifs at h1 with hab hba
    · split_ifs at h2 with hbc hcb
      · have : a.toNat < c.toNat := by omega
        simp [this]
      · have : a.toNat < c.toNat := by omega
        simp [this]
    · split_ifs at h2 with hbc hcb
      · have : a.toNat < c.toNat := by omega
        simp [this]
      · have e1 : ¬ a.toNat < c.toNat := by omega
        have e2 : ¬ c.toNat < a.toNat := by omega
        simp [e1, e2, lexLt_trans as bs cs h1 h2]

theorem lexLt_total : ∀ l m : List Char, l ≠ m → lexLt l m = true ∨ lexLt m l = true
  | [], [], h => absurd rfl h
  | [], _ :: _, _ => by simp [lexLt]
  | _ :: _, [], _ => by simp [lexLt]
  | a :: as, b :: bs, h => by
    simp only [lexLt]
    by_cases h1 : a.toNat < b.toNat
    · simp [h1]
    · by_cases h2 : b.toNat < a.toNat
      · simp [h2]
      · have hab : a = b := by
          have e : a.toNat = b.toNat := by omega
          rw [← Char.ofNat_toNat a, ← Char.ofNat_toNat b, e]
        subst hab
        have hne : as ≠ bs := fun e => h (by rw [e])
        simpa [h1] using lexLt_total as bs hne

theorem strLt_irrefl (a : String) : strLt a a = false := lexLt_irrefl a.data

theorem strLt_asymm (a b : String) (h : strLt a b = true) : strLt b a = false :=
  lexLt_asymm a.data b.data h

theorem strLt_trans (a b c : String) (h1 : strLt a b = true) (h2 : strLt b c = true) :
    strLt a c = true :=
  lexLt_trans a.data b.data c.data h1 h2

theorem strLt_total (a b : String) (h : a ≠ b) : strLt a b = true ∨ strLt b a = true :=
  lexLt_total a.data b.data (fun e => h (String.ext e))

/-! ## The comparator -/

theorem cmpTimes_self (xs : List Int) : cmpTimes xs xs = none := by
  induction xs with
  | nil => rfl
  | cons x r ih => simp [cmpTimes, ih]

theorem cmpTimes_none_eq : ∀ xs ys : List Int, xs.length = ys.length →
    cmpTimes xs ys = none → xs = ys
  | [], [], _, _ => rfl
  | [], _ :: _, h, _ => by simp at h
  | _ :: _, [], h, _ => by simp at h
  | x :: xs, y :: ys, h, hc => by
    simp only [cmpTimes] at hc
    split_ifs at hc with hxy
    simp only [ne_eq, not_not] at hxy
    subst hxy
    rw [cmpTimes_none_eq xs ys (by simpa using h) hc]

theorem cmpTimes_swap : ∀ xs ys : List Int, cmpTimes ys xs = (cmpTimes xs ys).map not
  | [], [] => rfl
  | [], _ :: _ => rfl
  | _ :: _, [] => rfl
  | x :: xs, y :: ys => by
    simp only [cmpTimes]
    by_cases hxy : x = y
    · subst hxy
      simpa using cmpTimes_swap xs ys
    · have hyx : y ≠ x := fun e => hxy e.symm
      simp only [ne_eq, hxy, hyx, not_false_eq_true, if_true, Option.map_some', Option.some.injEq]
      by_cases hlt : x < y
      · have : ¬ y < x := by omega
        simp [hlt, this]
      · have : y < x := by omega
        simp [hlt, this]

theorem cmpTimes_trans : ∀ xs ys zs : List Int, cmpTimes xs ys = some true →
    cmpTimes ys zs = some true → cmpTimes xs zs = some true
  | [], _, _, h, _ => by simp [cmpTimes] at h
  | _ :: _, [], _, h, _ => by simp [cmpTimes] at h
  | _ :: _, _ :: _, [], _, h => by simp [cmpTimes] at h
  | x :: xs, y :: ys, z :: zs, h1, h2 => by
    simp only [cmpTimes] at h1 h2 ⊢
    split_ifs at h1 with hxy
    · simp only [Option.some.injEq, decide_eq_true_eq] at h1
      split_ifs at h2 with hyz
      · simp only [Option.some.injEq, decide_eq_true_eq] at h2
        have : x ≠ z := by omega
        have : x < z := by omega
        simp [*]
      · simp only [ne_eq, not_not] at hyz
        subst hyz
        simp [hxy, h1]
    · simp only [ne_eq, not_not] at hxy
      subst hxy
      split_ifs at h2 with hyz
      · simpa [hyz] using h2
      · simp only [hyz, if_false]
        exact cmpTimes_trans xs ys zs h1 h2

/-- The comparator, rule by rule. -/
theorem compare_teams_iff (a b : Team) :
    compare_teams a b = true ↔
      a.solved_count > b.solved_count ∨
      (a.solved_count = b.solved_count ∧ a.total_penalty < b.total_penalty) ∨
      (a.solved_count = b.solved_count ∧ a.total_penalty = b.total_penalty ∧
        cmpTimes a.solve_times b.solve_times = some true) ∨
      (a.solved_count = b.solved_count ∧ a.total_penalty = b.total_penalty ∧
        cmpTimes a.solve_times b.solve_times = none ∧ strLt a.name b.name = true) := by
  unfold compare_teams
  split_ifs with h1 h2
  · simp only [decide_eq_true_eq]
    constructor
    · intro h; exact Or.inl h
    · rintro (h | ⟨h, _⟩ | ⟨h, _⟩ | ⟨h, _⟩)
      · exact h
      · exact absurd h h1
      · exact absurd h h1
      · exact absurd h h1
  · simp only [ne_eq, not_not] at h1
    simp only [decide_eq_true_eq]
    constructor
    · intro h; exact Or.inr (Or.inl ⟨h1, h⟩)
    · rintro (h | ⟨_, h⟩ | ⟨_, h, _⟩ | ⟨_, h, _⟩)
      · omega
      · exact h
      · exact absurd h h2
      · exact absurd h h2
  · simp only [ne_eq, not_not] at h1 h2
    cases hc : cmpTimes a.solve_times b.solve_times with
    | none =>
      simp only [h1, h2, gt_iff_lt, lt_self_iff_false, true_and, false_or, and_false,
        reduceCtorEq]
    | some r =>
      simp only [h1, h2, gt_iff_lt, lt_self_iff_false, true_and, false_or, and_false,
        Option.some.injEq, reduceCtorEq, false_and, or_false]

theorem compare_teams_irrefl (a : Team) : compare_teams a a = false := by
  rw [← Bool.not_eq_true, compare_teams_iff]
  simp [cmpTimes_self, strLt_irrefl]

theorem compare_teams_trans (a b c : Team)
    (ha : (a.solve_times.length : Int) = a.solved_count)
    (hb : (b.solve_times.length : Int) = b.solved_count)
    (hc : (c.solve_times.length : Int) = c.solved_count)
    (hab : compare_teams a b = true) (hbc : compare_teams b c = true) :
    compare_teams a c = true := by
  rw [compare_teams_iff] at hab hbc ⊢
  rcases hab with h1 | ⟨h1, h2⟩ | ⟨h1, h2, h3⟩ | ⟨h1, h2, h3, h4⟩
  · rcases hbc with g1 | ⟨g1, _⟩ | ⟨g1, _⟩ | ⟨g1, _⟩ <;> exact Or.inl (by omega)
  · rcases hbc with g1 | ⟨g1, g2⟩ | ⟨g1, g2, _⟩ | ⟨g1, g2, _⟩
    · exact Or.inl (by omega)
    · exact Or.inr (Or.inl ⟨by omega, by omega⟩)
    · exact Or.inr (Or.inl ⟨by omega, by omega⟩)
    · exact Or.inr (Or.inl ⟨by omega, by omega⟩)
  · rcases hbc with g1 | ⟨g1, g2⟩ | ⟨g1, g2, g3⟩ | ⟨g1, g2, g3, _⟩
    · exact Or.inl (by omega)
    · exact Or.inr (Or.inl ⟨by omega, by omega⟩)
    · exact Or.inr (Or.inr (Or.inl ⟨by omega, by omega, cmpTimes_trans _ _ _ h3 g3⟩))
    · have e : b.solve_times = c.solve_times := cmpTimes_none_eq _ _ (by omega) g3
      exact Or.inr (Or.inr (Or.inl ⟨by omega, by omega, by rw [← e]; exact h3⟩))
  · have e : a.solve_times = b.solve_times := cmpTimes_none_eq _ _ (by omega) h3
    rcases hbc with g1 | ⟨g1, g2⟩ | ⟨g1, g2, g3⟩ | ⟨g1, g2, g3, g4⟩
    · exact Or.inl (by omega)
    · exact Or.inr (Or.inl ⟨by omega, by omega⟩)
    · exact Or.inr (Or.inr (Or.inl ⟨by omega, by omega, by rw [e]; exact g3⟩))
    · exact Or.inr (Or.inr (Or.inr ⟨by omega, by omega, by rw [e]; exact g3,
        strLt_trans _ _ _ h4 g4⟩))

theorem compare_teams_asymm (a b : Team)
    (ha : (a.solve_times.length : Int) = a.solved_count)
    (hb : (b.solve_times.length : Int) = b.solved_count)
    (hab : compare_teams a b = true) : compare_teams b a = false := by
  rw [← Bool.not_eq_true]
  intro hba
  have := compare_teams_trans a b a ha hb ha hab hba
  rw [compare_teams_irrefl] at this
  exact Bool.false_ne_true this

theorem compare_teams_total (a b : Team)
    (hne : a.name ≠ b.name) : compare_teams a b = true ∨ compare_teams b a = true := by
  rw [compare_teams_iff, compare_teams_iff]
  rcases lt_trichotomy a.solved_count b.solved_count with h1 | h1 | h1
  · exact Or.inr (Or.inl h1)
  · rcases lt_trichotomy a.total_penalty b.total_penalty with h2 | h2 | h2
    · exact Or.inl (Or.inr (Or.inl ⟨h1, h2⟩))
    · have hsw := cmpTimes_swap a.solve_times b.solve_times
      cases hc : cmpTimes a.solve_times b.solve_times with
      | none =>
        rw [hc] at hsw
        rcases strLt_total a.name b.name hne with h3 | h3
        · exact Or.inl (Or.inr (Or.inr (Or.inr ⟨h1, h2, rfl, h3⟩)))
        · exact Or.inr (Or.inr (Or.inr (Or.inr ⟨h1.symm, h2.symm, hsw, h3⟩)))
      | some r =>
        rw [hc] at hsw
        cases r
        · exact Or.inr (Or.inr (Or.inr (Or.inl ⟨h1.symm, h2.symm, hsw⟩)))
        · exact Or.inl (Or.inr (Or.inr (Or.inl ⟨h1, h2, rfl⟩)))
    · exact Or.inr (Or.inr (Or.inl ⟨h1.symm, h2⟩))
  · exact Or.inl (Or.inl h1)

/-- C3. On the teams of a reachable state compare_teams is irreflexive and
transitive, and of two teams with different names exactly one is placed before
the other. -/
theorem compare_teams_strict_weak_order (s : ICPCManager) (hs : Reachable s)
    (ka kb kc : String) (a b c : Team)
    (ha : Map.find s.teams ka = some a) (hb : Map.find s.teams kb = some b)
    (hc : Map.find s.teams kc = some c) :
    compare_teams a a = false ∧
    (compare_teams a b = true → compare_teams b c = true → compare_teams a c = true) ∧
    (a.name ≠ b.name →
      (compare_teams a b = true ∨ compare_teams b a = true) ∧
      ¬ (compare_teams a b = true ∧ compare_teams b a = true)) := by
  have la := (reachable_stable teamAgg_stable hs ka a ha).2.2
  have lb := (reachable_stable teamAgg_stable hs kb b hb).2.2
  have lc := (reachable_stable teamAgg_stable hs kc c hc).2.2
  refine ⟨compare_teams_irrefl a, compare_teams_trans a b c la lb lc, fun hne => ⟨?_, ?_⟩⟩
  · exact compare_teams_total a b hne
  · rintro ⟨h1, h2⟩
    rw [compare_teams_asymm a b la lb h1] at h2
    exact Bool.false_ne_true h2

/-- Instance of C3 at the teams T1, T0, T1 of the sample state. -/
theorem compare_teams_strict_weak_order_witness :
    compare_teams (sampleState.deref "T1") (sampleState.deref "T1") = false ∧
    (compare_teams (sampleState.deref "T1") (sampleState.deref "T0") = true →
      compare_teams (sampleState.deref "T0") (sampleState.deref "T1") = true →
      compare_teams (sampleState.deref "T1") (sampleState.deref "T1") = true) ∧
    ((sampleState.deref "T1").name ≠ (sampleState.deref "T0").name →
      (compare_teams (sampleState.deref "T1") (sampleState.deref "T0") = true ∨
        compare_teams (sampleState.deref "T0") (sampleState.deref "T1") = true) ∧
      ¬ (compare_teams (sampleState.deref "T1") (sampleState.deref "T0") = true ∧
        compare_teams (sampleState.deref "T0") (sampleState.deref "T1") = true)) :=
  compare_teams_strict_weak_order sampleState ⟨sampleCmds, rfl⟩ "T1" "T0" "T1" _ _ _
    (by decide) (by decide) (by decide)

/-! ## The comparator and the four rules of the specification -/

theorem cmpTimes_some_iff : ∀ (xs ys : List Int) (r : Bool),
    cmpTimes xs ys = some r ↔
      ∃ i, FirstDiff xs ys i ∧ r = decide (xs.getD i 0 < ys.getD i 0)
  | [], ys, r => by
    simp [cmpTimes, FirstDiff]
  | x :: xs, [], r => by
    simp [cmpTimes, FirstDiff]
  | x :: xs, y :: ys, r => by
    simp only [cmpTimes]
    by_cases hxy : x = y
    · subst hxy
      simp only [ne_eq, not_true_eq_false, if_false]
      rw [cmpTimes_some_iff xs ys r]
      constructor
      · rintro ⟨i, ⟨h1, h2, h3⟩, h4⟩
        refine ⟨i + 1, ⟨?_, ?_, ?_⟩, ?_⟩
        · simp only [List.length_cons]
          omega
        · intro j hj
          cases j with
          | zero => simp
          | succ j => simpa using h2 j (by omega)
        · simpa using h3
        · simpa using h4
      · rintro ⟨i, ⟨h1, h2, h3⟩, h4⟩
        cases i with
        | zero => simp at h3
        | succ i =>
          refine ⟨i, ⟨?_, ?_, ?_⟩, ?_⟩
          · simp only [List.length_cons] at h1
            omega
          · intro j hj
            simpa using h2 (j + 1) (by omega)
          · simpa using h3
          · simpa using h4
    · simp only [ne_eq, hxy, not_false_eq_true, if_true, Option.some.injEq]
      constructor
      · intro h
        refine ⟨0, ⟨?_, ?_, ?_⟩, ?_⟩
        · simp
        · intro j hj
          omega
        · simpa using hxy
        · simpa using h.symm
      · rintro ⟨i, ⟨h1, h2, h3⟩, h4⟩
        cases i with
        | zero => simpa using h4.symm
        | succ i =>
          exfalso
          exact hxy (by simpa using h2 0 (by omega))

theorem cmpTimes_none_iff : ∀ (xs ys : List Int),
    cmpTimes xs ys = none ↔ AgreeOnCommon xs ys
  | [], ys => by
    simp [cmpTimes, AgreeOnCommon]
  | x :: xs, [] => by
    simp [cmpTimes, AgreeOnCommon]
  | x :: xs, y :: ys => by
    simp only [cmpTimes]
    by_cases hxy : x = y
    · subst hxy
      simp only [ne_eq, not_true_eq_false, if_false]
      rw [cmpTimes_none_iff xs ys]
      constructor
      · intro h i hi
        cases i with
        | zero => simp
        | succ i =>
          simp only [List.length_cons] at hi
          simpa using h i (by omega)
      · intro h i hi
        simpa using h (i + 1) (by simp only [List.length_cons]; omega)
    · simp only [ne_eq, hxy, not_false_eq_true, if_true, reduceCtorEq, false_iff]
      intro h
      exact hxy (by simpa using h 0 (by simp))

/-- C4. The result of compare_teams is the four-rule reference order, for every
pair of teams. -/
theorem compare_teams_eq_reference (a b : Team) :
    compare_teams a b = true ↔ compare_ref a b := by
  rw [compare_teams_iff, compare_ref, cmpTimes_none_iff, cmpTimes_some_iff]
  simp only [decide_eq_true_eq, true_eq_decide_iff]

/-! ## Sorting -/

theorem insertBy_perm {α : Type} (lt : α → α → Bool) (a : α) (l : List α) :
    (insertBy lt a l).Perm (a :: l) := by
  induction l with
  | nil => exact List.Perm.refl _
  | cons b r ih =>
    simp only [insertBy]
    split_ifs
    · exact List.Perm.refl _
    · exact (List.Perm.cons b ih).trans (List.Perm.swap a b r)

theorem sortBy_perm {α : Type} (lt : α → α → Bool) (l : List α) : (sortBy lt l).Perm l := by
  induction l with
  | nil => exact List.Perm.refl _
  | cons a r ih =>
    simp only [sortBy]
    exact (insertBy_perm lt a _).trans (List.Perm.cons a ih)

theorem mem_sortBy {α : Type} (lt : α → α → Bool) (l : List α) (x : α) :
    x ∈ sortBy lt l ↔ x ∈ l :=
  (sortBy_perm lt l).mem_iff

theorem length_sortBy {α : Type} (lt : α → α → Bool) (l : List α) :
    (sortBy lt l).length = l.length :=
  (sortBy_perm lt l).length_eq

theorem StrictTotalOn.asymm {α : Type} {lt : α → α → Bool} {S : α → Prop}
    (h : StrictTotalOn lt S) (a b : α) (ha : S a) (hb : S b) (hab : lt a b = true) :
    lt b a = false := by
  rw [← Bool.not_eq_true]
  intro hba
  have := h.trans a b a ha hb ha hab hba
  rw [h.irrefl a ha] at this
  exact Bool.false_ne_true this

theorem insertBy_sorted {α : Type} {lt : α → α → Bool} {S : α → Prop}
    (h : StrictTotalOn lt S) (a : α) (ha : S a) :
    ∀ l : List α, (∀ x ∈ l, S x) → a ∉ l → l.Pairwise (fun x y => lt x y = true) →
      (insertBy lt a l).Pairwise (fun x y => lt x y = true) := by
  intro l
  induction l with
  | nil => intro _ _ _; simp [insertBy]
  | cons b r ih =>
    intro hS hnot hp
    have hb : S b := hS b (List.mem_cons_self _ _)
    have hr : ∀ x ∈ r, S x := fun x hx => hS x (List.mem_cons_of_mem _ hx)
    have hab : a ≠ b := fun e => hnot (by rw [e]; exact List.mem_cons_self _ _)
    have har : a ∉ r := fun e => hnot (List.mem_cons_of_mem _ e)
    rw [List.pairwise_cons] at hp
    simp only [insertBy]
    split_ifs with hlt
    · rw [List.pairwise_cons]
      refine ⟨?_, List.pairwise_cons.mpr hp⟩
      intro x hx
      rcases List.mem_cons.mp hx with e | hx
      · rw [e]; exact hlt
      · exact h.trans a b x ha hb (hr x hx) hlt (hp.1 x hx)
    · rw [List.pairwise_cons]
      refine ⟨?_, ih hr har hp.2⟩
      intro x hx
      rcases List.mem_cons.mp ((insertBy_perm lt a r).mem_iff.mp hx) with e | hx
      · rw [e]
        rcases h.total a b ha hb hab with h1 | h1
        · exact absurd h1 hlt
        · exact h1
      · exact hp.1 x hx

theorem sortBy_sorted {α : Type} {lt : α → α → Bool} {S : α → Prop}
    (h : StrictTotalOn lt S) :
    ∀ l : List α, (∀ x ∈ l, S x) → l.Nodup →
      (sortBy lt l).Pairwise (fun x y => lt x y = true) := by
  intro l
  induction l with
  | nil => intro _ _; simp [sortBy]
  | cons a r ih =>
    intro hS hn
    rw [List.nodup_cons] at hn
    simp only [sortBy]
    apply insertBy_sorted h a (hS a (List.mem_cons_self _ _))
    · intro x hx
      exact hS x (List.mem_cons_of_mem _ ((mem_sortBy lt r x).mp hx))
    · intro hx
      exact hn.1 ((mem_sortBy lt r a).mp hx)
    · exact ih (fun x hx => hS x (List.mem_cons_of_mem _ hx)) hn.2

/-- A sequence has one sorted arrangement: every sorted permutation of `l` is
the sequence `sortBy` returns. -/
theorem sorted_perm_unique {α : Type} {lt : α → α → Bool} {S : α → Prop}
    (h : StrictTotalOn lt S) :
    ∀ l1 l2 : List α, (∀ x ∈ l1, S x) → l1.Perm l2 →
      l1.Pairwise (fun x y => lt x y = true) → l2.Pairwise (fun x y => lt x y = true) →
      l1 = l2 := by
  intro l1
  induction l1 with
  | nil => intro l2 _ hp _ _; exact (List.Perm.nil_eq hp)
  | cons a r1 ih =>
    intro l2 hS hp h1 h2
    cases l2 with
    | nil => exact absurd hp.length_eq (by simp)
    | cons b r2 =>
      rw [List.pairwise_cons] at h1 h2
      have ha : S a := hS a (List.mem_cons_self _ _)
      have hab : a = b := by
        by_contra hne
        have hb1 : b ∈ a :: r1 := hp.mem_iff.mpr (List.mem_cons_self _ _)
        have ha2 : a ∈ b :: r2 := hp.mem_iff.mp (List.mem_cons_self _ _)
        have hb : S b := hS b hb1
        have hbr : b ∈ r1 := by
          rcases List.mem_cons.mp hb1 with e | e
          · exact absurd e.symm hne
          · exact e
        have har : a ∈ r2 := by
          rcases List.mem_cons.mp ha2 with e | e
          · exact absurd e hne
          · exact e
        have e1 := h1.1 b hbr
        have e2 := h2.1 a har
        rw [h.asymm a b ha hb e1] at e2
        exact Bool.false_ne_true e2
      subst hab
      rw [ih r2 (fun x hx => hS x (List.mem_cons_of_mem _ hx)) (List.Perm.cons_inv hp) h1.2 h2.2]

/-- In a sorted sequence the elements placed before `x` are those in front of
it. -/
theorem countP_before_sorted {α : Type} {lt : α → α → Bool} {S : α → Prop}
    (h : StrictTotalOn lt S) (pre post : List α) (x : α)
    (hS : ∀ y ∈ pre ++ x :: post, S y)
    (hp : (pre ++ x :: post).Pairwise (fun a b => lt a b = true)) :
    (pre ++ x :: post).countP (fun y => lt y x) = pre.length := by
  rw [List.pairwise_append] at hp
  obtain ⟨_, hxp, hpre⟩ := hp
  rw [List.pairwise_cons] at hxp
  have hx : S x := hS x (by simp)
  rw [List.countP_append, List.countP_cons]
  have e1 : pre.countP (fun y => lt y x) = pre.length := by
    rw [List.countP_eq_length]
    intro y hy
    exact hpre y hy x (List.mem_cons_self _ _)
  have e2 : post.countP (fun y => lt y x) = 0 := by
    rw [List.countP_eq_zero]
    intro y hy
    rw [h.asymm x y hx (hS y (by simp [hy])) (hxp.1 y hy)]
    exact Bool.false_ne_true
  rw [e1, e2, h.irrefl x hx]
  simp

/-! ## Relations between a team before and after an operation -/

theorem print_rows_fields (l : List String) : ∀ (s : ICPCManager) (i : Nat),
    (print_rows s i l).1 = { s with teams := (print_rows s i l).1.teams } := by
  induction l with
  | nil => intro s i; rfl
  | cons p rest ih =>
    intro s i
    simp only [print_rows]
    rw [ih]

theorem isSome_find_set {β : Type} (m : List (String × β)) (k j : String) (v : β)
    (h : (Map.find m j).isSome) : (Map.find (Map.set m k v) j).isSome := by
  by_cases hjk : j = k
  · subst hjk
    simp [Map.find_set_self]
  · rw [Map.find_set_ne m k j v hjk]
    exact h

theorem print_rows_keys (l : List String) : ∀ (s : ICPCManager) (i : Nat) (k : String),
    (Map.find s.teams k).isSome → (Map.find (print_rows s i l).1.teams k).isSome := by
  induction l with
  | nil => intro s i k h; exact h
  | cons p rest ih =>
    intro s i k h
    simp only [print_rows]
    exact ih _ _ k (isSome_find_set _ _ _ _ h)

theorem print_rows_mem_keys (l : List String) : ∀ (s : ICPCManager) (i : Nat) (k : String),
    k ∈ l → (Map.find (print_rows s i l).1.teams k).isSome := by
  induction l with
  | nil => intro s i k h; simp at h
  | cons p rest ih =>
    intro s i k h
    simp only [print_rows]
    rcases List.mem_cons.mp h with e | e
    · subst e
      apply print_rows_keys
      simp [Map.find_set_self]
    · exact ih _ _ k e

theorem print_cells_rel {R : Team → Team → Prop} (hR : TouchRel R) (frozen : Bool)
    (names : List String) : ∀ t, R t (print_cells frozen t names).1 := by
  induction names with
  | nil => intro t; exact hR.refl t
  | cons n rest ih =>
    intro t
    simp only [print_cells]
    exact hR.trans _ _ _ (hR.touch t n) (ih _)

theorem print_rows_rel {R : Team → Team → Prop} (hR : TouchRel R) (l : List String) :
    ∀ (s : ICPCManager) (i : Nat) (k : String),
      R (Map.get s.teams k) (Map.get (print_rows s i l).1.teams k) := by
  induction l with
  | nil => intro s i k; exact hR.refl _
  | cons p rest ih =>
    intro s i k
    simp only [print_rows]
    refine hR.trans _ _ _ ?_ (ih _ _ k)
    by_cases hkp : k = p
    · subst hkp
      simp only [Map.get_set_self]
      exact print_cells_rel hR _ _ _
    · simp only [Map.get_set_ne _ _ _ _ hkp]
      exact hR.refl _

theorem foldl_freeze_rel {R : Team → Team → Prop} (hR : ViewRel R) (names : List String) :
    ∀ t, R t (names.foldl Team.freeze_problem t) := by
  induction names with
  | nil => intro t; exact hR.refl t
  | cons n rest ih =>
    intro t
    exact hR.trans _ _ _ (hR.freeze t n) (ih _)

theorem get_freeze_all (m : List (String × Team)) (names : List String) (k : String) :
    Map.find (freeze_all m names) k =
      (Map.find m k).map (fun t => names.foldl Team.freeze_problem t) := by
  unfold freeze_all
  exact Map.find_map_snd (fun t => names.foldl Team.freeze_problem t) m k

theorem freeze_all_rel {R : Team → Team → Prop} (hR : ViewRel R) (m : List (String × Team))
    (names : List String) (k : String) :
    R (Map.get m k) (Map.get (freeze_all m names) k) := by
  unfold Map.get
  rw [get_freeze_all]
  cases Map.find m k with
  | none => exact hR.refl _
  | some t => exact foldl_freeze_rel hR names t

theorem scroll_mid_rel {R : Team → Team → Prop} (hR : ViewRel R) (s : ICPCManager)
    (k : String) : R (Map.get s.teams k) (Map.get (scroll_mid s).teams k) := by
  unfold scroll_mid
  exact hR.trans _ _ _ (print_rows_rel hR.toTouchRel _ s 0 k) (freeze_all_rel hR _ _ k)

theorem scroll_mid_keys (s : ICPCManager) (k : String) (h : (Map.find s.teams k).isSome) :
    (Map.find (scroll_mid s).teams k).isSome := by
  unfold scroll_mid
  dsimp only
  rw [get_freeze_all]
  have := print_rows_keys s.ranked s 0 k h
  simp only [print_scoreboard, Option.isSome_map']
  exact this

/-- The keys of the team mapping stay. -/
theorem step_keys (s : ICPCManager) (c : Cmd) (k : String) (h : (Map.find s.teams k).isSome) :
    (Map.find (step s c).1.teams k).isSome := by
  cases c with
  | addteam n =>
    simp only [step, add_team]
    split_ifs
    · exact h
    · exact h
    · exact isSome_find_set _ _ _ _ h
  | start d p =>
    simp only [step, start_competition]
    split_ifs <;> exact h
  | submit p t st tm =>
    simp only [step, submit]
    split_ifs
    · exact h
    · exact isSome_find_set _ _ _ _ (isSome_find_set _ _ _ _ h)
    · exact isSome_find_set _ _ _ _ h
  | flush =>
    simp only [step, flush_scoreboard]
    split_ifs
    · exact h
    · exact print_rows_keys _ s 0 k h
  | freeze =>
    simp only [step, freeze_scoreboard]
    split_ifs <;> exact h
  | scroll =>
    simp only [step, scroll_scoreboard]
    split_ifs
    · exact h
    · exact h
    · exact print_rows_keys _ _ 0 k (scroll_mid_keys s k h)
  | query_ranking t =>
    simp only [step, query_ranking_state]
    exact h
  | query_submission t p st =>
    simp only [step, query_submission_state]
    exact h

/-- A team of the mapping and the same team after a command are related. -/
theorem step_rel {R : Team → Team → Prop} (hR : TeamRel R) (s : ICPCManager) (c : Cmd)
    (k : String) (h : (Map.find s.teams k).isSome) :
    R (Map.get s.teams k) (Map.get (step s c).1.teams k) := by
  cases c with
  | addteam n =>
    simp only [step, add_team]
    split_ifs with h1 h2
    · exact hR.refl _
    · exact hR.refl _
    · have hkn : k ≠ n := by
        intro e
        subst e
        exact h2 h
      simp only [Map.get_set_ne _ _ _ _ hkn]
      exact hR.refl _
  | start d p =>
    simp only [step, start_competition]
    split_ifs <;> exact hR.refl _
  | submit p t st tm =>
    by_cases hst : s.competition_started = true
    · by_cases hkt : k = t
      · subst hkt
        have := deref_submit s p k st tm hst
        simp only [ICPCManager.deref] at this
        simp only [step]
        rw [this]
        split_ifs
        · exact hR.trans _ _ _ (hR.update _ p st tm) (hR.add_frozen _ p)
        · exact hR.update _ p st tm
      · simp only [step, submit, hst, Bool.not_true, Bool.false_eq_true, if_false]
        split_ifs
        · simp only [Map.get_set_ne _ _ _ _ hkt]
          exact hR.refl _
        · simp only [Map.get_set_ne _ _ _ _ hkt]
          exact hR.refl _
    · simp only [Bool.not_eq_true] at hst
      simp only [step, submit, hst, Bool.not_false, if_true]
      exact hR.refl _
  | flush =>
    simp only [step, flush_scoreboard]
    split_ifs
    · exact hR.refl _
    · exact print_rows_rel hR.toViewRel.toTouchRel _ s 0 k
  | freeze =>
    simp only [step, freeze_scoreboard]
    split_ifs <;> exact hR.refl _
  | scroll =>
    simp only [step, scroll_scoreboard]
    split_ifs
    · exact hR.refl _
    · exact hR.refl _
    · exact hR.trans _ _ _ (scroll_mid_rel hR.toViewRel s k) (print_rows_rel hR.toViewRel.toTouchRel _ _ 0 k)
  | query_ranking t =>
    simp only [step, query_ranking_state]
    exact hR.refl _
  | query_submission t p st =>
    simp only [step, query_submission_state]
    exact hR.refl _

/-! ## The text of a number -/

theorem digitChar_ne_dot (k : Nat) (h : k < 10) : Nat.digitChar k ≠ '.' := by
  interval_cases k <;> decide

theorem toDigitsCore_getLast (b : Nat) : ∀ (fuel n : Nat) (ds : List Char), ds ≠ [] →
    (Nat.toDigitsCore b fuel n ds).getLast? = ds.getLast? := by
  intro fuel
  induction fuel with
  | zero => intro n ds _; rfl
  | succ f ih =>
    intro n ds hds
    cases ds with
    | nil => exact absurd rfl hds
    | cons d r =>
      simp only [Nat.toDigitsCore]
      split_ifs
      · simp [List.getLast?_cons_cons]
      · rw [ih _ _ (by simp)]
        simp [List.getLast?_cons_cons]

theorem toDigits_getLast (n : Nat) :
    (Nat.toDigits 10 n).getLast? = some (Nat.digitChar (n % 10)) := by
  unfold Nat.toDigits
  simp only [Nat.toDigitsCore]
  split_ifs
  · rfl
  · rw [toDigitsCore_getLast _ _ _ _ (by simp)]
    rfl

/-- The text of an integer ends with a digit. -/
theorem toString_int_getLast (i : Int) :
    ∃ c, (toString i).data.getLast? = some c ∧ c ≠ '.' := by
  cases i with
  | ofNat m =>
    refine ⟨Nat.digitChar (m % 10), ?_, digitChar_ne_dot _ (Nat.mod_lt _ (by norm_num))⟩
    show (Nat.toDigits 10 m).getLast? = _
    exact toDigits_getLast m
  | negSucc m =>
    refine ⟨Nat.digitChar ((m + 1) % 10), ?_, digitChar_ne_dot _ (Nat.mod_lt _ (by norm_num))⟩
    show ("-".data ++ (Nat.toDigits 10 (m + 1))).getLast? = _
    rw [List.getLast?_append, toDigits_getLast]
    rfl

/-- A line that ends with a number is not a line that ends with a full stop. -/
theorem append_toString_ne (a : String) (i : Int) (w : String)
    (hw : w.data.getLast? = some '.') : a ++ toString i ≠ w := by
  intro h
  obtain ⟨c, hc, hne⟩ := toString_int_getLast i
  have : (a ++ toString i).data.getLast? = some c := by
    rw [String.data_append, List.getLast?_append, hc]
    rfl
  rw [h, hw] at this
  exact hne (Option.some.inj this).symm

/-! ## The ranked teams of a reachable state -/

theorem nameRel : TeamRel (fun t u => u.name = t.name) where
  refl := fun _ => rfl
  trans := fun _ _ _ h1 h2 => h2.trans h1
  touch := fun _ _ => rfl
  freeze := by
    intro t p
    unfold Team.freeze_problem
    dsimp only
    split_ifs <;> rfl
  update := by
    intro t p st tm
    unfold Team.update_status
    dsimp only
    split_ifs <;> rfl
  add_frozen := by
    intro t p
    unfold Team.add_frozen_submission
    dsimp only
    split_ifs <;> rfl

theorem find_eq_some_get {β : Type} [Inhabited β] (m : List (String × β)) (k : String)
    (h : (Map.find m k).isSome) : Map.find m k = some (Map.get m k) := by
  unfold Map.get
  cases hf : Map.find m k with
  | none => simp [hf] at h
  | some v => rfl

theorem get_of_find {β : Type} [Inhabited β] (m : List (String × β)) (k : String) (v : β)
    (h : Map.find m k = some v) : Map.get m k = v := by
  simp [Map.get, h]

theorem step_team_ptrs (s : ICPCManager) (c : Cmd) (hc : ∀ n, c ≠ .addteam n) :
    (step s c).1.team_ptrs = s.team_ptrs := by
  cases c with
  | addteam n => exact absurd rfl (hc n)
  | start d p =>
    simp only [step, start_competition]
    split_ifs <;> rfl
  | submit p t st tm =>
    simp only [step, submit]
    split_ifs <;> rfl
  | flush =>
    simp only [step, flush_scoreboard]
    split_ifs
    · rfl
    · simp only [print_scoreboard]
      rw [print_rows_fields]
  | freeze =>
    simp only [step, freeze_scoreboard]
    split_ifs <;> rfl
  | scroll =>
    simp only [step, scroll_scoreboard]
    split_ifs
    · rfl
    · rfl
    · simp only [print_scoreboard]
      rw [print_rows_fields]
      simp only [scroll_mid, print_scoreboard]
      rw [print_rows_fields]
  | query_ranking t => simp only [step, query_ranking_state]
  | query_submission t p st => simp only [step, query_submission_state]

theorem step_ptrInv (s : ICPCManager) (c : Cmd) (h : PtrInv s) : PtrInv (step s c).1 := by
  by_cases hc : ∀ n, c ≠ .addteam n
  · refine ⟨by rw [step_team_ptrs s c hc]; exact h.1, ?_⟩
    intro p hp
    rw [step_team_ptrs s c hc] at hp
    obtain ⟨t, ht, hn⟩ := h.2 p hp
    have hsome : (Map.find s.teams p).isSome := by simp [ht]
    have h1 := step_keys s c p hsome
    have h2 := step_rel nameRel s c p hsome
    refine ⟨_, find_eq_some_get _ _ h1, ?_⟩
    rw [h2, get_of_find _ _ _ ht, hn]
  · push_neg at hc
    obtain ⟨n, rfl⟩ := hc
    simp only [step, add_team]
    split_ifs with h1 h2
    · exact h
    · exact h
    · have hnone : Map.find s.teams n = none := by
        cases hf : Map.find s.teams n with
        | none => rfl
        | some v => simp [hf] at h2
      have hn : n ∉ s.team_ptrs := by
        intro hmem
        obtain ⟨t, ht, _⟩ := h.2 n hmem
        rw [hnone] at ht
        cases ht
      refine ⟨?_, ?_⟩
      · exact List.Nodup.append h.1 (List.nodup_singleton n) (by simpa using hn)
      · intro p hp
        simp only [List.mem_append, List.mem_singleton] at hp
        rcases hp with hp | hp
        · obtain ⟨t, ht, hnm⟩ := h.2 p hp
          have hpn : p ≠ n := fun e => hn (e ▸ hp)
          exact ⟨t, by simp only [Map.find_set_ne _ _ _ _ hpn]; exact ht, hnm⟩
        · subst hp
          exact ⟨Team.new p, by simp only [Map.find_set_self], rfl⟩

theorem run_ptrInv (cmds : List Cmd) : ∀ s : ICPCManager, PtrInv s → PtrInv (run s cmds) := by
  induction cmds with
  | nil => intro s h; exact h
  | cons c cs ih =>
    intro s h
    exact ih _ (step_ptrInv s c h)

theorem reachable_ptrInv {s : ICPCManager} (hs : Reachable s) : PtrInv s := by
  obtain ⟨cmds, rfl⟩ := hs
  apply run_ptrInv
  exact ⟨List.nodup_nil, fun p hp => by simp [ICPCManager.init] at hp⟩

theorem ranked_eq (s : ICPCManager) : s.ranked = sortBy s.ptrLt s.team_ptrs := rfl

/-- On the ranked teams of a reachable state the comparator is a strict total
order. -/
theorem ptrLt_strictTotal (s : ICPCManager) (hs : Reachable s) :
    StrictTotalOn s.ptrLt (fun p => p ∈ s.team_ptrs) := by
  have hptr := reachable_ptrInv hs
  have hagg := reachable_stable teamAgg_stable hs
  have len : ∀ p ∈ s.team_ptrs, ((s.deref p).solve_times.length : Int) = (s.deref p).solved_count := by
    intro p hp
    obtain ⟨t, ht, _⟩ := hptr.2 p hp
    have := (hagg p t ht).2.2
    simpa [ICPCManager.deref, get_of_find _ _ _ ht] using this
  have nm : ∀ p ∈ s.team_ptrs, (s.deref p).name = p := by
    intro p hp
    obtain ⟨t, ht, hn⟩ := hptr.2 p hp
    simpa [ICPCManager.deref, get_of_find _ _ _ ht] using hn
  refine ⟨fun a _ => compare_teams_irrefl _, ?_, ?_⟩
  · intro a b c ha hb hc
    exact compare_teams_trans _ _ _ (len a ha) (len b hb) (len c hc)
  · intro a b ha hb hab
    apply compare_teams_total
    rw [nm a ha, nm b hb]
    exact hab

theorem ranked_sorted (s : ICPCManager) (hs : Reachable s) :
    s.ranked.Pairwise (fun a b => s.ptrLt a b = true) :=
  sortBy_sorted (ptrLt_strictTotal s hs) s.team_ptrs (fun _ h => h) (reachable_ptrInv hs).1

/-- The ranking does not depend on the sorting algorithm: every sorted
arrangement of `team_ptrs` is the sequence `ranked`. -/
theorem ranked_unique (s : ICPCManager) (hs : Reachable s) (l : List String)
    (hperm : l.Perm s.team_ptrs) (hsorted : l.Pairwise (fun a b => s.ptrLt a b = true)) :
    l = s.ranked :=
  sorted_perm_unique (ptrLt_strictTotal s hs) l s.ranked
    (fun _ hx => hperm.mem_iff.mp hx) (hperm.trans (sortBy_perm _ _).symm) hsorted
    (ranked_sorted s hs)

theorem find_rank_append (s : ICPCManager) (x : String) (post : List String)
    (hx : (s.deref x).name = x) :
    ∀ (pre : List String) (i : Nat), (∀ p ∈ pre, (s.deref p).name ≠ x) →
      find_rank s x i (pre ++ x :: post) = ((i + pre.length : Nat) : Int) + 1 := by
  intro pre
  induction pre with
  | nil => intro i _; simp [find_rank, hx]
  | cons p r ih =>
    intro i h
    have hp : (s.deref p).name ≠ x := h p (List.mem_cons_self _ _)
    have e := ih (i + 1) (fun q hq => h q (List.mem_cons_of_mem _ hq))
    simp only [List.cons_append, find_rank, hp, if_false]
    refine Eq.trans e ?_
    simp only [List.length_cons]
    congr 2
    omega

theorem ranked_split (s : ICPCManager) (hs : Reachable s) (x : String)
    (hx : x ∈ s.team_ptrs) :
    ∃ pre post, s.ranked = pre ++ x :: post ∧ x ∉ pre ∧ s.placedBefore x = pre.length := by
  have hperm : s.ranked.Perm s.team_ptrs := sortBy_perm _ _
  obtain ⟨pre, post, hsplit⟩ := List.append_of_mem (hperm.mem_iff.mpr hx)
  have hnd : s.ranked.Nodup := hperm.nodup_iff.mpr (reachable_ptrInv hs).1
  have hxpre : x ∉ pre := by
    rw [hsplit] at hnd
    intro hmem
    have := (List.nodup_append.mp hnd).2.2
    exact this hmem (List.mem_cons_self _ _)
  refine ⟨pre, post, hsplit, hxpre, ?_⟩
  have hsorted := ranked_sorted s hs
  rw [hsplit] at hsorted
  have hS : ∀ y ∈ pre ++ x :: post, y ∈ s.team_ptrs := by
    intro y hy
    rw [← hsplit] at hy
    exact hperm.mem_iff.mp hy
  have := countP_before_sorted (ptrLt_strictTotal s hs) pre post x hS hsorted
  rw [← this, ← hsplit]
  exact (hperm.countP_eq _).symm

/-- C5. For a team registered with add_team, query_ranking leaves the state
unchanged and prints the information line, the warning line exactly when the
engine is frozen, and the ranking line with the rank 1 + the number of ranked
teams compare_teams places before the team, which is 1 + its index in the
sorted list of the ranked teams. -/
theorem query_ranking_reports_rank (s : ICPCManager) (hs : Reachable s) (team_name : String)
    (hreg : team_name ∈ s.team_ptrs) :
    query_ranking s team_name =
      (s, ["[Info]Complete query ranking."]
        ++ (if s.frozen then
              ["[Warning]Scoreboard is frozen. The ranking may be inaccurate until it were scrolled."]
            else [])
        ++ [team_name ++ " NOW AT RANKING "
              ++ toString ((1 : Int) + (s.placedBefore team_name : Int))]) ∧
    (1 : Int) + (s.placedBefore team_name : Int) = (s.ranked.indexOf team_name : Int) + 1 ∧
    ("[Warning]Scoreboard is frozen. The ranking may be inaccurate until it were scrolled."
        ∈ (query_ranking s team_name).2 ↔ s.frozen = true) := by
  obtain ⟨pre, post, hsplit, hxpre, hcount⟩ := ranked_split s hs team_name hreg
  have hptr := reachable_ptrInv hs
  have hperm : s.ranked.Perm s.team_ptrs := sortBy_perm _ _
  obtain ⟨t, ht, hn⟩ := hptr.2 team_name hreg
  have nm : ∀ p ∈ s.team_ptrs, (s.deref p).name = p := by
    intro p hp
    obtain ⟨u, hu, hnu⟩ := hptr.2 p hp
    simpa [ICPCManager.deref, get_of_find _ _ _ hu] using hnu
  have hrank : find_rank s team_name 0 s.ranked = (1 : Int) + (s.placedBefore team_name : Int) := by
    rw [hsplit, find_rank_append s team_name post (nm team_name hreg) pre 0, hcount]
    · simp only [zero_add]
      ring
    · intro p hp hpn
      have hp' : p ∈ s.team_ptrs := hperm.mem_iff.mp (by rw [hsplit]; simp [hp])
      rw [nm p hp'] at hpn
      exact hxpre (hpn ▸ hp)
  have hout : query_ranking s team_name =
      (s, ["[Info]Complete query ranking."]
        ++ (if s.frozen then
              ["[Warning]Scoreboard is frozen. The ranking may be inaccurate until it were scrolled."]
            else [])
        ++ [team_name ++ " NOW AT RANKING "
              ++ toString ((1 : Int) + (s.placedBefore team_name : Int))]) := by
    unfold query_ranking
    simp only [ht, Option.isNone_some, Bool.false_eq_true, if_false, hrank]
  refine ⟨hout, ?_, ?_⟩
  · rw [hcount, hsplit, List.indexOf_append_of_not_mem hxpre, List.indexOf_cons_self]
    simp only [add_zero]
    ring
  · rw [hout]
    have hne := append_toString_ne (team_name ++ " NOW AT RANKING ")
      ((1 : Int) + (s.placedBefore team_name : Int))
      "[Warning]Scoreboard is frozen. The ranking may be inaccurate until it were scrolled."
      (by decide)
    cases hf : s.frozen
    · simp only [Bool.false_eq_true, if_false, List.append_nil, List.singleton_append,
        List.mem_cons, List.mem_singleton, List.not_mem_nil, or_false, iff_false, not_or]
      exact ⟨by decide, fun e => hne e.symm⟩
    · simp

/-- Instance of C5: team T1 in the sample state, frozen, with T0 ranked before
it. -/
theorem query_ranking_reports_rank_witness :
    query_ranking sampleState "T1" =
      (sampleState, ["[Info]Complete query ranking.",
        "[Warning]Scoreboard is frozen. The ranking may be inaccurate until it were scrolled.",
        "T1 NOW AT RANKING 2"]) ∧
    sampleState.placedBefore "T1" = 1 := by
  have h := (query_ranking_reports_rank sampleState ⟨sampleCmds, rfl⟩ "T1" (by decide)).1
  exact ⟨h.trans (by decide), by decide⟩

/-! ## The submission log -/

/-- The last element of a sequence that satisfies a test is found by the search
from the back. -/
theorem find_reverse_last {α : Type} (q : α → Bool) (l : List α) :
    ∀ x, l.reverse.find? q = some x →
      ∃ i : Nat, l[i]? = some x ∧ q x = true ∧
        ∀ (j : Nat) (y : α), i < j → l[j]? = some y → q y = false := by
  induction l using List.reverseRecOn with
  | nil => intro x h; simp at h
  | append_singleton r a ih =>
    intro x h
    rw [List.reverse_append, List.reverse_singleton, List.singleton_append,
      List.find?_cons] at h
    cases hqa : q a with
    | true =>
      rw [hqa] at h
      cases h
      refine ⟨r.length, by simp, hqa, ?_⟩
      intro j y hj hy
      have : (r ++ [a])[j]? = none := by
        apply List.getElem?_eq_none
        simp
        omega
      rw [this] at hy
      cases hy
    | false =>
      rw [hqa] at h
      obtain ⟨i, h1, h2, h3⟩ := ih x h
      have hi : i < r.length := by
        by_contra hge
        rw [List.getElem?_eq_none (by omega)] at h1
        cases h1
      refine ⟨i, by rw [List.getElem?_append_left hi]; exact h1, h2, ?_⟩
      intro j y hj hy
      by_cases hjr : j < r.length
      · rw [List.getElem?_append_left hjr] at hy
        exact h3 j y hj hy
      · have hjl : j < (r ++ [a]).length := by
          by_contra hge
          rw [List.getElem?_eq_none (by omega)] at hy
          cases hy
        have hje : j = r.length := by
          simp at hjl
          omega
        subst hje
        simp at hy
        rw [← hy]
        exact hqa

theorem logRel : ViewRel (fun t u => u.submissions = t.submissions) where
  refl := fun _ => rfl
  trans := fun _ _ _ h1 h2 => h2.trans h1
  touch := fun _ _ => rfl
  freeze := by
    intro t p
    unfold Team.freeze_problem
    dsimp only
    split_ifs <;> rfl

theorem submissions_update_status (t : Team) (p st : String) (tm : Int) :
    (t.update_status p st tm).submissions = t.submissions ++ [⟨p, st, tm⟩] := by
  unfold Team.update_status
  dsimp only
  split_ifs <;> rfl

theorem submissions_add_frozen_submission (t : Team) (p : String) :
    (t.add_frozen_submission p).submissions = t.submissions := by
  unfold Team.add_frozen_submission
  dsimp only
  split_ifs <;> rfl

theorem step_started (s : ICPCManager) (c : Cmd) :
    (step s c).1.competition_started =
      match c with
      | .start _ _ => true
      | _ => s.competition_started := by
  cases c with
  | addteam n =>
    simp only [step, add_team]
    split_ifs <;> rfl
  | start d p =>
    simp only [step, start_competition]
    split_ifs with h
    · exact h
    · rfl
  | submit p t st tm =>
    simp only [step, submit]
    split_ifs <;> rfl
  | flush =>
    simp only [step, flush_scoreboard]
    split_ifs
    · rfl
    · simp only [print_scoreboard]
      rw [print_rows_fields]
  | freeze =>
    simp only [step, freeze_scoreboard]
    split_ifs <;> rfl
  | scroll =>
    simp only [step, scroll_scoreboard]
    split_ifs
    · rfl
    · rfl
    · simp only [print_scoreboard]
      rw [print_rows_fields]
      simp only [scroll_mid, print_scoreboard]
      rw [print_rows_fields]
  | query_ranking t => simp only [step, query_ranking_state]
  | query_submission t p st => simp only [step, query_submission_state]

theorem step_submissions (s : ICPCManager) (c : Cmd) (k : String) :
    ((step s c).1.deref k).submissions =
      (s.deref k).submissions ++
        match c with
        | .submit p t st tm =>
          if s.competition_started && decide (t = k) then [⟨p, st, tm⟩] else []
        | _ => [] := by
  cases c with
  | addteam n =>
    simp only [step, add_team, ICPCManager.deref, List.append_nil]
    split_ifs with h1 h2
    · rfl
    · rfl
    · by_cases hkn : k = n
      · subst hkn
        have hnone : Map.find s.teams k = none := by
          cases hf : Map.find s.teams k with
          | none => rfl
          | some v => simp [hf] at h2
        rw [Map.get_set_self]
        simp only [Map.get, hnone, Option.getD_none]
        rfl
      · simp only [Map.get_set_ne _ _ _ _ hkn]
  | start d p =>
    simp only [step, start_competition, ICPCManager.deref, List.append_nil]
    split_ifs <;> rfl
  | submit p t st tm =>
    by_cases hst : s.competition_started = true
    · by_cases hkt : t = k
      · subst hkt
        simp only [step]
        rw [deref_submit s p t st tm hst]
        simp only [hst, decide_True, Bool.and_self, if_true]
        split_ifs
        · rw [submissions_add_frozen_submission, submissions_update_status]
        · rw [submissions_update_status]
      · have hkt' : k ≠ t := fun e => hkt e.symm
        simp only [step, submit, hst, Bool.not_true, Bool.false_eq_true, if_false,
          ICPCManager.deref, hkt, decide_False, Bool.and_false, List.append_nil]
        split_ifs
        · simp only [Map.get_set_ne _ _ _ _ hkt']
        · simp only [Map.get_set_ne _ _ _ _ hkt']
    · simp only [Bool.not_eq_true] at hst
      simp [step, submit, hst]
  | flush =>
    simp only [step, flush_scoreboard, List.append_nil]
    split_ifs
    · rfl
    · exact print_rows_rel logRel.toTouchRel _ s 0 k
  | freeze =>
    simp only [step, freeze_scoreboard, ICPCManager.deref, List.append_nil]
    split_ifs <;> rfl
  | scroll =>
    simp only [step, scroll_scoreboard, List.append_nil]
    split_ifs
    · rfl
    · rfl
    · exact (print_rows_rel logRel.toTouchRel _ _ 0 k).trans (scroll_mid_rel logRel s k)
  | query_ranking t => simp only [step, query_ranking_state, List.append_nil]
  | query_submission t p st => simp only [step, query_submission_state, List.append_nil]

theorem run_submissions (k : String) (cmds : List Cmd) : ∀ s : ICPCManager,
    ((run s cmds).deref k).submissions =
      (s.deref k).submissions ++ submissionsFor k s.competition_started cmds := by
  induction cmds with
  | nil => intro s; simp [run, submissionsFor]
  | cons c cs ih =>
    intro s
    simp only [run]
    rw [ih, step_submissions, step_started, List.append_assoc]
    congr 1
    cases c <;> simp only [submissionsFor, List.nil_append]
    split_ifs <;> rfl

/-- C6. On a known team query_submission leaves the state unchanged and prints
the entry of the log of the team with the greatest index among those that match
both filters (a filter matches when it is ALL or equals the field), and it
prints that no submission is found exactly when no entry of the log matches;
the log of a team is the sequence of the submissions made for it after the
start of the contest, in arrival order, whether or not the problem was
solved. -/
theorem query_submission_latest (s : ICPCManager) (team_name problem status : String)
    (hknown : (Map.find s.teams team_name).isSome = true) :
    (∀ x : Submission, sub_match problem status x = true ↔
      (problem = "ALL" ∨ x.problem = problem) ∧ (status = "ALL" ∨ x.status = status)) ∧
    ((∃ (i : Nat) (x : Submission),
        (s.deref team_name).submissions[i]? = some x ∧
        sub_match problem status x = true ∧
        (∀ (j : Nat) (y : Submission), i < j →
          (s.deref team_name).submissions[j]? = some y → sub_match problem status y = false) ∧
        query_submission s team_name problem status =
          (s, ["[Info]Complete query submission.",
               team_name ++ " " ++ x.problem ++ " " ++ x.status ++ " " ++ toString x.time])) ∨
      ((∀ x ∈ (s.deref team_name).submissions, sub_match problem status x = false) ∧
        query_submission s team_name problem status =
          (s, ["[Info]Complete query submission.", "Cannot find any submission."]))) ∧
    ((query_submission s team_name problem status).2 =
        ["[Info]Complete query submission.", "Cannot find any submission."] ↔
      ∀ x ∈ (s.deref team_name).submissions, sub_match problem status x = false) ∧
    (∀ (cmds : List Cmd) (k : String),
      ((run ICPCManager.init cmds).deref k).submissions = submissionsFor k false cmds) := by
  have hnn : (Map.find s.teams team_name).isNone = false := by
    cases hf : Map.find s.teams team_name with
    | none => simp [hf] at hknown
    | some v => rfl
  refine ⟨?_, ?_, ?_, ?_⟩
  · intro x
    simp [sub_match]
  · cases hfind : (s.deref team_name).submissions.reverse.find? (sub_match problem status) with
    | some x =>
      left
      obtain ⟨i, h1, h2, h3⟩ := find_reverse_last _ _ x hfind
      refine ⟨i, x, h1, h2, h3, ?_⟩
      simp only [ICPCManager.deref] at hfind
      simp only [query_submission, hnn, Bool.false_eq_true, if_false, hfind]
    | none =>
      right
      have hall : ∀ x ∈ (s.deref team_name).submissions, sub_match problem status x = false := by
        intro x hx
        have := List.find?_eq_none.mp hfind x (List.mem_reverse.mpr hx)
        simpa using this
      refine ⟨hall, ?_⟩
      simp only [ICPCManager.deref] at hfind
      simp only [query_submission, hnn, Bool.false_eq_true, if_false, hfind]
  · cases hfind : (s.deref team_name).submissions.reverse.find? (sub_match problem status) with
    | some x =>
      have hx : x ∈ (s.deref team_name).submissions :=
        List.mem_reverse.mp (List.mem_of_find?_eq_some hfind)
      have hq : sub_match problem status x = true := List.find?_some hfind
      simp only [ICPCManager.deref] at hfind
      simp only [query_submission, hnn, Bool.false_eq_true, if_false, hfind]
      constructor
      · intro h
        exfalso
        simp only [List.cons.injEq, true_and, and_true] at h
        exact append_toString_ne _ _ "Cannot find any submission." (by decide) h
      · intro h
        rw [h x hx] at hq
        exact absurd hq Bool.false_ne_true
    | none =>
      have hall : ∀ x ∈ (s.deref team_name).submissions, sub_match problem status x = false := by
        intro x hx
        have := List.find?_eq_none.mp hfind x (List.mem_reverse.mpr hx)
        simpa using this
      simp only [ICPCManager.deref] at hfind
      simp only [query_submission, hnn, Bool.false_eq_true, if_false, hfind, true_iff]
      exact hall
  · intro cmds k
    rw [run_submissions]
    simp [ICPCManager.deref, ICPCManager.init, Map.get, Map.find]
    rfl

/-- Instance of C6: the latest submission of team T1 in the sample state, with
both filters ALL, is the one to problem B at time 20. -/
theorem query_submission_latest_witness :
    query_submission sampleState "T1" "ALL" "ALL" =
      (sampleState, ["[Info]Complete query submission.", "T1 B Wrong_Answer 20"]) ∧
    (sampleState.deref "T1").submissions =
      [⟨"A", "Wrong_Answer", 10⟩, ⟨"A", "Accepted", 15⟩, ⟨"B", "Wrong_Answer", 20⟩] :=
  ⟨by decide,
    ((query_submission_latest sampleState "T1" "ALL" "ALL" (by decide)).2.2.2
      sampleCmds "T1").trans (by decide)⟩

/-! ## The cells of the scoreboard -/

theorem total_penalty_update_status (t : Team) (p st : String) (tm : Int) :
    (t.update_status p st tm).total_penalty =
      if (Map.get t.problems p).solved then t.total_penalty
      else if st = "Accepted" then
        t.total_penalty + ((Map.get t.problems p).wrong_attempts * 20 + tm)
      else t.total_penalty := by
  unfold Team.update_status
  dsimp only
  rw [Map.get_touch]
  split_ifs <;> rfl

theorem wrap32_of_inInt32 (x : Int) (h : InInt32 x) : wrap32 x = x := by
  unfold wrap32
  unfold InInt32 at h
  omega

theorem get_update_status32_self (t : Team) (p st : String) (tm : Int) :
    Map.get (t.update_status32 p st tm).problems p =
      if (Map.get t.problems p).solved then Map.get t.problems p
      else if st = "Accepted" then
        { Map.get t.problems p with solved := true, solve_time := tm }
      else
        { Map.get t.problems p with
            wrong_attempts := wrap32 ((Map.get t.problems p).wrong_attempts + 1) } := by
  unfold Team.update_status32
  dsimp only
  rw [Map.get_touch]
  split_ifs with h1 h2
  · simp [Map.get_touch]
  · simp [Map.get_set_self]
  · simp [Map.get_set_self]

theorem total_penalty_update_status32 (t : Team) (p st : String) (tm : Int) :
    (t.update_status32 p st tm).total_penalty =
      if (Map.get t.problems p).solved then t.total_penalty
      else if st = "Accepted" then
        wrap32 (t.total_penalty + wrap32 (wrap32 ((Map.get t.problems p).wrong_attempts * 20) + tm))
      else t.total_penalty := by
  unfold Team.update_status32
  dsimp only
  rw [Map.get_touch]
  split_ifs <;> rfl

/-- Where no intermediate result leaves the range of a 32-bit `int`, the 32-bit
reading of `Team::update_status` and the reading over the integers coincide. -/
theorem update_status32_eq_update_status (t : Team) (p st : String) (tm : Int)
    (h1 : InInt32 (t.solved_count + 1))
    (h2 : InInt32 ((Map.get t.problems p).wrong_attempts * 20))
    (h3 : InInt32 ((Map.get t.problems p).wrong_attempts * 20 + tm))
    (h4 : InInt32 (t.total_penalty + ((Map.get t.problems p).wrong_attempts * 20 + tm)))
    (h5 : InInt32 ((Map.get t.problems p).wrong_attempts + 1)) :
    t.update_status32 p st tm = t.update_status p st tm := by
  unfold Team.update_status32 Team.update_status
  dsimp only
  rw [Map.get_touch, wrap32_of_inInt32 _ h1, wrap32_of_inInt32 _ h2, wrap32_of_inInt32 _ h3,
    wrap32_of_inInt32 _ h4, wrap32_of_inInt32 _ h5]

/-- C7 fails as stated: with the 32-bit arithmetic of `int`, after Wrong_Answer
at time 10 and Accepted at time 2147483647 on a fresh problem of a new team,
total_penalty is -2147483629 and not 0 + 20 * 1 + 2147483647 = 2147483667. -/
theorem penalty_wraps_at_int_max :
    Map.get (Team.new "T1").problems "A" = default ∧
    (((Team.new "T1").update_status32 "A" "Wrong_Answer" 10).update_status32
      "A" "Accepted" 2147483647).total_penalty = -2147483629 ∧
    (Team.new "T1").total_penalty + (20 * 1 + 2147483647) = (2147483667 : Int) := by
  decide

/-- C7, amended. The text of a cell is determined by solved, wrong_attempts w,
frozen_submissions f and the frozen flag of the engine: + or +w when solved,
0/f or -w/f when unsolved with the engine frozen and f > 0, and . or -w
otherwise; a solved cell depends neither on the frozen flag nor on f; and after
one rejected submission and one Accepted submission at time tm on a fresh
problem, recorded with the 32-bit arithmetic of `int`, the cell is +1 and
total_penalty has grown by 20 * 1 + tm, provided 20 * 1 + tm and the new
total_penalty fit a 32-bit `int`. -/
theorem cell_forms (solved frozen : Bool) (w f st : Int) :
    (solved = true → w = 0 → cell ⟨w, solved, st, f⟩ frozen = "+") ∧
    (solved = true → w > 0 → cell ⟨w, solved, st, f⟩ frozen = "+" ++ toString w) ∧
    (solved = false → frozen = true → f > 0 → w = 0 →
      cell ⟨w, solved, st, f⟩ frozen = "0/" ++ toString f) ∧
    (solved = false → frozen = true → f > 0 → w > 0 →
      cell ⟨w, solved, st, f⟩ frozen = "-" ++ toString w ++ "/" ++ toString f) ∧
    (solved = false → ¬ (frozen = true ∧ f > 0) → w = 0 →
      cell ⟨w, solved, st, f⟩ frozen = ".") ∧
    (solved = false → ¬ (frozen = true ∧ f > 0) → w > 0 →
      cell ⟨w, solved, st, f⟩ frozen = "-" ++ toString w) ∧
    (solved = true → ∀ (frozen' : Bool) (f' : Int),
      cell ⟨w, solved, st, f'⟩ frozen' = cell ⟨w, solved, st, f⟩ frozen) ∧
    (∀ (t : Team) (problem rejected : String) (t0 tm : Int),
      Map.get t.problems problem = default → rejected ≠ "Accepted" →
      InInt32 (20 * 1 + tm) → InInt32 (t.total_penalty + (20 * 1 + tm)) →
      cell (Map.get ((t.update_status32 problem rejected t0).update_status32
        problem "Accepted" tm).problems problem) frozen = "+1" ∧
      ((t.update_status32 problem rejected t0).update_status32
        problem "Accepted" tm).total_penalty = t.total_penalty + (20 * 1 + tm)) := by
  refine ⟨?_, ?_, ?_, ?_, ?_, ?_, ?_, ?_⟩
  · intro hs hw
    simp [cell, hs, hw]
  · intro hs hw
    have : w ≠ 0 := by omega
    simp [cell, hs, this]
  · intro hs hf hf0 hw
    simp [cell, hs, hf, hf0, hw]
  · intro hs hf hf0 hw
    have : w ≠ 0 := by omega
    simp [cell, hs, hf, hf0, this]
  · intro hs hf hw
    have : ¬ (frozen = true ∧ 0 < f) := hf
    simp only [cell, hs, hw, Bool.false_eq_true, if_false, Bool.and_eq_true, decide_eq_true_eq,
      gt_iff_lt, this, if_true]
  · intro hs hf hw
    have hw0 : w ≠ 0 := by omega
    have : ¬ (frozen = true ∧ 0 < f) := hf
    simp only [cell, hs, hw0, Bool.false_eq_true, if_false, Bool.and_eq_true, decide_eq_true_eq,
      gt_iff_lt, this]
  · intro hs frozen' f'
    simp [cell, hs]
  · intro t problem rejected t0 tm hfresh hrej hr1 hr2
    have hd : ¬ (default : ProblemStatus).solved = true := by decide
    have h1 : Map.get (t.update_status32 problem rejected t0).problems problem =
        ⟨1, false, 0, 0⟩ := by
      rw [get_update_status32_self, hfresh, if_neg hd, if_neg hrej]
      rfl
    have h2 : Map.get ((t.update_status32 problem rejected t0).update_status32
        problem "Accepted" tm).problems problem = ⟨1, true, tm, 0⟩ := by
      rw [get_update_status32_self, h1]
      rfl
    have h3 : (t.update_status32 problem rejected t0).total_penalty = t.total_penalty := by
      rw [total_penalty_update_status32, hfresh, if_neg hd, if_neg hrej]
    have h4 : ((t.update_status32 problem rejected t0).update_status32
        problem "Accepted" tm).total_penalty =
        wrap32 (t.total_penalty + wrap32 (wrap32 (1 * 20) + tm)) := by
      rw [total_penalty_update_status32, h1, h3]
      rfl
    have e1 : wrap32 (1 * 20) = 20 * 1 := by decide
    constructor
    · rw [h2]
      rfl
    · rw [h4, e1, wrap32_of_inInt32 _ hr1, wrap32_of_inInt32 _ hr2]

/-- Instance of C7, amended, the example of the specification: team T1 submits
problem A with Wrong_Answer at time 10 and Accepted at time 15. -/
theorem cell_forms_witness :
    cell (Map.get (((Team.new "T1").update_status32 "A" "Wrong_Answer" 10).update_status32
      "A" "Accepted" 15).problems "A") false = "+1" ∧
    (((Team.new "T1").update_status32 "A" "Wrong_Answer" 10).update_status32
      "A" "Accepted" 15).total_penalty = 35 := by
  have h := (cell_forms false false 0 0 0).2.2.2.2.2.2.2 (Team.new "T1") "A" "Wrong_Answer" 10 15
    (by decide) (by decide) (by unfold InInt32; decide) (by unfold InInt32; decide)
  exact ⟨h.1, h.2.trans (by decide)⟩

/-! ## Submissions while the scoreboard is frozen -/

/-- C8 fails as stated: in the sample state (started, frozen, team T1 known,
problem C of T1 unsolved with frozen_submissions 0) an Accepted submission to C
leaves frozen_submissions at 0. -/
theorem frozen_accepted_not_counted :
    sampleState.competition_started = true ∧
    sampleState.frozen = true ∧
    (Map.find sampleState.teams "T1").isSome = true ∧
    (Map.get (sampleState.deref "T1").problems "C").solved = false ∧
    (Map.get (sampleState.deref "T1").problems "C").frozen_submissions = 0 ∧
    (Map.get ((submit sampleState "C" "T1" "Accepted" 40).1.deref "T1").problems
      "C").frozen_submissions = 0 := by
  decide

/-- C8, amended. In a started and frozen engine, a submission to a problem that
is unsolved on arrival increases its frozen_submissions by exactly 1 when the
status is not Accepted, and when the status is Accepted the problem becomes
solved and frozen_submissions is unchanged; when the engine is not frozen, or
the problem is solved on arrival, submit leaves frozen_submissions unchanged. -/
theorem submit_frozen_submissions (s : ICPCManager) (problem team_name status : String)
    (time : Int) (hst : s.competition_started = true) :
    (s.frozen = true → (Map.get (s.deref team_name).problems problem).solved = false →
      status ≠ "Accepted" →
      (Map.get ((submit s problem team_name status time).1.deref team_name).problems
        problem).frozen_submissions =
        (Map.get (s.deref team_name).problems problem).frozen_submissions + 1) ∧
    (s.frozen = true → (Map.get (s.deref team_name).problems problem).solved = false →
      status = "Accepted" →
      (Map.get ((submit s problem team_name status time).1.deref team_name).problems
        problem).solved = true ∧
      (Map.get ((submit s problem team_name status time).1.deref team_name).problems
        problem).frozen_submissions =
        (Map.get (s.deref team_name).problems problem).frozen_submissions) ∧
    (s.frozen = false ∨ (Map.get (s.deref team_name).problems problem).solved = true →
      (Map.get ((submit s problem team_name status time).1.deref team_name).problems
        problem).frozen_submissions =
        (Map.get (s.deref team_name).problems problem).frozen_submissions) := by
  rw [deref_submit s problem team_name status time hst]
  have hu := get_update_status_self (s.deref team_name) problem status time
  have ha := get_add_frozen_submission_self
    ((s.deref team_name).update_status problem status time) problem
  refine ⟨?_, ?_, ?_⟩
  · intro hf hs hne
    have hs' : ¬ (Map.get (s.deref team_name).problems problem).solved = true := by simp [hs]
    rw [if_neg hs', if_neg hne] at hu
    rw [if_pos hf, ha, hu]
    simp [hs]
  · intro hf hs heq
    have hs' : ¬ (Map.get (s.deref team_name).problems problem).solved = true := by simp [hs]
    rw [if_neg hs', if_pos heq] at hu
    rw [if_pos hf, ha, hu]
    simp
  · intro h
    rcases h with hf | hs
    · have hf' : ¬ s.frozen = true := by simp [hf]
      rw [if_neg hf', hu]
      split_ifs <;> rfl
    · rw [if_pos hs] at hu
      split_ifs
      · rw [ha, hu, if_pos hs]
      · rw [hu]

/-- Instance of C8, amended: a rejected submission to the unsolved problem C of
T1 in the sample state raises frozen_submissions from 0 to 1. -/
theorem submit_frozen_submissions_witness :
    (Map.get ((submit sampleState "C" "T1" "Wrong_Answer" 40).1.deref "T1").problems
      "C").frozen_submissions =
      (Map.get (sampleState.deref "T1").problems "C").frozen_submissions + 1 :=
  (submit_frozen_submissions sampleState "C" "T1" "Wrong_Answer" 40 (by decide)).1
    (by decide) (by decide) (by decide)

/-! ## Scroll -/

theorem freeze_problem_frame (t : Team) (p : String) :
    (t.freeze_problem p).name = t.name ∧ (t.freeze_problem p).submissions = t.submissions ∧
    (t.freeze_problem p).solved_count = t.solved_count ∧
    (t.freeze_problem p).total_penalty = t.total_penalty ∧
    (t.freeze_problem p).solve_times = t.solve_times := by
  unfold Team.freeze_problem
  dsimp only
  split_ifs <;> exact ⟨rfl, rfl, rfl, rfl, rfl⟩

theorem scrollFrame_rel : ViewRel ScrollFrame where
  refl := fun _ => ⟨rfl, rfl, rfl, rfl, rfl, fun _ => ⟨rfl, rfl, rfl⟩⟩
  trans := by
    rintro a b c ⟨h1, h2, h3, h4, h5, h6⟩ ⟨g1, g2, g3, g4, g5, g6⟩
    refine ⟨g1.trans h1, g2.trans h2, g3.trans h3, g4.trans h4, g5.trans h5, fun n => ?_⟩
    exact ⟨(g6 n).1.trans (h6 n).1, (g6 n).2.1.trans (h6 n).2.1, (g6 n).2.2.trans (h6 n).2.2⟩
  touch := by
    intro t p
    refine ⟨rfl, rfl, rfl, rfl, rfl, fun n => ?_⟩
    simp only [Map.get_touch, and_self]
  freeze := by
    intro t p
    obtain ⟨h1, h2, h3, h4, h5⟩ := freeze_problem_frame t p
    refine ⟨h1, h2, h3, h4, h5, fun n => ?_⟩
    by_cases hn : n = p
    · subst hn
      rw [get_freeze_problem_self]
      split_ifs <;> exact ⟨rfl, rfl, rfl⟩
    · rw [get_freeze_problem_ne t p n hn]
      exact ⟨rfl, rfl, rfl⟩

theorem cleared_freeze_self (n : String) (t : Team) : Cleared n (t.freeze_problem n) := by
  unfold Cleared
  rw [get_freeze_problem_self]
  split_ifs with h
  · intro h2
    rw [h] at h2
    cases h2
  · intro _
    rfl

theorem cleared_freeze (n p : String) (t : Team) (h : Cleared n t) :
    Cleared n (t.freeze_problem p) := by
  by_cases hn : n = p
  · subst hn
    exact cleared_freeze_self n t
  · unfold Cleared
    rw [get_freeze_problem_ne t p n hn]
    exact h

theorem cleared_foldl (n : String) (names : List String) :
    ∀ t : Team, Cleared n t ∨ n ∈ names → Cleared n (names.foldl Team.freeze_problem t) := by
  induction names with
  | nil =>
    intro t h
    rcases h with h | h
    · exact h
    · simp at h
  | cons p rest ih =>
    intro t h
    simp only [List.foldl_cons]
    apply ih
    rcases h with h | h
    · exact Or.inl (cleared_freeze n p t h)
    · rcases List.mem_cons.mp h with e | e
      · subst e
        exact Or.inl (cleared_freeze_self n t)
      · exact Or.inr e

theorem cleared_freeze_all (m : List (String × Team)) (names : List String) (k n : String)
    (hn : n ∈ names) : Cleared n (Map.get (freeze_all m names) k) := by
  unfold Map.get
  rw [get_freeze_all]
  cases Map.find m k with
  | none => intro _; rfl
  | some t => exact cleared_foldl n names t (Or.inr hn)

theorem cleared_rel (n : String) : TouchRel (fun t u => Cleared n t → Cleared n u) where
  refl := fun _ h => h
  trans := fun _ _ _ h1 h2 h => h2 (h1 h)
  touch := by
    intro t p h
    unfold Cleared at h ⊢
    simp only [Map.get_touch]
    exact h

theorem scroll_mid_fields (s : ICPCManager) :
    scroll_mid s = { s with frozen := false, teams := (scroll_mid s).teams } := by
  unfold scroll_mid
  simp only [print_scoreboard]
  rw [print_rows_fields]

/-- The state scroll ends in, when the engine is started and frozen. -/
theorem scroll_state (s : ICPCManager) (hst : s.competition_started = true)
    (hfr : s.frozen = true) :
    (scroll_scoreboard s).1 =
      (print_scoreboard (scroll_mid s) (scroll_mid s).ranked).1 := by
  simp [scroll_scoreboard, hst, hfr]

theorem scroll_fields (s : ICPCManager) (hst : s.competition_started = true)
    (hfr : s.frozen = true) :
    (scroll_scoreboard s).1 = { s with frozen := false, teams := (scroll_scoreboard s).1.teams } := by
  rw [scroll_state s hst hfr]
  simp only [print_scoreboard]
  rw [print_rows_fields, scroll_mid_fields]

/-- C9. A scroll of a started and frozen engine ends with frozen = false and
with frozen_submissions = 0 for every team and every contest problem the team
has not solved; it keeps wrong_attempts, solved and solve_time of every problem
and solved_count, total_penalty, solve_times and the submission log of every
team; so a cell of a contest problem shown as -w/f before is shown as -w after.
Example: one Wrong_Answer during the freeze on a fresh problem is shown as -1/1
in the first table of the scroll and as -1 in the second. -/
theorem scroll_clears_counters (s : ICPCManager) (hst : s.competition_started = true)
    (hfr : s.frozen = true) :
    (scroll_scoreboard s).1.frozen = false ∧
    (∀ k n, n ∈ s.problem_names →
      (Map.get ((scroll_scoreboard s).1.deref k).problems n).solved = false →
      (Map.get ((scroll_scoreboard s).1.deref k).problems n).frozen_submissions = 0) ∧
    (∀ k, ScrollFrame (s.deref k) ((scroll_scoreboard s).1.deref k)) ∧
    (∀ k n, n ∈ s.problem_names →
      (Map.get (s.deref k).problems n).solved = false →
      (Map.get (s.deref k).problems n).frozen_submissions > 0 →
      (Map.get (s.deref k).problems n).wrong_attempts > 0 →
      cell (Map.get (s.deref k).problems n) s.frozen =
        "-" ++ toString (Map.get (s.deref k).problems n).wrong_attempts ++ "/"
          ++ toString (Map.get (s.deref k).problems n).frozen_submissions ∧
      cell (Map.get ((scroll_scoreboard s).1.deref k).problems n) (scroll_scoreboard s).1.frozen =
        "-" ++ toString (Map.get (s.deref k).problems n).wrong_attempts) ∧
    (scroll_scoreboard (run ICPCManager.init
        [.addteam "T1", .start 100 2, .freeze, .submit "B" "T1" "Wrong_Answer" 20])).2 =
      ["[Info]Scroll scoreboard.", "T1 1 0 0 . -1/1", "T1 1 0 0 . -1"] := by
  have hfrozen : (scroll_scoreboard s).1.frozen = false := by
    rw [scroll_fields s hst hfr]
  have hclear : ∀ k n, n ∈ s.problem_names →
      (Map.get ((scroll_scoreboard s).1.deref k).problems n).solved = false →
      (Map.get ((scroll_scoreboard s).1.deref k).problems n).frozen_submissions = 0 := by
    intro k n hn
    rw [scroll_state s hst hfr]
    apply print_rows_rel (cleared_rel n) _ (scroll_mid s) 0 k
    have hnames : (print_scoreboard s s.ranked).1.problem_names = s.problem_names := by
      simp only [print_scoreboard]
      rw [print_rows_fields]
    simp only [scroll_mid]
    apply cleared_freeze_all
    rw [hnames]
    exact hn
  have hframe : ∀ k, ScrollFrame (s.deref k) ((scroll_scoreboard s).1.deref k) := by
    intro k
    rw [scroll_state s hst hfr]
    exact scrollFrame_rel.trans _ _ _ (scroll_mid_rel scrollFrame_rel s k)
      (print_rows_rel scrollFrame_rel.toTouchRel _ (scroll_mid s) 0 k)
  refine ⟨hfrozen, hclear, hframe, ?_, by decide⟩
  intro k n hn hs hf hw
  obtain ⟨_, _, _, _, _, hp⟩ := hframe k
  obtain ⟨hw', hs', _⟩ := hp n
  have hs2 : (Map.get ((scroll_scoreboard s).1.deref k).problems n).solved = false := by
    rw [hs', hs]
  have hf2 := hclear k n hn hs2
  have hw0 : (Map.get (s.deref k).problems n).wrong_attempts ≠ 0 := by omega
  constructor
  · simp [cell, hs, hfr, hf, hw0]
  · simp only [cell, hs2, hfrozen, hw', hw0, Bool.false_eq_true, if_false, Bool.false_and]

/-- Instance of C9 at the sample state: problem B of team T1, with one wrong
attempt hidden by the freeze, is shown as -1/1 before and as -1 after. -/
theorem scroll_clears_counters_witness :
    (scroll_scoreboard sampleState).1.frozen = false ∧
    cell (Map.get (sampleState.deref "T1").problems "B") sampleState.frozen = "-1/1" ∧
    cell (Map.get ((scroll_scoreboard sampleState).1.deref "T1").problems "B")
      (scroll_scoreboard sampleState).1.frozen = "-1" := by
  have h := scroll_clears_counters sampleState (by decide) (by decide)
  have h4 := h.2.2.2.1 "T1" "B" (by decide) (by decide) (by decide) (by decide)
  exact ⟨h.1, h4.1.trans (by decide), h4.2.trans (by decide)⟩

/-! ## Flush after scroll -/

theorem isSome_find_touch {β : Type} [Inhabited β] (m : List (String × β)) (k j : String)
    (h : (Map.find m j).isSome = true) : (Map.find (Map.touch m k) j).isSome = true := by
  by_cases hjk : j = k
  · subst hjk
    simp [Map.find_touch_self]
  · rw [Map.find_touch_ne m k j hjk]
    exact h

theorem hasProblem_freeze_self (n : String) (t : Team) : HasProblem n (t.freeze_problem n) := by
  unfold HasProblem Team.freeze_problem
  dsimp only
  split_ifs
  · simp [Map.find_set_self]
  · simp [Map.find_touch_self]

theorem hasProblem_freeze (n p : String) (t : Team) (h : HasProblem n t) :
    HasProblem n (t.freeze_problem p) := by
  unfold HasProblem Team.freeze_problem at *
  dsimp only
  split_ifs
  · exact isSome_find_set _ _ _ _ (isSome_find_touch _ _ _ h)
  · exact isSome_find_touch _ _ _ h

theorem hasProblem_foldl (n : String) (names : List String) :
    ∀ t : Team, HasProblem n t ∨ n ∈ names →
      HasProblem n (names.foldl Team.freeze_problem t) := by
  induction names with
  | nil =>
    intro t h
    rcases h with h | h
    · exact h
    · simp at h
  | cons p rest ih =>
    intro t h
    simp only [List.foldl_cons]
    apply ih
    rcases h with h | h
    · exact Or.inl (hasProblem_freeze n p t h)
    · rcases List.mem_cons.mp h with e | e
      · subst e
        exact Or.inl (hasProblem_freeze_self n t)
      · exact Or.inr e

theorem print_cells_eq_self (frozen : Bool) (names : List String) :
    ∀ t : Team, (∀ n ∈ names, HasProblem n t) → (print_cells frozen t names).1 = t := by
  induction names with
  | nil => intro t _; rfl
  | cons n rest ih =>
    intro t h
    simp only [print_cells]
    have e : Map.touch t.problems n = t.problems :=
      Map.touch_eq_self _ _ (h n (List.mem_cons_self _ _))
    rw [e]
    exact ih t (fun m hm => h m (List.mem_cons_of_mem _ hm))

/-- Printing rows changes nothing when every team printed is in the mapping
with an entry for every contest problem. -/
theorem print_rows_eq_self (l : List String) : ∀ (s : ICPCManager) (i : Nat),
    (∀ p ∈ l, ∃ t, Map.find s.teams p = some t ∧ ∀ n ∈ s.problem_names, HasProblem n t) →
    (print_rows s i l).1 = s := by
  induction l with
  | nil => intro s i _; rfl
  | cons p rest ih =>
    intro s i h
    obtain ⟨t, ht, hn⟩ := h p (List.mem_cons_self _ _)
    simp only [print_rows]
    have e1 : s.deref p = t := get_of_find _ _ _ ht
    have e2 : (print_cells s.frozen (s.deref p) s.problem_names).1 = t := by
      rw [e1]
      exact print_cells_eq_self _ _ t hn
    have e3 : Map.set s.teams p (print_cells s.frozen (s.deref p) s.problem_names).1 = s.teams := by
      rw [e2]
      exact Map.set_eq_self _ _ _ ht
    rw [e3]
    exact ih s (i + 1) (fun q hq => h q (List.mem_cons_of_mem _ hq))

theorem length_print_rows (l : List String) : ∀ (s : ICPCManager) (i : Nat),
    (print_rows s i l).2.length = l.length := by
  induction l with
  | nil => intro s i; rfl
  | cons p rest ih =>
    intro s i
    simp only [print_rows, List.length_cons, ih]

/-- After the counters are cleared every ranked team is in the mapping with an
entry for every contest problem. -/
theorem scroll_mid_complete (s : ICPCManager) :
    ∀ p ∈ (scroll_mid s).ranked, ∃ t, Map.find (scroll_mid s).teams p = some t ∧
      ∀ n ∈ (scroll_mid s).problem_names, HasProblem n t := by
  intro p hp
  have hptrs : (scroll_mid s).team_ptrs = s.team_ptrs := by rw [scroll_mid_fields]
  have hnames : (scroll_mid s).problem_names = s.problem_names := by rw [scroll_mid_fields]
  have hp1 : p ∈ s.ranked := by
    rw [ICPCManager.ranked, mem_sortBy, hptrs] at hp
    rw [ICPCManager.ranked, mem_sortBy]
    exact hp
  have hkey := print_rows_mem_keys s.ranked s 0 p hp1
  have hn1 : (print_scoreboard s s.ranked).1.problem_names = s.problem_names := by
    simp only [print_scoreboard]
    rw [print_rows_fields]
  rw [hnames]
  simp only [scroll_mid, get_freeze_all, hn1]
  simp only [print_scoreboard]
  cases hf : Map.find (print_rows s 0 s.ranked).1.teams p with
  | none => simp [hf] at hkey
  | some t =>
    refine ⟨_, rfl, ?_⟩
    intro n hn
    exact hasProblem_foldl n _ t (Or.inr hn)

/-- C10. For a started and frozen engine, the output of scroll ends with the
table of the ranked teams, one row per team, and a flush right after the scroll
prints its information line followed by the same table and leaves the state
unchanged. -/
theorem flush_after_scroll (s : ICPCManager) (hst : s.competition_started = true)
    (hfr : s.frozen = true) :
    ∃ front table : List String,
      (scroll_scoreboard s).2 = front ++ table ∧
      table.length = s.team_ptrs.length ∧
      table = (print_scoreboard (scroll_mid s) (scroll_mid s).ranked).2 ∧
      flush_scoreboard (scroll_scoreboard s).1 =
        ((scroll_scoreboard s).1, "[Info]Flush scoreboard." :: table) := by
  have hnoop : (print_scoreboard (scroll_mid s) (scroll_mid s).ranked).1 = scroll_mid s :=
    print_rows_eq_self _ _ 0 (scroll_mid_complete s)
  have hstate : (scroll_scoreboard s).1 = scroll_mid s := by
    rw [scroll_state s hst hfr, hnoop]
  have hstarted : (scroll_mid s).competition_started = true := by
    rw [scroll_mid_fields]
    exact hst
  have hptrs : (scroll_mid s).team_ptrs = s.team_ptrs := by rw [scroll_mid_fields]
  refine ⟨["[Info]Scroll scoreboard."] ++ (print_scoreboard s s.ranked).2
      ++ rank_changes (scroll_mid s) s.ranked (scroll_mid s).ranked,
    (print_scoreboard (scroll_mid s) (scroll_mid s).ranked).2, ?_, ?_, rfl, ?_⟩
  · simp [scroll_scoreboard, hst, hfr]
  · simp only [print_scoreboard, length_print_rows, ICPCManager.ranked, length_sortBy, hptrs]
  · rw [hstate]
    simp only [flush_scoreboard, hstarted, Bool.not_true, Bool.false_eq_true, if_false, hnoop]

/-- Instance of C10 at the sample state: the flush after the scroll prints the
second table of the scroll. -/
theorem flush_after_scroll_witness :
    (scroll_scoreboard sampleState).2 =
      ["[Info]Scroll scoreboard.", "T0 1 1 30 . . +", "T1 2 1 35 +1 -1/1 ."] ++
        ["T0 1 1 30 . . +", "T1 2 1 35 +1 -1 ."] ∧
    flush_scoreboard (scroll_scoreboard sampleState).1 =
      ((scroll_scoreboard sampleState).1,
        ["[Info]Flush scoreboard.", "T0 1 1 30 . . +", "T1 2 1 35 +1 -1 ."]) := by
  obtain ⟨front, table, _, _, h3, h4⟩ := flush_after_scroll sampleState (by decide) (by decide)
  have ht : table = ["T0 1 1 30 . . +", "T1 2 1 35 +1 -1 ."] := h3.trans (by decide)
  rw [ht] at h4
  exact ⟨by decide, h4⟩

/-! ## The life cycle of the contest -/

theorem length_insert {β : Type} (m : List (String × β)) (k : String) (v : β) :
    (Map.insert m k v).length = m.length + 1 := by
  induction m with
  | nil => rfl
  | cons e r ih =>
    obtain ⟨k', v'⟩ := e
    simp only [Map.insert]
    split_ifs
    · rfl
    · simp [ih]

/-- C12. The call add_team(name) fails exactly when the contest has started or
a team is stored under the name: with the started error when the contest has
started, with the duplicate error when it has not and the name exists.
Otherwise it prints the success line, the mapping gains one entry, the team
Team(name) with no problems, no submissions, zero aggregates and no solve
times, stored under the name; the entries under the other names are unchanged,
the name is appended to team_ptrs, and no other field of the engine changes. -/
theorem add_team_cases (s : ICPCManager) (name : String) :
    (s.competition_started = true →
      add_team s name = (s, ["[Error]Add failed: competition has started."])) ∧
    (s.competition_started = false → (Map.find s.teams name).isSome = true →
      add_team s name = (s, ["[Error]Add failed: duplicated team name."])) ∧
    (s.competition_started = false → Map.find s.teams name = none →
      (add_team s name).2 = ["[Info]Add successfully."] ∧
      Map.find (add_team s name).1.teams name = some ⟨name, [], [], 0, 0, []⟩ ∧
      (∀ k, k ≠ name → Map.find (add_team s name).1.teams k = Map.find s.teams k) ∧
      (add_team s name).1.teams.length = s.teams.length + 1 ∧
      (add_team s name).1.team_ptrs = s.team_ptrs ++ [name] ∧
      (add_team s name).1 =
        { s with teams := (add_team s name).1.teams, team_ptrs := s.team_ptrs ++ [name] }) ∧
    ((add_team s name).2 ≠ ["[Info]Add successfully."] ↔
      s.competition_started = true ∨ (Map.find s.teams name).isSome = true) := by
  refine ⟨?_, ?_, ?_, ?_⟩
  · intro h
    simp [add_team, h]
  · intro h1 h2
    simp [add_team, h1, h2]
  · intro h1 h2
    have h3 : (Map.find s.teams name).isSome = false := by simp [h2]
    simp only [add_team, h1, h3, Bool.false_eq_true, if_false, true_and]
    refine ⟨?_, ?_, ?_⟩
    · rw [Map.find_set_self]
      rfl
    · intro k hk
      exact Map.find_set_ne _ _ _ _ hk
    · simp only [Map.set, h2]
      exact ⟨length_insert _ _ _, trivial⟩
  · unfold add_team
    split_ifs with h1 h2
    · simp [h1]
    · simp [h2]
    · simp [h1, h2]

/-- Instance of C12: a third team is added to a state with two teams, and a
team is refused in the sample state, where the contest has started. -/
theorem add_team_cases_witness :
    (add_team (run ICPCManager.init [.addteam "T1", .addteam "T0"]) "T2").1.team_ptrs =
      ["T1", "T0", "T2"] ∧
    add_team sampleState "T2" = (sampleState, ["[Error]Add failed: competition has started."]) :=
  ⟨((add_team_cases (run ICPCManager.init [.addteam "T1", .addteam "T0"]) "T2").2.2.1
      (by decide) (by decide)).2.2.2.2.1.trans (by decide),
    (add_team_cases sampleState "T2").1 (by decide)⟩

theorem step_frozen_started (s : ICPCManager) (c : Cmd)
    (h : s.frozen = true → s.competition_started = true) :
    (step s c).1.frozen = true → (step s c).1.competition_started = true := by
  cases c with
  | addteam n =>
    simp only [step, add_team]
    split_ifs <;> exact h
  | start d p =>
    simp only [step, start_competition]
    split_ifs with h1
    · exact h
    · intro _; rfl
  | submit p t st tm =>
    simp only [step, submit]
    split_ifs <;> exact h
  | flush =>
    simp only [step, flush_scoreboard]
    split_ifs
    · exact h
    · simp only [print_scoreboard]
      rw [print_rows_fields]
      exact h
  | freeze =>
    simp only [step, freeze_scoreboard]
    split_ifs with h1 h2
    · exact h
    · exact h
    · intro _
      simpa using h1
  | scroll =>
    simp only [step, scroll_scoreboard]
    split_ifs with h1 h2
    · exact h
    · exact h
    · simp only [print_scoreboard]
      rw [print_rows_fields, scroll_mid_fields]
      intro hf
      cases hf
  | query_ranking t =>
    simp only [step, query_ranking_state]
    exact h
  | query_submission t p st =>
    simp only [step, query_submission_state]
    exact h

/-- In a reachable state the scoreboard is frozen only if the contest has
started. -/
theorem reachable_frozen_started {s : ICPCManager} (hs : Reachable s) :
    s.frozen = true → s.competition_started = true := by
  obtain ⟨cmds, rfl⟩ := hs
  have : ∀ (cmds : List Cmd) (s : ICPCManager),
      (s.frozen = true → s.competition_started = true) →
      ((run s cmds).frozen = true → (run s cmds).competition_started = true) := by
    intro cmds
    induction cmds with
    | nil => intro s h; exact h
    | cons c cs ih =>
      intro s h
      exact ih _ (step_frozen_started s c h)
  exact this cmds _ (fun h => by cases h)

/-- C13 fails as stated: before the contest has started freeze() succeeds on no
state; in the initial state, where frozen is false, it prints nothing and
leaves frozen at false. -/
theorem freeze_before_start_ignored :
    ICPCManager.init.frozen = false ∧
    freeze_scoreboard ICPCManager.init = (ICPCManager.init, []) := by
  decide

/-- C13, amended. Once the contest has started, freeze() fails with the
already-frozen error when frozen is true, and when frozen is false it prints
the success line, sets frozen to true and changes nothing else; before the
contest has started it prints nothing and changes nothing.  In every reachable
state the already-frozen error is printed exactly when frozen is true. -/
theorem freeze_cases (s : ICPCManager) :
    (s.competition_started = true → s.frozen = true →
      freeze_scoreboard s = (s, ["[Error]Freeze failed: scoreboard has been frozen."])) ∧
    (s.competition_started = true → s.frozen = false →
      freeze_scoreboard s = ({ s with frozen := true }, ["[Info]Freeze scoreboard."])) ∧
    (s.competition_started = false → freeze_scoreboard s = (s, [])) ∧
    (Reachable s →
      ((freeze_scoreboard s).2 = ["[Error]Freeze failed: scoreboard has been frozen."] ↔
        s.frozen = true)) := by
  refine ⟨?_, ?_, ?_, ?_⟩
  · intro h1 h2
    simp [freeze_scoreboard, h1, h2]
  · intro h1 h2
    simp [freeze_scoreboard, h1, h2]
  · intro h1
    simp [freeze_scoreboard, h1]
  · intro hs
    have hk := reachable_frozen_started hs
    unfold freeze_scoreboard
    split_ifs with h1 h2
    · have hf : ¬ s.frozen = true := fun hf => by simp [hk hf] at h1
      simp [hf]
    · simp [h2]
    · simp [h2]

/-- Instance of C13, amended: freeze in a started state that is not frozen, and
in the sample state, which is frozen. -/
theorem freeze_cases_witness :
    freeze_scoreboard (run ICPCManager.init [.addteam "T1", .start 100 2]) =
      ({ run ICPCManager.init [.addteam "T1", .start 100 2] with frozen := true },
        ["[Info]Freeze scoreboard."]) ∧
    freeze_scoreboard sampleState =
      (sampleState, ["[Error]Freeze failed: scoreboard has been frozen."]) :=
  ⟨(freeze_cases (run ICPCManager.init [.addteam "T1", .start 100 2])).2.1
      (by decide) (by decide),
    (freeze_cases sampleState).1 (by decide) (by decide)⟩

/-- C14 fails as stated: before the contest has started scroll() reports no
error; in the initial state, where frozen is false, it prints nothing. -/
theorem scroll_before_start_silent :
    ICPCManager.init.frozen = false ∧
    scroll_scoreboard ICPCManager.init = (ICPCManager.init, []) := by
  decide

/-- C14, amended. Once the contest has started, scroll() with frozen false
prints the not-frozen error and nothing else and leaves the state unchanged,
and with frozen true it succeeds: its output starts with the scroll line;
before the contest has started it prints nothing and leaves the state
unchanged.  In every reachable state scroll() succeeds exactly when frozen is
true. -/
theorem scroll_cases (s : ICPCManager) :
    (s.competition_started = true → s.frozen = false →
      scroll_scoreboard s =
        (s, ["[Error]Scroll failed: scoreboard has not been frozen."])) ∧
    (s.competition_started = false → scroll_scoreboard s = (s, [])) ∧
    (s.competition_started = true → s.frozen = true →
      (scroll_scoreboard s).2.head? = some "[Info]Scroll scoreboard.") ∧
    (Reachable s →
      ((scroll_scoreboard s).2.head? = some "[Info]Scroll scoreboard." ↔ s.frozen = true)) := by
  refine ⟨?_, ?_, ?_, ?_⟩
  · intro h1 h2
    simp [scroll_scoreboard, h1, h2]
  · intro h1
    simp [scroll_scoreboard, h1]
  · intro h1 h2
    simp [scroll_scoreboard, h1, h2]
  · intro hs
    have hk := reachable_frozen_started hs
    cases hf : s.frozen
    · cases hst : s.competition_started
      · simp [scroll_scoreboard, hst]
      · simp [scroll_scoreboard, hst, hf]
    · simp [scroll_scoreboard, hk hf, hf]

/-- Instance of C14, amended: scroll in a started state that is not frozen. -/
theorem scroll_cases_witness :
    scroll_scoreboard (run ICPCManager.init [.addteam "T1", .start 100 2]) =
      (run ICPCManager.init [.addteam "T1", .start 100 2],
        ["[Error]Scroll failed: scoreboard has not been frozen."]) :=
  (scroll_cases (run ICPCManager.init [.addteam "T1", .start 100 2])).1 (by decide) (by decide)

/-- C15. An operation that is rejected or ignored leaves the whole engine state
as it was: add_team after the start or with a name that exists, start after the
start, submit before the start, freeze when frozen, scroll when not frozen,
and the two queries on a name that is not in the team mapping, which print
their error line and nothing else. -/
theorem rejected_operation_keeps_state (s : ICPCManager) :
    (∀ name, s.competition_started = true ∨ (Map.find s.teams name).isSome = true →
      (add_team s name).1 = s) ∧
    (∀ d p, s.competition_started = true → (start_competition s d p).1 = s) ∧
    (∀ problem team_name status time, s.competition_started = false →
      submit s problem team_name status time = (s, [])) ∧
    (s.frozen = true → (freeze_scoreboard s).1 = s) ∧
    (s.frozen = false → (scroll_scoreboard s).1 = s) ∧
    (∀ team_name, Map.find s.teams team_name = none →
      query_ranking s team_name =
        (s, ["[Error]Query ranking failed: cannot find the team."])) ∧
    (∀ team_name problem status, Map.find s.teams team_name = none →
      query_submission s team_name problem status =
        (s, ["[Error]Query submission failed: cannot find the team."])) := by
  refine ⟨?_, ?_, ?_, ?_, ?_, ?_, ?_⟩
  · intro name h
    unfold add_team
    split_ifs with h1 h2
    · rfl
    · rfl
    · rcases h with h | h
      · exact absurd h h1
      · exact absurd h h2
  · intro d p h
    simp [start_competition, h]
  · intro problem team_name status time h
    simp [submit, h]
  · intro h
    unfold freeze_scoreboard
    split_ifs <;> rfl
  · intro h
    cases hst : s.competition_started
    · simp [scroll_scoreboard, hst]
    · simp [scroll_scoreboard, hst, h]
  · intro team_name h
    simp [query_ranking, h]
  · intro team_name problem status h
    simp [query_submission, h]

/-- Instance of C15 in the sample state (started and frozen): a refused
add_team, a refused start, a refused freeze and a query on an unknown team. -/
theorem rejected_operation_keeps_state_witness :
    (add_team sampleState "T1").1 = sampleState ∧
    (start_competition sampleState 50 5).1 = sampleState ∧
    (freeze_scoreboard sampleState).1 = sampleState ∧
    query_ranking sampleState "T9" =
      (sampleState, ["[Error]Query ranking failed: cannot find the team."]) :=
  ⟨(rejected_operation_keeps_state sampleState).1 "T1" (Or.inl (by decide)),
    (rejected_operation_keeps_state sampleState).2.1 50 5 (by decide),
    (rejected_operation_keeps_state sampleState).2.2.2.1 (by decide),
    (rejected_operation_keeps_state sampleState).2.2.2.2.2.1 "T9" (by decide)⟩

/-! ## The ranking across a scroll -/

/-- The comparator reads solved_count, total_penalty, solve_times and name
only. -/
theorem compare_teams_congr (a b a' b' : Team)
    (ha : a'.name = a.name ∧ a'.solved_count = a.solved_count ∧
      a'.total_penalty = a.total_penalty ∧ a'.solve_times = a.solve_times)
    (hb : b'.name = b.name ∧ b'.solved_count = b.solved_count ∧
      b'.total_penalty = b.total_penalty ∧ b'.solve_times = b.solve_times) :
    compare_teams a' b' = compare_teams a b := by
  obtain ⟨h1, h2, h3, h4⟩ := ha
  obtain ⟨g1, g2, g3, g4⟩ := hb
  simp only [compare_teams, h1, h2, h3, h4, g1, g2, g3, g4]

theorem ptrLt_scroll_mid (s : ICPCManager) : (scroll_mid s).ptrLt = s.ptrLt := by
  funext a b
  have ha := scroll_mid_rel scrollFrame_rel s a
  have hb := scroll_mid_rel scrollFrame_rel s b
  exact compare_teams_congr _ _ _ _ ⟨ha.1, ha.2.2.1, ha.2.2.2.1, ha.2.2.2.2.1⟩
    ⟨hb.1, hb.2.2.1, hb.2.2.2.1, hb.2.2.2.2.1⟩

theorem ranked_scroll_mid (s : ICPCManager) : (scroll_mid s).ranked = s.ranked := by
  have hptrs : (scroll_mid s).team_ptrs = s.team_ptrs := by rw [scroll_mid_fields]
  rw [ranked_eq, ranked_eq, ptrLt_scroll_mid, hptrs]

theorem rank_changes_self (s : ICPCManager) (l : List String) : rank_changes s l l = [] := by
  induction l with
  | nil => rfl
  | cons p r ih => simp [rank_changes, ih]

/-- C19. A scroll does not change the ranking: the ranking computed after the
counters are cleared is the ranking computed before, position by position,
because the comparator reads only solved_count, total_penalty, solve_times and
name, which the scroll keeps; the loop over the positions prints no rank-change
line, and the output of a scroll of a started and frozen engine is its first
line and the two tables. -/
theorem scroll_keeps_ranking (s : ICPCManager) :
    (scroll_mid s).ranked = s.ranked ∧
    (∀ a b, compare_teams ((scroll_mid s).deref a) ((scroll_mid s).deref b) =
      compare_teams (s.deref a) (s.deref b)) ∧
    rank_changes (scroll_mid s) s.ranked (scroll_mid s).ranked = [] ∧
    (s.competition_started = true → s.frozen = true →
      (scroll_scoreboard s).2 =
        ["[Info]Scroll scoreboard."] ++ (print_scoreboard s s.ranked).2 ++
          (print_scoreboard (scroll_mid s) (scroll_mid s).ranked).2) := by
  have h1 := ranked_scroll_mid s
  have h3 : rank_changes (scroll_mid s) s.ranked (scroll_mid s).ranked = [] := by
    rw [h1]
    exact rank_changes_self _ _
  refine ⟨h1, ?_, h3, ?_⟩
  · intro a b
    exact congrFun (congrFun (ptrLt_scroll_mid s) a) b
  · intro hst hfr
    simp only [scroll_scoreboard, hst, hfr, Bool.not_true, Bool.false_eq_true, if_false, h3,
      List.append_nil]

/-- Instance of C19 at the sample state, where an Accepted submission arrived
during the freeze: the ranking is T0, T1 before and after. -/
theorem scroll_keeps_ranking_witness :
    (scroll_mid sampleState).ranked = ["T0", "T1"] ∧ sampleState.ranked = ["T0", "T1"] ∧
    (scroll_scoreboard sampleState).2 =
      ["[Info]Scroll scoreboard.", "T0 1 1 30 . . +", "T1 2 1 35 +1 -1/1 .",
        "T0 1 1 30 . . +", "T1 2 1 35 +1 -1 ."] :=
  ⟨(scroll_keeps_ranking sampleState).1.trans (by decide), by decide,
    ((scroll_keeps_ranking sampleState).2.2.2 (by decide) (by decide)).trans (by decide)⟩

/-! ## The rank-change records -/

theorem rank_changes_eq_map (s : ICPCManager) : ∀ before after : List String,
    rank_changes s before after =
      (rank_change_records before after).map (rank_change_line s)
  | [], _ => by simp [rank_changes, rank_change_records]
  | _ :: _, [] => by simp [rank_changes, rank_change_records]
  | b :: bs, a :: as => by
    simp only [rank_changes, rank_change_records]
    split_ifs
    · simp only [List.map_cons, rank_change_line, rank_changes_eq_map s bs as]
    · exact rank_changes_eq_map s bs as

theorem rank_change_records_range : ∀ before after : List String,
    before.length = after.length →
    rank_change_records before after =
      (List.range before.length).filterMap (fun i =>
        if before.getD i "" ≠ after.getD i "" then some (before.getD i "", after.getD i "")
        else none)
  | [], _, _ => by simp [rank_change_records]
  | _ :: _, [], h => by simp at h
  | b :: bs, a :: as, h => by
    have ih := rank_change_records_range bs as (by simpa using h)
    simp only [rank_change_records, List.length_cons, List.range_succ_eq_map,
      List.filterMap_cons, List.getD_cons_zero, List.filterMap_map]
    have : ((fun i => if (b :: bs).getD i "" ≠ (a :: as).getD i "" then
        some ((b :: bs).getD i "", (a :: as).getD i "") else none) ∘ Nat.succ) =
        (fun i => if bs.getD i "" ≠ as.getD i "" then some (bs.getD i "", as.getD i "")
          else none) := by
      funext i
      simp
    rw [this, ← ih]
    split_ifs <;> rfl

theorem rank_change_records_fst : ∀ (before after : List String) (r : String × String),
    r ∈ rank_change_records before after → r.1 ∈ before
  | [], _, r, h => by simp [rank_change_records] at h
  | _ :: _, [], r, h => by simp [rank_change_records] at h
  | b :: bs, a :: as, r, h => by
    simp only [rank_change_records] at h
    split_ifs at h with hba
    · rcases List.mem_cons.mp h with e | e
      · rw [e]
        exact List.mem_cons_self _ _
      · exact List.mem_cons_of_mem _ (rank_change_records_fst bs as r e)
    · exact List.mem_cons_of_mem _ (rank_change_records_fst bs as r h)

theorem apply_records_cons (recs : List (String × String)) (p : String) (l : List String) :
    apply_records recs (p :: l) =
      (match recs.find? (fun r => decide (r.1 = p)) with
        | some r => r.2
        | none => p) :: apply_records recs l := rfl

theorem apply_records_cons_of_ne (r : String × String) (recs : List (String × String))
    (l : List String) (h : r.1 ∉ l) : apply_records (r :: recs) l = apply_records recs l := by
  unfold apply_records
  apply List.map_congr_left
  intro p hp
  have : r.1 ≠ p := fun e => h (e ▸ hp)
  simp [List.find?_cons, this]

theorem apply_rank_change_records : ∀ before after : List String,
    before.Nodup → before.length = after.length →
    apply_records (rank_change_records before after) before = after
  | [], [], _, _ => rfl
  | [], _ :: _, _, h => by simp at h
  | _ :: _, [], _, h => by simp at h
  | b :: bs, a :: as, hn, h => by
    rw [List.nodup_cons] at hn
    have ih := apply_rank_change_records bs as hn.2 (by simpa using h)
    have hnone : (rank_change_records bs as).find? (fun r => decide (r.1 = b)) = none := by
      rw [List.find?_eq_none]
      intro r hr
      have := rank_change_records_fst bs as r hr
      simp only [decide_eq_true_eq]
      intro e
      exact hn.1 (e ▸ this)
    simp only [rank_change_records]
    split_ifs with hba
    · have htail : apply_records ((b, a) :: rank_change_records bs as) bs = as := by
        rw [apply_records_cons_of_ne _ _ _ hn.1]
        exact ih
      rw [apply_records_cons, htail]
      simp [List.find?_cons]
    · simp only [ne_eq, not_not] at hba
      subst hba
      rw [apply_records_cons, ih, hnone]

theorem rank_change_records_self (l : List String) : rank_change_records l l = [] := by
  induction l with
  | nil => rfl
  | cons p r ih => simp [rank_change_records, ih]

theorem apply_records_nil (l : List String) : apply_records [] l = l := by
  unfold apply_records
  simp

/-- C11. The output of a scroll of a started and frozen engine is its first
line, the table before, the lines the loop over the positions prints for the
two rankings, and the table after; in a reachable state the ranking before has
no team twice and every ranked team carries the name it is ranked under.  For
any engine state and any two rankings of the same length the loop over the
positions prints one line per record, in the order of the records, each with
the names of the two teams and solved_count and total_penalty of the first; the
records are the pairs (team before, team after) at the positions where the two
rankings hold different teams, in ascending order of the position, and nothing
for the other positions; and when the ranking before has no team twice, giving
the position of the first team of every record to its second team yields the
ranking after. -/
theorem rank_change_records_spec (s : ICPCManager) (hst : s.competition_started = true)
    (hfr : s.frozen = true) :
    (scroll_scoreboard s).2 =
      ["[Info]Scroll scoreboard."] ++ (print_scoreboard s s.ranked).2 ++
        rank_changes (scroll_mid s) s.ranked (scroll_mid s).ranked ++
        (print_scoreboard (scroll_mid s) (scroll_mid s).ranked).2 ∧
    s.ranked.length = (scroll_mid s).ranked.length ∧
    (Reachable s →
      s.ranked.Nodup ∧ ∀ p ∈ s.ranked, ((scroll_mid s).deref p).name = p) ∧
    (∀ (u : ICPCManager) (before after : List String), before.length = after.length →
      rank_changes u before after =
        (rank_change_records before after).map (fun r =>
          (u.deref r.1).name ++ " " ++ (u.deref r.2).name ++ " "
            ++ toString (u.deref r.1).solved_count ++ " "
            ++ toString (u.deref r.1).total_penalty) ∧
      rank_change_records before after =
        (List.range before.length).filterMap (fun i =>
          if before.getD i "" ≠ after.getD i "" then some (before.getD i "", after.getD i "")
          else none) ∧
      (before.Nodup → apply_records (rank_change_records before after) before = after)) := by
  refine ⟨?_, ?_, ?_, ?_⟩
  · simp only [scroll_scoreboard, hst, hfr, Bool.not_true, Bool.false_eq_true, if_false]
  · rw [ranked_scroll_mid]
  · intro hs
    have hptr := reachable_ptrInv hs
    have hperm : s.ranked.Perm s.team_ptrs := sortBy_perm _ _
    refine ⟨hperm.nodup_iff.mpr hptr.1, ?_⟩
    intro p hp
    obtain ⟨t, ht, hn⟩ := hptr.2 p (hperm.mem_iff.mp hp)
    have hname := (scroll_mid_rel scrollFrame_rel s p).1
    simp only [ICPCManager.deref] at hname ⊢
    rw [hname, get_of_find _ _ _ ht, hn]
  · intro u before after hlen
    exact ⟨rank_changes_eq_map u before after, rank_change_records_range before after hlen,
      fun hn => apply_rank_change_records before after hn hlen⟩

/-- Instance of C11: the scroll of the sample state, and the loop run in the
sample state on the rankings T1, T0 and T0, T1, which prints a line for each of
the two positions. -/
theorem rank_change_records_spec_witness :
    (scroll_scoreboard sampleState).2 =
      ["[Info]Scroll scoreboard.", "T0 1 1 30 . . +", "T1 2 1 35 +1 -1/1 .",
        "T0 1 1 30 . . +", "T1 2 1 35 +1 -1 ."] ∧
    rank_changes sampleState ["T1", "T0"] ["T0", "T1"] = ["T1 T0 1 35", "T0 T1 1 30"] ∧
    rank_change_records ["T1", "T0"] ["T0", "T1"] = [("T1", "T0"), ("T0", "T1")] ∧
    apply_records (rank_change_records ["T1", "T0"] ["T0", "T1"]) ["T1", "T0"] =
      ["T0", "T1"] := by
  have h := rank_change_records_spec sampleState (by decide) (by decide)
  have g := h.2.2.2 sampleState ["T1", "T0"] ["T0", "T1"] rfl
  exact ⟨h.1.trans (by decide), g.1.trans (by decide), g.2.1.trans (by decide),
    g.2.2 (by decide)⟩

/-! ## The solve times of a team -/

theorem solvedTimes_cons (e : String × ProblemStatus) (r : List (String × ProblemStatus)) :
    solvedTimes (e :: r) =
      if e.2.solved then e.2.solve_time :: solvedTimes r else solvedTimes r := by
  unfold solvedTimes
  cases h : e.2.solved <;> simp [List.filter_cons, h]

theorem solvedTimes_insert (m : List (String × ProblemStatus)) (k : String)
    (v : ProblemStatus) (hv : v.solved = false) :
    solvedTimes (Map.insert m k v) = solvedTimes m := by
  induction m with
  | nil => simp [Map.insert, solvedTimes_cons, hv]
  | cons e r ih =>
    obtain ⟨k', v'⟩ := e
    simp only [Map.insert]
    split_ifs
    · rw [solvedTimes_cons]
      simp [hv]
    · rw [solvedTimes_cons, solvedTimes_cons, ih]

theorem solvedTimes_replace_unsolved (m : List (String × ProblemStatus)) (k : String)
    (v w : ProblemStatus) (h : Map.find m k = some w) (hw : w.solved = false)
    (hv : v.solved = false) : solvedTimes (Map.replace m k v) = solvedTimes m := by
  induction m with
  | nil => rfl
  | cons e r ih =>
    obtain ⟨k', v'⟩ := e
    simp only [Map.find] at h
    simp only [Map.replace]
    split_ifs at h with h1
    · simp only [Option.some.injEq] at h
      subst h
      simp [h1, solvedTimes_cons, hw, hv]
    · simp only [h1, if_false]
      rw [solvedTimes_cons, solvedTimes_cons, ih h]

theorem solvedTimes_replace_solved (m : List (String × ProblemStatus)) (k : String)
    (v w : ProblemStatus) (h : Map.find m k = some w) (hw : w.solved = false)
    (hv : v.solved = true) :
    (solvedTimes (Map.replace m k v)).Perm (v.solve_time :: solvedTimes m) := by
  induction m with
  | nil => simp [Map.find] at h
  | cons e r ih =>
    obtain ⟨k', v'⟩ := e
    simp only [Map.find] at h
    simp only [Map.replace]
    split_ifs at h with h1
    · simp only [Option.some.injEq] at h
      subst h
      simp [h1, solvedTimes_cons, hw, hv]
    · simp only [h1, if_false]
      rw [solvedTimes_cons, solvedTimes_cons]
      cases v'.solved
      · simpa using ih h
      · simp only [if_true]
        exact (List.Perm.cons _ (ih h)).trans (List.Perm.swap _ _ _)

theorem solvedTimes_touch (m : List (String × ProblemStatus)) (k : String) :
    solvedTimes (Map.touch m k) = solvedTimes m := by
  unfold Map.touch
  cases h : Map.find m k with
  | some w => rfl
  | none =>
    simp only [Map.set, h]
    exact solvedTimes_insert m k default rfl

theorem solvedTimes_set_unsolved (m : List (String × ProblemStatus)) (k : String)
    (v w : ProblemStatus) (h : Map.find m k = some w) (hw : w.solved = false)
    (hv : v.solved = false) : solvedTimes (Map.set m k v) = solvedTimes m := by
  simp only [Map.set, h]
  exact solvedTimes_replace_unsolved m k v w h hw hv

theorem solvedTimes_set_solved (m : List (String × ProblemStatus)) (k : String)
    (v w : ProblemStatus) (h : Map.find m k = some w) (hw : w.solved = false)
    (hv : v.solved = true) :
    (solvedTimes (Map.set m k v)).Perm (v.solve_time :: solvedTimes m) := by
  simp only [Map.set, h]
  exact solvedTimes_replace_solved m k v w h hw hv

theorem sortDesc_sorted (l : List Int) : (sortDesc l).Pairwise (fun a b => b ≤ a) := by
  haveI : IsTotal Int (fun a b => b ≤ a) := ⟨fun a b => le_total b a⟩
  haveI : IsTrans Int (fun a b => b ≤ a) := ⟨fun a b c h1 h2 => le_trans h2 h1⟩
  exact List.sorted_insertionSort (fun a b : Int => b ≤ a) l

theorem sortDesc_perm (l : List Int) : (sortDesc l).Perm l :=
  List.perm_insertionSort (fun a b : Int => b ≤ a) l

theorem solveTimesOk_touch (t : Team) (p : String) (h : SolveTimesOk t) :
    SolveTimesOk { t with problems := Map.touch t.problems p } := by
  unfold SolveTimesOk at h ⊢
  simpa [solvedTimes_touch] using h

theorem solveTimesOk_update_status (t : Team) (p st : String) (tm : Int)
    (h : SolveTimesOk t) : SolveTimesOk (t.update_status p st tm) := by
  obtain ⟨h1, h2⟩ := h
  have hf := Map.find_touch_self t.problems p
  unfold Team.update_status
  dsimp only
  rw [Map.get_touch]
  split_ifs with hs ha
  · exact ⟨h1, by simpa [solvedTimes_touch] using h2⟩
  · simp only [Bool.not_eq_true] at hs
    refine ⟨sortDesc_sorted _, ?_⟩
    have hp := solvedTimes_set_solved (Map.touch t.problems p) p
      { Map.get t.problems p with solved := true, solve_time := tm } _ hf hs rfl
    rw [solvedTimes_touch] at hp
    refine (sortDesc_perm _).trans ?_
    refine List.Perm.trans ?_ hp.symm
    exact List.perm_append_comm.trans (List.Perm.cons _ h2)
  · simp only [Bool.not_eq_true] at hs
    refine ⟨h1, ?_⟩
    have hp := solvedTimes_set_unsolved (Map.touch t.problems p) p
      { Map.get t.problems p with
          wrong_attempts := (Map.get t.problems p).wrong_attempts + 1 } _ hf hs hs
    rw [solvedTimes_touch] at hp
    simpa [hp] using h2

theorem solveTimesOk_freeze_problem (t : Team) (p : String) (h : SolveTimesOk t) :
    SolveTimesOk (t.freeze_problem p) := by
  obtain ⟨h1, h2⟩ := h
  have hf := Map.find_touch_self t.problems p
  unfold Team.freeze_problem
  dsimp only
  rw [Map.get_touch]
  split_ifs with hs
  · simp only [Bool.not_eq_true', Bool.not_eq_true] at hs
    refine ⟨h1, ?_⟩
    have hp := solvedTimes_set_unsolved (Map.touch t.problems p) p
      { Map.get t.problems p with frozen_submissions := 0 } _ hf hs hs
    rw [solvedTimes_touch] at hp
    simpa [hp] using h2
  · exact ⟨h1, by simpa [solvedTimes_touch] using h2⟩

theorem solveTimesOk_add_frozen_submission (t : Team) (p : String) (h : SolveTimesOk t) :
    SolveTimesOk (t.add_frozen_submission p) := by
  obtain ⟨h1, h2⟩ := h
  have hf := Map.find_touch_self t.problems p
  unfold Team.add_frozen_submission
  dsimp only
  rw [Map.get_touch]
  split_ifs with hs
  · simp only [Bool.not_eq_true', Bool.not_eq_true] at hs
    refine ⟨h1, ?_⟩
    have hp := solvedTimes_set_unsolved (Map.touch t.problems p) p
      { Map.get t.problems p with
          frozen_submissions := (Map.get t.problems p).frozen_submissions + 1 } _ hf hs hs
    rw [solvedTimes_touch] at hp
    simpa [hp] using h2
  · exact ⟨h1, by simpa [solvedTimes_touch] using h2⟩

theorem solveTimesOk_stable : TeamStable SolveTimesOk where
  dflt := ⟨List.Pairwise.nil, List.Perm.refl _⟩
  new := fun _ => ⟨List.Pairwise.nil, List.Perm.refl _⟩
  touch := solveTimesOk_touch
  submit := solveTimesOk_update_status
  submit_frozen := fun t p st tm h =>
    solveTimesOk_add_frozen_submission _ p (solveTimesOk_update_status t p st tm h)
  freeze := solveTimesOk_freeze_problem

/-- C16. In every reachable state the sequence solve_times of every team is in
non-increasing order, has as many entries as solved_count, and is a
permutation of the solve_time values of the solved problems of the team. -/
theorem solve_times_sorted_desc (s : ICPCManager) (hs : Reachable s) (k : String) (t : Team)
    (ht : Map.find s.teams k = some t) :
    t.solve_times.Pairwise (fun a b => a ≥ b) ∧
    (t.solve_times.length : Int) = t.solved_count ∧
    t.solve_times.Perm (t.solvedProblems.map (fun p => p.solve_time)) := by
  obtain ⟨h1, h2⟩ := reachable_stable solveTimesOk_stable hs k t ht
  exact ⟨h1, (reachable_stable teamAgg_stable hs k t ht).2.2, h2⟩

/-- Instance of C16: a team that solves three problems at the times 30, 10 and
20 has the solve times 30, 20, 10. -/
theorem solve_times_sorted_desc_witness :
    ((run ICPCManager.init [.addteam "T1", .start 100 3, .submit "A" "T1" "Accepted" 30,
      .submit "B" "T1" "Accepted" 10, .submit "C" "T1" "Accepted" 20]).deref "T1").solve_times =
      [30, 20, 10] ∧
    ((run ICPCManager.init [.addteam "T1", .start 100 3, .submit "A" "T1" "Accepted" 30,
      .submit "B" "T1" "Accepted" 10, .submit "C" "T1" "Accepted" 20]).deref "T1").solve_times.Pairwise
      (fun a b => a ≥ b) :=
  ⟨by decide,
    (solve_times_sorted_desc _ ⟨[.addteam "T1", .start 100 3, .submit "A" "T1" "Accepted" 30,
      .submit "B" "T1" "Accepted" 10, .submit "C" "T1" "Accepted" 20], rfl⟩ "T1" _
      (by decide)).1⟩

/-! ## Hidden submissions and wrong attempts -/

theorem frozenLeWrong_update_status (t : Team) (p st : String) (tm : Int)
    (h : FrozenLeWrong t) : FrozenLeWrong (t.update_status p st tm) := by
  intro n
  by_cases hn : n = p
  · subst hn
    rw [get_update_status_self]
    have := h n
    split_ifs
    · exact this
    · exact this
    · dsimp only
      omega
  · rw [get_update_status_ne t p n st tm hn]
    exact h n

theorem frozenLeWrong_submit_frozen (t : Team) (p st : String) (tm : Int)
    (h : FrozenLeWrong t) :
    FrozenLeWrong ((t.update_status p st tm).add_frozen_submission p) := by
  intro n
  by_cases hn : n = p
  · subst hn
    rw [get_add_frozen_submission_self, get_update_status_self]
    have := h n
    by_cases h1 : (Map.get t.problems n).solved = true
    · simp only [h1, if_true]
      exact this
    · by_cases h2 : st = "Accepted"
      · simp only [h1, h2, if_false, if_true]
        exact this
      · simp only [h1, h2, if_false, Bool.false_eq_true]
        omega
  · rw [get_add_frozen_submission_ne _ p n hn, get_update_status_ne t p n st tm hn]
    exact h n

theorem frozenLeWrong_freeze_problem (t : Team) (p : String) (h : FrozenLeWrong t) :
    FrozenLeWrong (t.freeze_problem p) := by
  intro n
  by_cases hn : n = p
  · subst hn
    rw [get_freeze_problem_self]
    have := h n
    split_ifs
    · exact this
    · dsimp only
      omega
  · rw [get_freeze_problem_ne t p n hn]
    exact h n

theorem frozenLeWrong_stable : TeamStable FrozenLeWrong where
  dflt := fun _ => ⟨le_refl _, le_refl _⟩
  new := fun _ _ => ⟨le_refl _, le_refl _⟩
  touch := by
    intro t p h n
    simp only [Map.get_touch]
    exact h n
  submit := frozenLeWrong_update_status
  submit_frozen := frozenLeWrong_submit_frozen
  freeze := frozenLeWrong_freeze_problem

/-- C20. In every reachable state, for every team and every problem,
frozen_submissions is at most wrong_attempts; so an unsolved problem with
frozen_submissions > 0 has wrong_attempts > 0, and the condition of the branch
of print_scoreboard that prints 0/f (unsolved, engine frozen,
frozen_submissions > 0 and wrong_attempts = 0) never holds. -/
theorem frozen_submissions_le_wrong_attempts (s : ICPCManager) (hs : Reachable s)
    (k n : String) :
    (Map.get (s.deref k).problems n).frozen_submissions ≤
      (Map.get (s.deref k).problems n).wrong_attempts ∧
    ((Map.get (s.deref k).problems n).solved = false →
      (Map.get (s.deref k).problems n).frozen_submissions > 0 →
      (Map.get (s.deref k).problems n).wrong_attempts > 0) ∧
    ¬ ((Map.get (s.deref k).problems n).solved = false ∧ s.frozen = true ∧
      (Map.get (s.deref k).problems n).frozen_submissions > 0 ∧
      (Map.get (s.deref k).problems n).wrong_attempts = 0) := by
  have h := (reachable_stable frozenLeWrong_stable hs).get frozenLeWrong_stable.dflt k n
  simp only [ICPCManager.deref]
  refine ⟨h.2, fun _ hf => by omega, ?_⟩
  rintro ⟨_, _, hf, hw⟩
  omega

/-- Instance of C20: problem B of team T1 in the sample state has one hidden
submission and one wrong attempt. -/
theorem frozen_submissions_le_wrong_attempts_witness :
    (Map.get (sampleState.deref "T1").problems "B").frozen_submissions = 1 ∧
    (Map.get (sampleState.deref "T1").problems "B").frozen_submissions ≤
      (Map.get (sampleState.deref "T1").problems "B").wrong_attempts :=
  ⟨by decide, (frozen_submissions_le_wrong_attempts sampleState ⟨sampleCmds, rfl⟩ "T1" "B").1⟩

/-! ## The freeze window -/

theorem counterFrom_update (t : Team) (p st : String) (tm : Int) :
    CounterFrom t (t.update_status p st tm) := by
  intro n
  by_cases hn : n = p
  · subst hn
    rw [get_update_status_self]
    split_ifs with h1 h2
    · exact fun a b => ⟨a, b⟩
    · intro a
      cases a
    · intro a b
      exact ⟨a, b⟩
  · rw [get_update_status_ne t p n st tm hn]
    exact fun a b => ⟨a, b⟩

theorem counterFrom_rel : ViewRel CounterFrom where
  refl := fun _ _ a b => ⟨a, b⟩
  trans := fun _ _ _ h1 h2 n a b => h1 n (h2 n a b).1 (h2 n a b).2
  touch := by
    intro t p n
    simp only [Map.get_touch]
    exact fun a b => ⟨a, b⟩
  freeze := by
    intro t p n
    by_cases hn : n = p
    · subst hn
      rw [get_freeze_problem_self]
      split_ifs with h1
      · exact fun a b => ⟨a, b⟩
      · intro _ b
        exact absurd rfl b
    · rw [get_freeze_problem_ne t p n hn]
      exact fun a b => ⟨a, b⟩

/-- The state a successful scroll ends in is the state after the counters are
cleared. -/
theorem scroll_state_eq (s : ICPCManager) (hst : s.competition_started = true)
    (hfr : s.frozen = true) : (scroll_scoreboard s).1 = scroll_mid s := by
  rw [scroll_state s hst hfr]
  exact print_rows_eq_self _ _ 0 (scroll_mid_complete s)

theorem scroll_mid_cleared (s : ICPCManager) (k n : String) (hn : n ∈ s.problem_names) :
    Cleared n ((scroll_mid s).deref k) := by
  have hnames : (print_scoreboard s s.ranked).1.problem_names = s.problem_names := by
    simp only [print_scoreboard]
    rw [print_rows_fields]
  simp only [scroll_mid, ICPCManager.deref]
  apply cleared_freeze_all
  rw [hnames]
  exact hn

theorem deref_submit_ne (s : ICPCManager) (problem team_name st k : String) (tm : Int)
    (h : k ≠ team_name) : (submit s problem team_name st tm).1.deref k = s.deref k := by
  simp only [submit]
  split_ifs
  · rfl
  · simp [ICPCManager.deref, Map.get_set_ne _ _ _ _ h]
  · simp [ICPCManager.deref, Map.get_set_ne _ _ _ _ h]

theorem submit_fields (s : ICPCManager) (problem team_name st : String) (tm : Int) :
    (submit s problem team_name st tm).1 =
      { s with teams := (submit s problem team_name st tm).1.teams } := by
  simp only [submit]
  split_ifs <;> rfl

theorem flush_fields (s : ICPCManager) :
    (flush_scoreboard s).1 = { s with teams := (flush_scoreboard s).1.teams } := by
  unfold flush_scoreboard
  split_ifs
  · rfl
  · simp only [print_scoreboard]
    rw [print_rows_fields]

theorem flush_rel {R : Team → Team → Prop} (hR : TouchRel R) (s : ICPCManager) (k : String) :
    R (s.deref k) ((flush_scoreboard s).1.deref k) := by
  unfold flush_scoreboard
  split_ifs
  · exact hR.refl _
  · exact print_rows_rel hR _ s 0 k

/-- The invariant is kept when the flags and the problem ids are, and every
unsolved problem with a counter other than 0 either was one before or is a
contest problem of a frozen engine. -/
theorem windowInv_of (s u : ICPCManager) (h : WindowInv s) (hfr : u.frozen = s.frozen)
    (hst : u.competition_started = s.competition_started)
    (hn : u.problem_names = s.problem_names)
    (hrel : ∀ k n, (Map.get (u.deref k).problems n).solved = false →
      (Map.get (u.deref k).problems n).frozen_submissions ≠ 0 →
      ((Map.get (s.deref k).problems n).solved = false ∧
        (Map.get (s.deref k).problems n).frozen_submissions ≠ 0) ∨
      (s.frozen = true ∧ n ∈ s.problem_names)) : WindowInv u := by
  refine ⟨by rw [hfr, hst]; exact h.1, ?_⟩
  intro k n a b
  rw [hfr, hn]
  rcases hrel k n a b with ⟨a', b'⟩ | h'
  · exact h.2 k n a' b'
  · exact h'

theorem step_windowInv (s : ICPCManager) (c : Cmd) (h : WindowInv s)
    (hwf : ∀ p t st tm, c = Cmd.submit p t st tm → s.competition_started = true →
      t ∈ s.team_ptrs ∧ p ∈ s.problem_names) : WindowInv (step s c).1 := by
  cases c with
  | addteam name =>
    simp only [step, add_team]
    split_ifs with h1 h2
    · exact h
    · exact h
    · refine windowInv_of s _ h rfl rfl rfl ?_
      intro k n a b
      left
      by_cases hk : k = name
      · subst hk
        simp only [ICPCManager.deref, Map.get_set_self] at a b
        exact absurd rfl b
      · simp only [ICPCManager.deref, Map.get_set_ne _ _ _ _ hk] at a b
        exact ⟨a, b⟩
  | start d p =>
    simp only [step, start_competition]
    split_ifs with h1
    · exact h
    · refine ⟨fun _ => rfl, ?_⟩
      intro k n a b
      have := h.2 k n a b
      exact absurd (h.1 this.1) h1
  | submit p t st tm =>
    simp only [step]
    have hfields := submit_fields s p t st tm
    refine windowInv_of s _ h (by rw [hfields]) (by rw [hfields]) (by rw [hfields]) ?_
    intro k n a b
    by_cases hst : s.competition_started = true
    · by_cases hk : k = t
      · subst hk
        rw [deref_submit s p k st tm hst] at a b
        by_cases hfz : s.frozen = true
        · by_cases hn : n = p
          · subst hn
            exact Or.inr ⟨hfz, (hwf n k st tm rfl hst).2⟩
          · left
            simp only [hfz, if_true] at a b
            rw [get_add_frozen_submission_ne _ p n hn] at a b
            exact counterFrom_update _ p st tm n a b
        · left
          simp only [hfz, if_false] at a b
          exact counterFrom_update _ p st tm n a b
      · left
        rw [deref_submit_ne s p t st k tm hk] at a b
        exact ⟨a, b⟩
    · left
      simp only [Bool.not_eq_true] at hst
      simp only [submit, hst, Bool.not_false, if_true] at a b
      exact ⟨a, b⟩
  | flush =>
    simp only [step]
    have hfields := flush_fields s
    refine windowInv_of s _ h (by rw [hfields]) (by rw [hfields]) (by rw [hfields]) ?_
    intro k n a b
    exact Or.inl (flush_rel counterFrom_rel.toTouchRel s k n a b)
  | freeze =>
    simp only [step, freeze_scoreboard]
    split_ifs with h1 h2
    · exact h
    · exact h
    · refine ⟨fun _ => by simpa using h1, ?_⟩
      intro k n a b
      exact absurd (h.2 k n a b).1 h2
  | scroll =>
    simp only [step]
    by_cases hst : s.competition_started = true
    · by_cases hfz : s.frozen = true
      · rw [scroll_state_eq s hst hfz]
        have hfr : (scroll_mid s).frozen = false := by rw [scroll_mid_fields]
        have hnames : (scroll_mid s).problem_names = s.problem_names := by
          rw [scroll_mid_fields]
        refine ⟨fun hf => (by rw [hfr] at hf; cases hf), ?_⟩
        intro k n a b
        exfalso
        have hb := scroll_mid_rel counterFrom_rel s k n a b
        have hmem := (h.2 k n hb.1 hb.2).2
        exact b (scroll_mid_cleared s k n hmem a)
      · simp only [Bool.not_eq_true] at hfz
        simp only [scroll_scoreboard, hst, hfz, Bool.not_true, Bool.not_false,
          Bool.false_eq_true, if_false, if_true]
        exact h
    · simp only [Bool.not_eq_true] at hst
      simp only [scroll_scoreboard, hst, Bool.not_false, if_true]
      exact h
  | query_ranking t =>
    simp only [step, query_ranking_state]
    exact h
  | query_submission t p st =>
    simp only [step, query_submission_state]
    exact h

theorem wfCmd_submit (s : ICPCManager) (c : Cmd) (h : wfCmd s c = true) :
    ∀ p t st tm, c = Cmd.submit p t st tm → s.competition_started = true →
      t ∈ s.team_ptrs ∧ p ∈ s.problem_names := by
  intro p t st tm hc hst
  subst hc
  simpa [wfCmd, hst] using h

theorem run_windowInv (cmds : List Cmd) : ∀ s : ICPCManager, WindowInv s →
    wellFormed s cmds = true → WindowInv (run s cmds) := by
  induction cmds with
  | nil => intro s h _; exact h
  | cons c cs ih =>
    intro s h hwf
    simp only [wellFormed, Bool.and_eq_true] at hwf
    exact ih _ (step_windowInv s c h (wfCmd_submit s c hwf.1)) hwf.2

theorem windowInv_init : WindowInv ICPCManager.init :=
  ⟨fun h => (by cases h), fun _ _ _ b => absurd rfl b⟩

theorem sameProblems_rel :
    TouchRel (fun t u => ∀ n, Map.get u.problems n = Map.get t.problems n) where
  refl := fun _ _ => rfl
  trans := fun _ _ _ h1 h2 n => (h2 n).trans (h1 n)
  touch := by
    intro t p n
    simp only [Map.get_touch]

theorem submitsTo_cons (k n : String) (c : Cmd) (cs : List Cmd) :
    submitsTo k n (c :: cs) = submitsTo k n [c] + submitsTo k n cs := by
  simp only [submitsTo, List.countP_cons, List.countP_nil]
  omega

/-- One command other than scroll in a started and frozen engine: the engine
stays started and frozen, and a problem that is unsolved afterwards was
unsolved and its counter has grown by 1 if the command is a submission to it
and is unchanged otherwise. -/
theorem step_count (s : ICPCManager) (c : Cmd) (hst : s.competition_started = true)
    (hfz : s.frozen = true) (hc : c ≠ Cmd.scroll) :
    (step s c).1.competition_started = true ∧ (step s c).1.frozen = true ∧
    ∀ k n, (Map.get ((step s c).1.deref k).problems n).solved = false →
      (Map.get (s.deref k).problems n).solved = false ∧
      (Map.get ((step s c).1.deref k).problems n).frozen_submissions =
        (Map.get (s.deref k).problems n).frozen_submissions + (submitsTo k n [c] : Int) := by
  cases c with
  | addteam name =>
    have e : (step s (Cmd.addteam name)).1 = s := by simp [step, add_team, hst]
    rw [e]
    exact ⟨hst, hfz, fun k n a => ⟨a, by simp [submitsTo]⟩⟩
  | start d p =>
    have e : (step s (Cmd.start d p)).1 = s := by simp [step, start_competition, hst]
    rw [e]
    exact ⟨hst, hfz, fun k n a => ⟨a, by simp [submitsTo]⟩⟩
  | submit p t st tm =>
    simp only [step]
    have hfields := submit_fields s p t st tm
    refine ⟨by rw [hfields]; exact hst, by rw [hfields]; exact hfz, ?_⟩
    intro k n a
    by_cases hk : k = t
    · subst hk
      rw [deref_submit s p k st tm hst] at a ⊢
      simp only [hfz, if_true] at a ⊢
      by_cases hn : n = p
      · subst hn
        rw [get_add_frozen_submission_self, get_update_status_self] at a ⊢
        by_cases h1 : (Map.get (s.deref k).problems n).solved = true
        · simp only [h1, if_true] at a
          cases a
        · by_cases h2 : st = "Accepted"
          · simp only [h1, h2, if_false, if_true] at a
            cases a
          · simp only [Bool.not_eq_true] at h1
            simp only [h1, h2, if_false, Bool.false_eq_true]
            exact ⟨trivial, by simp [submitsTo]⟩
      · rw [get_add_frozen_submission_ne _ p n hn, get_update_status_ne _ p n st tm hn] at a ⊢
        have hne : ¬ p = n := fun e => hn e.symm
        exact ⟨a, by simp [submitsTo, hne]⟩
    · rw [deref_submit_ne s p t st k tm hk] at a ⊢
      have hne : ¬ (p = n ∧ t = k) := fun e => hk e.2.symm
      exact ⟨a, by simp [submitsTo, hne]⟩
  | flush =>
    simp only [step]
    have hfields := flush_fields s
    refine ⟨by rw [hfields]; exact hst, by rw [hfields]; exact hfz, ?_⟩
    intro k n a
    have e := flush_rel sameProblems_rel s k n
    rw [e] at a ⊢
    exact ⟨a, by simp [submitsTo]⟩
  | freeze =>
    have e : (step s Cmd.freeze).1 = s := by simp [step, freeze_scoreboard, hst, hfz]
    rw [e]
    exact ⟨hst, hfz, fun k n a => ⟨a, by simp [submitsTo]⟩⟩
  | scroll => exact absurd rfl hc
  | query_ranking t =>
    simp only [step, query_ranking_state]
    exact ⟨hst, hfz, fun k n a => ⟨a, by simp [submitsTo]⟩⟩
  | query_submission t p st =>
    simp only [step, query_submission_state]
    exact ⟨hst, hfz, fun k n a => ⟨a, by simp [submitsTo]⟩⟩

theorem run_count (cmds : List Cmd) : ∀ s : ICPCManager, s.competition_started = true →
    s.frozen = true → (∀ c ∈ cmds, c ≠ Cmd.scroll) →
    ∀ k n, (Map.get ((run s cmds).deref k).problems n).solved = false →
      (Map.get (s.deref k).problems n).solved = false ∧
      (Map.get ((run s cmds).deref k).problems n).frozen_submissions =
        (Map.get (s.deref k).problems n).frozen_submissions + (submitsTo k n cmds : Int) := by
  induction cmds with
  | nil =>
    intro s _ _ _ k n a
    exact ⟨a, by simp [run, submitsTo]⟩
  | cons c cs ih =>
    intro s hst hfz hc k n a
    obtain ⟨h1, h2, h3⟩ := step_count s c hst hfz (hc c (List.mem_cons_self _ _))
    simp only [run] at a ⊢
    obtain ⟨a1, e1⟩ := ih _ h1 h2 (fun d hd => hc d (List.mem_cons_of_mem _ hd)) k n a
    obtain ⟨a2, e2⟩ := h3 k n a1
    refine ⟨a2, ?_⟩
    have e3 := submitsTo_cons k n c cs
    rw [e1, e2, e3]
    push_cast
    ring

/-- C17. In every state a well-formed command stream leads to, when frozen is
false every unsolved problem of every team has frozen_submissions = 0; so when
the contest has started a freeze of such a state succeeds with every unsolved
counter at 0, and after any commands that follow the freeze without a scroll
the counter of an unsolved problem is the number of the submissions made to it
for the team since the freeze. -/
theorem freeze_window_invariant (cmds : List Cmd)
    (hwf : wellFormed ICPCManager.init cmds = true) :
    ((run ICPCManager.init cmds).frozen = false →
      ∀ k n, (Map.get ((run ICPCManager.init cmds).deref k).problems n).solved = false →
        (Map.get ((run ICPCManager.init cmds).deref k).problems n).frozen_submissions = 0) ∧
    ((run ICPCManager.init cmds).competition_started = true →
      (run ICPCManager.init cmds).frozen = false →
      (freeze_scoreboard (run ICPCManager.init cmds)).2 = ["[Info]Freeze scoreboard."] ∧
      (freeze_scoreboard (run ICPCManager.init cmds)).1.frozen = true ∧
      (∀ k n,
        (Map.get ((freeze_scoreboard (run ICPCManager.init cmds)).1.deref k).problems
          n).solved = false →
        (Map.get ((freeze_scoreboard (run ICPCManager.init cmds)).1.deref k).problems
          n).frozen_submissions = 0) ∧
      ∀ later : List Cmd, (∀ c ∈ later, c ≠ Cmd.scroll) →
        ∀ k n,
          (Map.get ((run (freeze_scoreboard (run ICPCManager.init cmds)).1 later).deref
            k).problems n).solved = false →
          (Map.get ((run (freeze_scoreboard (run ICPCManager.init cmds)).1 later).deref
            k).problems n).frozen_submissions = (submitsTo k n later : Int)) := by
  have hinv := run_windowInv cmds ICPCManager.init windowInv_init hwf
  have hzero : (run ICPCManager.init cmds).frozen = false →
      ∀ k n, (Map.get ((run ICPCManager.init cmds).deref k).problems n).solved = false →
        (Map.get ((run ICPCManager.init cmds).deref k).problems n).frozen_submissions = 0 := by
    intro hfz k n a
    by_contra b
    have := (hinv.2 k n a b).1
    rw [hfz] at this
    cases this
  refine ⟨hzero, ?_⟩
  intro hst hfz
  have e : freeze_scoreboard (run ICPCManager.init cmds) =
      ({ run ICPCManager.init cmds with frozen := true }, ["[Info]Freeze scoreboard."]) := by
    simp [freeze_scoreboard, hst, hfz]
  rw [e]
  refine ⟨rfl, rfl, fun k n a => hzero hfz k n a, ?_⟩
  intro later hl k n a
  obtain ⟨a0, e0⟩ := run_count later { run ICPCManager.init cmds with frozen := true } hst rfl
    hl k n a
  rw [e0]
  have : (Map.get (({ run ICPCManager.init cmds with frozen := true } : ICPCManager).deref
      k).problems n).frozen_submissions = 0 := hzero hfz k n a0
  rw [this, zero_add]

/-- Instance of C17: after a well-formed start of the contest, a freeze and two
rejected submissions of T1 to problem B, with a flush in between, the counter
of B is 2. -/
theorem freeze_window_invariant_witness :
    wellFormed ICPCManager.init
      [.addteam "T1", .start 100 2, .submit "A" "T1" "Wrong_Answer" 5] = true ∧
    (Map.get ((run (freeze_scoreboard (run ICPCManager.init
      [.addteam "T1", .start 100 2, .submit "A" "T1" "Wrong_Answer" 5])).1
      [.submit "B" "T1" "Wrong_Answer" 20, .flush,
        .submit "B" "T1" "Wrong_Answer" 21]).deref "T1").problems "B").frozen_submissions =
      2 :=
  ⟨by decide,
    (((freeze_window_invariant [.addteam "T1", .start 100 2, .submit "A" "T1" "Wrong_Answer" 5]
      (by decide)).2 (by decide) (by decide)).2.2.2
      [.submit "B" "T1" "Wrong_Answer" 20, .flush, .submit "B" "T1" "Wrong_Answer" 21]
      (by decide) "T1" "B" (by decide)).trans (by decide)⟩

/-! ## The order of registration -/

theorem extEq_get {m1 m2 : List (String × Team)} (h : ExtEq m1 m2) (k : String) :
    Map.get m1 k = Map.get m2 k := by
  simp only [Map.get, h k]

theorem extEq_set {m1 m2 : List (String × Team)} (h : ExtEq m1 m2) (k : String) (v : Team) :
    ExtEq (Map.set m1 k v) (Map.set m2 k v) := by
  intro j
  by_cases hj : j = k
  · subst hj
    rw [Map.find_set_self, Map.find_set_self]
  · rw [Map.find_set_ne _ _ _ _ hj, Map.find_set_ne _ _ _ _ hj]
    exact h j

theorem stateEq_deref {s1 s2 : ICPCManager} (h : StateEq s1 s2) (k : String) :
    s1.deref k = s2.deref k :=
  extEq_get h.1 k

theorem print_rows_ext (l : List String) : ∀ (s1 s2 : ICPCManager) (i : Nat),
    ExtEq s1.teams s2.teams → s1.frozen = s2.frozen → s1.problem_names = s2.problem_names →
    (print_rows s1 i l).2 = (print_rows s2 i l).2 ∧
    ExtEq (print_rows s1 i l).1.teams (print_rows s2 i l).1.teams := by
  induction l with
  | nil => intro s1 s2 i h _ _; exact ⟨rfl, h⟩
  | cons p rest ih =>
    intro s1 s2 i h hf hn
    have hd : s1.deref p = s2.deref p := extEq_get h p
    have hc : print_cells s1.frozen (s1.deref p) s1.problem_names =
        print_cells s2.frozen (s2.deref p) s2.problem_names := by rw [hd, hf, hn]
    simp only [print_rows]
    obtain ⟨e1, e2⟩ := ih
      { s1 with teams := Map.set s1.teams p (print_cells s1.frozen (s1.deref p) s1.problem_names).1 }
      { s2 with teams := Map.set s2.teams p (print_cells s2.frozen (s2.deref p) s2.problem_names).1 }
      (i + 1) (by rw [hc]; exact extEq_set h p _) hf hn
    refine ⟨?_, e2⟩
    rw [e1, hc, hd]

theorem print_scoreboard_ext (s1 s2 : ICPCManager) (h : StateEq s1 s2) (l : List String) :
    (print_scoreboard s1 l).2 = (print_scoreboard s2 l).2 ∧
    StateEq (print_scoreboard s1 l).1 (print_scoreboard s2 l).1 := by
  obtain ⟨h1, h2, h3, h4, h5⟩ := h
  obtain ⟨e1, e2⟩ := print_rows_ext l s1 s2 0 h1 h4 h5
  refine ⟨e1, e2, ?_, ?_, ?_, ?_⟩
  · simp only [print_scoreboard]
    rw [print_rows_fields l s1, print_rows_fields l s2]
    exact h2
  · simp only [print_scoreboard]
    rw [print_rows_fields l s1, print_rows_fields l s2]
    exact h3
  · simp only [print_scoreboard]
    rw [print_rows_fields l s1, print_rows_fields l s2]
    exact h4
  · simp only [print_scoreboard]
    rw [print_rows_fields l s1, print_rows_fields l s2]
    exact h5

theorem freeze_all_ext (m1 m2 : List (String × Team)) (names : List String)
    (h : ExtEq m1 m2) : ExtEq (freeze_all m1 names) (freeze_all m2 names) := by
  intro k
  rw [get_freeze_all, get_freeze_all, h k]

/-- Two states that differ in the order of registration only have the same
ranking. -/
theorem ranked_ext (s1 s2 : ICPCManager) (h : StateEq s1 s2) (hs : Reachable s1) :
    s1.ranked = s2.ranked := by
  have hlt : s2.ptrLt = s1.ptrLt := by
    funext a b
    simp only [ICPCManager.ptrLt, stateEq_deref h a, stateEq_deref h b]
  have hst := ptrLt_strictTotal s1 hs
  have hnd : s2.team_ptrs.Nodup := h.2.1.nodup_iff.mp (reachable_ptrInv hs).1
  rw [ranked_eq s2, hlt]
  apply sorted_perm_unique hst
  · intro x hx
    exact (mem_sortBy _ _ _).mp hx
  · exact (sortBy_perm _ _).trans (h.2.1.trans (sortBy_perm _ _).symm)
  · exact ranked_sorted s1 hs
  · exact sortBy_sorted hst s2.team_ptrs (fun x hx => h.2.1.mem_iff.mpr hx) hnd

theorem scroll_mid_ext (s1 s2 : ICPCManager) (h : StateEq s1 s2) (hr : s1.ranked = s2.ranked) :
    StateEq (scroll_mid s1) (scroll_mid s2) := by
  obtain ⟨e1, e2⟩ := print_scoreboard_ext s1 s2 h s1.ranked
  have hx : ExtEq (scroll_mid s1).teams (scroll_mid s2).teams := by
    simp only [scroll_mid]
    rw [← hr, e2.2.2.2.2]
    exact freeze_all_ext _ _ _ e2.1
  refine ⟨hx, ?_, ?_, ?_, ?_⟩
  · rw [scroll_mid_fields s1, scroll_mid_fields s2]
    exact h.2.1
  · rw [scroll_mid_fields s1, scroll_mid_fields s2]
    exact h.2.2.1
  · rw [scroll_mid_fields s1, scroll_mid_fields s2]
  · rw [scroll_mid_fields s1, scroll_mid_fields s2]
    exact h.2.2.2.2

theorem find_rank_ext (s1 s2 : ICPCManager) (h : StateEq s1 s2) (x : String) :
    ∀ (l : List String) (i : Nat), find_rank s1 x i l = find_rank s2 x i l := by
  intro l
  induction l with
  | nil => intro i; rfl
  | cons p r ih =>
    intro i
    simp only [find_rank, stateEq_deref h p, ih]

theorem run_append (a b : List Cmd) : ∀ s : ICPCManager, run s (a ++ b) = run (run s a) b := by
  induction a with
  | nil => intro s; rfl
  | cons c cs ih => intro s; exact ih _

theorem reachable_step {s : ICPCManager} (hs : Reachable s) (c : Cmd) :
    Reachable (step s c).1 := by
  obtain ⟨cmds, rfl⟩ := hs
  exact ⟨cmds ++ [c], by rw [run_append]; rfl⟩

/-- One command on two states that differ in the order of registration only
prints the same lines and leads to two such states. -/
theorem step_stateEq (s1 s2 : ICPCManager) (c : Cmd) (h : StateEq s1 s2) (hs : Reachable s1) :
    (step s1 c).2 = (step s2 c).2 ∧ StateEq (step s1 c).1 (step s2 c).1 := by
  have hr := ranked_ext s1 s2 h hs
  obtain ⟨h1, h2, h3, h4, h5⟩ := h
  have h := (⟨h1, h2, h3, h4, h5⟩ : StateEq s1 s2)
  cases c with
  | addteam name =>
    simp only [step, add_team, ← h3, ← h1 name]
    split_ifs
    · exact ⟨rfl, h⟩
    · exact ⟨rfl, h⟩
    · exact ⟨rfl, extEq_set h1 name _, h2.append_right _, rfl, h4, h5⟩
  | start d p =>
    simp only [step, start_competition, ← h3]
    split_ifs
    · exact ⟨rfl, h⟩
    · exact ⟨rfl, h1, h2, rfl, h4, rfl⟩
  | submit p t st tm =>
    simp only [step, submit, ← h3, ← h4, Map.get_set_self, ← extEq_get h1 t]
    split_ifs
    · exact ⟨rfl, h⟩
    · exact ⟨rfl, extEq_set (extEq_set h1 t _) t _, h2, rfl, rfl, h5⟩
    · exact ⟨rfl, extEq_set h1 t _, h2, rfl, rfl, h5⟩
  | flush =>
    simp only [step, flush_scoreboard, ← h3, ← hr]
    split_ifs
    · exact ⟨rfl, h⟩
    · obtain ⟨e1, e2⟩ := print_scoreboard_ext s1 s2 h s1.ranked
      exact ⟨by rw [e1], e2⟩
  | freeze =>
    simp only [step, freeze_scoreboard, ← h3, ← h4]
    split_ifs
    · exact ⟨rfl, h⟩
    · exact ⟨rfl, h⟩
    · exact ⟨rfl, h1, h2, rfl, rfl, h5⟩
  | scroll =>
    simp only [step, scroll_scoreboard, ← h3, ← h4]
    split_ifs
    · exact ⟨rfl, h⟩
    · exact ⟨rfl, h⟩
    · have hm := scroll_mid_ext s1 s2 h hr
      have hr1 := ranked_scroll_mid s1
      have hr2 := ranked_scroll_mid s2
      obtain ⟨e1, _⟩ := print_scoreboard_ext s1 s2 h s1.ranked
      obtain ⟨e3, e4⟩ := print_scoreboard_ext (scroll_mid s1) (scroll_mid s2) hm s1.ranked
      rw [hr1, hr2, ← hr, rank_changes_self, rank_changes_self, e1, e3]
      exact ⟨rfl, e4⟩
  | query_ranking t =>
    simp only [step, query_ranking, ← h1 t, ← h4, ← hr, find_rank_ext s1 s2 h t]
    split_ifs <;> exact ⟨rfl, h⟩
  | query_submission t p st =>
    simp only [step, query_submission, ← h1 t, ← extEq_get h1 t]
    split_ifs
    · exact ⟨rfl, h⟩
    · split <;> exact ⟨rfl, h⟩

theorem run_stateEq (cmds : List Cmd) : ∀ s1 s2 : ICPCManager, StateEq s1 s2 → Reachable s1 →
    runOut s1 cmds = runOut s2 cmds ∧ StateEq (run s1 cmds) (run s2 cmds) ∧
    Reachable (run s1 cmds) := by
  induction cmds with
  | nil => intro s1 s2 h hs; exact ⟨rfl, h, hs⟩
  | cons c cs ih =>
    intro s1 s2 h hs
    obtain ⟨e1, e2⟩ := step_stateEq s1 s2 c h hs
    obtain ⟨e3, e4, e5⟩ := ih _ _ e2 (reachable_step hs c)
    exact ⟨by simp only [runOut, e1, e3], e4, e5⟩

/-- The registration of new, distinct names before the start: each name is
appended to `team_ptrs` and stored with a new team, and nothing else
changes. -/
theorem run_addteams (names : List String) : ∀ s : ICPCManager,
    s.competition_started = false → names.Nodup → (∀ n ∈ names, Map.find s.teams n = none) →
    (run s (names.map Cmd.addteam)).team_ptrs = s.team_ptrs ++ names ∧
    (∀ k, Map.find (run s (names.map Cmd.addteam)).teams k =
      if k ∈ names then some (Team.new k) else Map.find s.teams k) ∧
    (run s (names.map Cmd.addteam)).competition_started = false ∧
    (run s (names.map Cmd.addteam)).frozen = s.frozen ∧
    (run s (names.map Cmd.addteam)).problem_names = s.problem_names := by
  induction names with
  | nil =>
    intro s hst _ _
    simp [run, hst]
  | cons n rest ih =>
    intro s hst hnd hnew
    rw [List.nodup_cons] at hnd
    have hn : Map.find s.teams n = none := hnew n (List.mem_cons_self _ _)
    have hstep : (step s (Cmd.addteam n)).1 =
        { s with teams := Map.set s.teams n (Team.new n), team_ptrs := s.team_ptrs ++ [n] } := by
      simp [step, add_team, hst, hn]
    simp only [List.map_cons, run]
    rw [hstep]
    obtain ⟨e1, e2, e3, e4, e5⟩ := ih
      { s with teams := Map.set s.teams n (Team.new n), team_ptrs := s.team_ptrs ++ [n] }
      hst hnd.2 (by
        intro m hm
        have hmn : m ≠ n := fun e => hnd.1 (e ▸ hm)
        simp only [Map.find_set_ne _ _ _ _ hmn]
        exact hnew m (List.mem_cons_of_mem _ hm))
    refine ⟨by rw [e1]; simp, ?_, e3, e4, e5⟩
    intro k
    rw [e2 k]
    by_cases hk : k ∈ rest
    · simp [hk]
    · by_cases hkn : k = n
      · subst hkn
        simp [hk, Map.find_set_self]
      · simp [hk, hkn, Map.find_set_ne _ _ _ _ hkn]

theorem reachable_run (cmds : List Cmd) : Reachable (run ICPCManager.init cmds) :=
  ⟨cmds, rfl⟩

/-- Two registrations of the same distinct names in different orders lead to
states that differ in the order of registration only. -/
theorem stateEq_addteams (names1 names2 : List String) (hperm : names1.Perm names2)
    (hnd : names1.Nodup) :
    StateEq (run ICPCManager.init (names1.map Cmd.addteam))
      (run ICPCManager.init (names2.map Cmd.addteam)) := by
  have hnd2 : names2.Nodup := hperm.nodup_iff.mp hnd
  obtain ⟨a1, a2, a3, a4, a5⟩ := run_addteams names1 ICPCManager.init rfl hnd (fun _ _ => rfl)
  obtain ⟨b1, b2, b3, b4, b5⟩ := run_addteams names2 ICPCManager.init rfl hnd2 (fun _ _ => rfl)
  refine ⟨?_, ?_, by rw [a3, b3], by rw [a4, b4], by rw [a5, b5]⟩
  · intro k
    rw [a2 k, b2 k]
    simp only [hperm.mem_iff]
  · rw [a1, b1]
    simpa [ICPCManager.init] using hperm

/-- C18. Two runs that register the same distinct team names in different
orders and then issue the same start and the same commands print the same
lines, so every table of a flush or a scroll lists the teams in the same order
and every ranking query reports the same rank; the rankings of the two final
states are the same sequence, and query_ranking prints the same for every
team. -/
theorem ranking_insertion_order_independent (names1 names2 : List String) (d p : Int)
    (ops : List Cmd) (hperm : names1.Perm names2) (hnd : names1.Nodup) :
    runOut (run ICPCManager.init (names1.map Cmd.addteam ++ [Cmd.start d p])) ops =
      runOut (run ICPCManager.init (names2.map Cmd.addteam ++ [Cmd.start d p])) ops ∧
    (run ICPCManager.init (names1.map Cmd.addteam ++ Cmd.start d p :: ops)).ranked =
      (run ICPCManager.init (names2.map Cmd.addteam ++ Cmd.start d p :: ops)).ranked ∧
    (∀ team_name,
      (query_ranking (run ICPCManager.init (names1.map Cmd.addteam ++ Cmd.start d p :: ops))
        team_name).2 =
      (query_ranking (run ICPCManager.init (names2.map Cmd.addteam ++ Cmd.start d p :: ops))
        team_name).2) := by
  have h0 := stateEq_addteams names1 names2 hperm hnd
  have h1 := step_stateEq _ _ (Cmd.start d p) h0 (reachable_run _)
  have e1 : ∀ names : List String,
      run ICPCManager.init (names.map Cmd.addteam ++ [Cmd.start d p]) =
        (step (run ICPCManager.init (names.map Cmd.addteam)) (Cmd.start d p)).1 := by
    intro names
    rw [run_append]
    rfl
  have e2 : ∀ names : List String,
      run ICPCManager.init (names.map Cmd.addteam ++ Cmd.start d p :: ops) =
        run (step (run ICPCManager.init (names.map Cmd.addteam)) (Cmd.start d p)).1 ops := by
    intro names
    rw [run_append]
    rfl
  obtain ⟨o, hse, hre⟩ := run_stateEq ops _ _ h1.2 (reachable_step (reachable_run _) _)
  rw [e1, e1, e2, e2]
  refine ⟨o, ranked_ext _ _ hse hre, ?_⟩
  intro team_name
  have := (step_stateEq _ _ (Cmd.query_ranking team_name) hse hre).1
  simpa [step] using this

/-- Instance of C18: the teams T1, T0, T2 registered in two orders, with the
same start, submissions and flush. -/
theorem ranking_insertion_order_independent_witness :
    (run ICPCManager.init ([.addteam "T1", .addteam "T0", .addteam "T2"] ++
      Cmd.start 100 2 :: [.submit "A" "T2" "Accepted" 15, .flush])).ranked =
      (run ICPCManager.init ([.addteam "T2", .addteam "T1", .addteam "T0"] ++
        Cmd.start 100 2 :: [.submit "A" "T2" "Accepted" 15, .flush])).ranked ∧
    (run ICPCManager.init ([.addteam "T1", .addteam "T0", .addteam "T2"] ++
      Cmd.start 100 2 :: [.submit "A" "T2" "Accepted" 15, .flush])).ranked = ["T2", "T0", "T1"] ∧
    (run ICPCManager.init ([.addteam "T1", .addteam "T0", .addteam "T2"] ++
      Cmd.start 100 2 :: [.submit "A" "T2" "Accepted" 15, .flush])).team_ptrs ≠
      (run ICPCManager.init ([.addteam "T2", .addteam "T1", .addteam "T0"] ++
        Cmd.start 100 2 :: [.submit "A" "T2" "Accepted" 15, .flush])).team_ptrs :=
  ⟨(ranking_insertion_order_independent ["T1", "T0", "T2"] ["T2", "T1", "T0"] 100 2
      [.submit "A" "T2" "Accepted" 15, .flush] (by decide) (by decide)).2.1,
    by decide, by decide⟩

end ICPC
